import Mathlib

/-!
# Delight: cubic Bezier timing solver

A shallow embedding of `Sources/Delight/Timing/CubicBezierSolver.c`.

Doubles are read as exact numbers.  The polynomial half of the file
(`coefficientsFromCurve`, `CurvePointOnBezierCurveAtT`, the translation of a
control point) only needs an ordered field, so it is written over an arbitrary
`LinearOrderedField` and runs on `ℚ`.  The root solver calls `sqrt`, `cbrt`,
`cos`, `acos` and complex arithmetic, so it lives over `ℝ` and `ℂ`.

A C library call outside its domain (`sqrt` of a negative number, `acos`
outside `[-1, 1]`) and a division by zero do not produce a real number; they
are modelled by `none`, and every arithmetic operation on `none` is `none`
again, which is how the corresponding non-finite double behaves on the paths
of `rootForCurve`: each candidate is a sum with `simpleRoot`, and a non-finite
candidate never passes the `floatIsUniform` test.

Two statements about the forward evaluation, a range and an order of its
results, hold for exact numbers and fail by one unit in the last place on
doubles.  For them the forward evaluation is embedded a second time
(`coefficientsFromCurveRounded`, `CurvePointOnBezierCurveAtTRounded`), with the
result of every operation rounded to the nearest binary64 number.
-/

namespace Delight

/-! ## Data model (CubicBezierSolver.h and the private types of the .c file) -/

/-- The axis selector of `coefficientsFromCurve`. -/
inductive Axis where
  | XAxis
  | YAxis
  deriving DecidableEq, Repr

/-- The four power-basis coefficients of one axis of a curve. -/
structure CubicCoefficients (K : Type) where
  a : K
  b : K
  c : K
  d : K
  deriving DecidableEq, Repr

/-- A control point of a curve. -/
structure CControlPoint (K : Type) where
  x : K
  y : K
  deriving DecidableEq, Repr

/-- The result of evaluating a curve. -/
structure CCurvePoint (K : Type) where
  relativeTime : K
  relativeValue : K
  deriving DecidableEq, Repr

/-- A cubic Bezier curve: four control points. -/
structure CCubicBezierCurve (K : Type) where
  c0 : CControlPoint K
  c1 : CControlPoint K
  c2 : CControlPoint K
  c3 : CControlPoint K
  deriving DecidableEq, Repr

section Field

variable {K : Type} [LinearOrderedField K]

/-! ## Helpers -/

/-- The C helper `floatIsUniform`: `0 <= value && value <= 1`. -/
def floatIsUniform (value : K) : Bool :=
  decide (0 ≤ value) && decide (value ≤ 1)

/-- The C helper `translatedControlPoint`. -/
def translatedControlPoint (controlPoint : CControlPoint K) (tx ty : K) : CControlPoint K :=
  { x := controlPoint.x + tx
    y := controlPoint.y + ty }

/-- The C function `coefficientsFromCurve`. -/
def coefficientsFromCurve (curve : CCubicBezierCurve K) (axis : Axis) : CubicCoefficients K :=
  let c0 := if axis = Axis.XAxis then curve.c0.x else curve.c0.y
  let c1 := if axis = Axis.XAxis then curve.c1.x else curve.c1.y
  let c2 := if axis = Axis.XAxis then curve.c2.x else curve.c2.y
  let c3 := if axis = Axis.XAxis then curve.c3.x else curve.c3.y
  { a := c3 - 3*c2 + 3*c1 - c0
    b := 3*c2 - 6*c1 + 3*c0
    c := 3*c1 - 3*c0
    d := c0 }

/-- The C function `CurvePointOnBezierCurveAtT`: outside the open unit interval
both fields are the clamped `t`; inside, the loop `for (i = 3; i >= 0; i--)`
adds `combinedCoefficients[3-i] * pow(t, i)` to the two accumulators. -/
def CurvePointOnBezierCurveAtT (curve : CCubicBezierCurve K) (t : K) : CCurvePoint K :=
  if t ≤ 0 ∨ t ≥ 1 then
    let value := min (max 0 t) 1
    { relativeTime := value, relativeValue := value }
  else
    let xCoefficients := coefficientsFromCurve curve Axis.XAxis
    let yCoefficients := coefficientsFromCurve curve Axis.YAxis
    let combinedCoefficients : List (K × K) :=
      [ (xCoefficients.a, yCoefficients.a),
        (xCoefficients.b, yCoefficients.b),
        (xCoefficients.c, yCoefficients.c),
        (xCoefficients.d, yCoefficients.d) ]
    let sums : K × K :=
      [3, 2, 1, 0].foldl
        (fun (acc : K × K) (i : ℕ) =>
          let coefficient := combinedCoefficients.getD (3 - i) (0, 0)
          let tValue := t ^ i
          (acc.1 + coefficient.1 * tValue, acc.2 + coefficient.2 * tValue))
        (0, 0)
    { relativeTime := sums.1, relativeValue := sums.2 }

/-- The value at `t` of the cubic with the given coefficients. -/
def CubicCoefficients.eval (k : CubicCoefficients K) (t : K) : K :=
  k.a * t ^ 3 + k.b * t ^ 2 + k.c * t + k.d

/-- The Bernstein form of a cubic Bezier coordinate, as in the derivation
comment above `coefficientsFromCurve`. -/
def bernstein (c0 c1 c2 c3 t : K) : K :=
  (1 - t) ^ 3 * c0 + 3 * (1 - t) ^ 2 * t * c1 + 3 * (1 - t) * t ^ 2 * c2 + t ^ 3 * c3

end Field

/-! ## The C math library on exact reals -/

/-- The C `sqrt` on a double: not a number below zero. -/
noncomputable def sqrtD (x : ℝ) : Option ℝ :=
  if 0 ≤ x then some (Real.sqrt x) else none

/-- The C `acos` on a double: not a number outside `[-1, 1]`. -/
noncomputable def acosD (x : ℝ) : Option ℝ :=
  if -1 ≤ x ∧ x ≤ 1 then some (Real.arccos x) else none

/-- The C division of doubles: a zero divisor gives an infinity or a NaN,
never a real number. -/
noncomputable def divD (x y : ℝ) : Option ℝ :=
  if y = 0 then none else some (x / y)

/-- The C `cbrt`: the real cube root, odd in its argument. -/
noncomputable def cbrt (x : ℝ) : ℝ :=
  if 0 ≤ x then x ^ (1 / 3 : ℝ) else -((-x) ^ (1 / 3 : ℝ))

/-- The C helper `rootOfUnity`:
`(i > 0) ? (-1 + I*sqrt(3)*pow(-1, i)) / 2 : 1`. -/
noncomputable def rootOfUnity (i : ℕ) : ℂ :=
  if i > 0 then (-1 + Complex.I * ((Real.sqrt 3 : ℝ) : ℂ) * (((-1 : ℝ) ^ i : ℝ) : ℂ)) / 2 else 1

/-- The C helper `rotatedControlPointAroundOriginByDegrees`. -/
noncomputable def rotatedControlPointAroundOriginByDegrees
    (controlPoint : CControlPoint ℝ) (degrees : ℝ) : CControlPoint ℝ :=
  let radians := degrees * Real.pi / 180
  { x := controlPoint.x * Real.cos radians - controlPoint.y * Real.sin radians
    y := controlPoint.x * Real.sin radians + controlPoint.y * Real.cos radians }

/-! ## The root solver -/

/-- The branch chain in the loop body of `rootForCurve` (the assignment of
`possibleRoot` before `simpleRoot` is added), for the reduced `p` and `q` and
the loop index `i`. -/
noncomputable def cardanoCandidate (p q : ℝ) (i : ℕ) : Option ℂ :=
  let discriminant := p ^ 3 + q ^ 2
  if 3 * p = 0 ∨ 2 * q = 0 then do
    let pIsZeroRoot : ℂ := ((cbrt (-2 * q) : ℝ) : ℂ) * rootOfUnity i
    let s ← sqrtD (-3 * p)
    let qIsZeroRoot : ℂ := (((-1 : ℝ) ^ i * s * min (i : ℝ) 1 : ℝ) : ℂ)
    pure (if p = 0 then pIsZeroRoot else qIsZeroRoot)
  else if discriminant = 0 then
    let power : ℕ := if i = 0 then 1 else 2
    pure (((2 : ℝ) ^ (2 - power) * cbrt (q * (-1 : ℝ) ^ power) : ℝ) : ℂ)
  else if discriminant > 0 then do
    let sd ← sqrtD discriminant
    let u : ℂ := ((cbrt (sd - q) : ℝ) : ℂ) * rootOfUnity i
    let v : ℂ := ((cbrt (sd + q) : ℝ) : ℂ) * (starRingEnd ℂ) (rootOfUnity i)
    pure (u - v)
  else do
    let r ← sqrtD (|p| ^ 3)
    let cosine ← divD (-q) r
    let angle ← acosD cosine
    let phi := angle + 2 * (i : ℝ) * Real.pi
    pure (((2 * cbrt r * Real.cos (phi / 3) : ℝ) : ℂ))

/-- The value of `possibleRoot` that the loop of `rootForCurve` tests at index
`i`: the reduced coefficients, `simpleRoot`, `p`, `q`, the candidate of the
branch chain, and `possibleRoot += simpleRoot`. -/
noncomputable def possibleRoot (curve : CCubicBezierCurve ℝ) (i : ℕ) : Option ℂ := do
  let coefficients := coefficientsFromCurve curve Axis.YAxis
  let a ← divD coefficients.b coefficients.a
  let b ← divD coefficients.c coefficients.a
  let c ← divD coefficients.d coefficients.a
  let simpleRoot := -a / 3
  let p := (3 * b - a * a) / 9
  let q := (2 * a * a * a - 9 * a * b + 27 * c) / 54
  let candidate ← cardanoCandidate p q i
  pure (candidate + ((simpleRoot : ℝ) : ℂ))

/-- The end of the loop body of `rootForCurve`:
`if (cimag(possibleRoot) == 0 && floatIsUniform(creal(possibleRoot))) root = creal(possibleRoot);`
where a candidate that is not a number fails the test. -/
noncomputable def acceptRoot (root : ℝ) (candidate : Option ℂ) : ℝ :=
  match candidate with
  | some z => if z.im = 0 ∧ floatIsUniform z.re = true then z.re else root
  | none => root

/-- The C function `rootForCurve`: `root` starts at 0 and is overwritten by
every candidate of `i = 0, 1, 2` whose imaginary part is zero and whose real
part passes `floatIsUniform`. -/
noncomputable def rootForCurve (curve : CCubicBezierCurve ℝ) : ℝ :=
  [0, 1, 2].foldl (fun (root : ℝ) (i : ℕ) => acceptRoot root (possibleRoot curve i)) 0

/-- The test of the loop body of `rootForCurve` holds for the candidate. -/
def isAccepted (candidate : Option ℂ) : Prop :=
  ∃ z, candidate = some z ∧ z.im = 0 ∧ floatIsUniform z.re = true

/-! ## External API: the inverse evaluation -/

/-- The curve `alignedCurve` built inside `CurvePointIntersectingCurveAtT`:
every control point translated by `(-t, 0)` and then rotated by 90 degrees. -/
noncomputable def alignedCurve (curve : CCubicBezierCurve ℝ) (t : ℝ) : CCubicBezierCurve ℝ :=
  let tx := -t
  let degrees : ℝ := 90
  { c0 := rotatedControlPointAroundOriginByDegrees (translatedControlPoint curve.c0 tx 0) degrees
    c1 := rotatedControlPointAroundOriginByDegrees (translatedControlPoint curve.c1 tx 0) degrees
    c2 := rotatedControlPointAroundOriginByDegrees (translatedControlPoint curve.c2 tx 0) degrees
    c3 := rotatedControlPointAroundOriginByDegrees (translatedControlPoint curve.c3 tx 0) degrees }

/-- The C function `CurvePointIntersectingCurveAtT`. -/
noncomputable def CurvePointIntersectingCurveAtT (curve : CCubicBezierCurve ℝ) (t : ℝ) :
    CCurvePoint ℝ :=
  if t ≤ 0 ∨ t ≥ 1 then
    CurvePointOnBezierCurveAtT curve (min (max 0 t) 1)
  else
    let timeOffset := if t ≠ 0 ∧ t ≠ 1 then rootForCurve (alignedCurve curve t) else t
    CurvePointOnBezierCurveAtT curve timeOffset

/-! ## Named quantities used in the statements -/

/-- The reduced coefficient `p` of `rootForCurve`, for power-basis coefficients
with a non-zero leading one. -/
noncomputable def reducedP (k : CubicCoefficients ℝ) : ℝ :=
  let a := k.b / k.a
  let b := k.c / k.a
  (3 * b - a * a) / 9

/-- The reduced coefficient `q` of `rootForCurve`, for power-basis coefficients
with a non-zero leading one. -/
noncomputable def reducedQ (k : CubicCoefficients ℝ) : ℝ :=
  let a := k.b / k.a
  let b := k.c / k.a
  let c := k.d / k.a
  (2 * a * a * a - 9 * a * b + 27 * c) / 54

/-- The shift `simpleRoot = -a/3` of `rootForCurve`, with `a` the reduced
coefficient `b / a` of the power-basis coefficients. -/
noncomputable def simpleRoot (k : CubicCoefficients ℝ) : ℝ :=
  -(k.b / k.a) / 3

/-- The candidate of index 0 in the branch of a positive discriminant, where
`rootOfUnity(0) = 1`: `cbrt(sqrt(Δ) - q) - cbrt(sqrt(Δ) + q) + simpleRoot`. -/
noncomputable def realCardanoRoot (k : CubicCoefficients ℝ) : ℝ :=
  cbrt (Real.sqrt (reducedP k ^ 3 + reducedQ k ^ 2) - reducedQ k) -
    cbrt (Real.sqrt (reducedP k ^ 3 + reducedQ k ^ 2) + reducedQ k) + simpleRoot k

/-- The candidate of index `i` in the branch of a negative discriminant:
`2*cbrt(r)*cos((acos(-q/r) + 2*i*pi)/3) + simpleRoot` with `r = sqrt(|p|^3)`. -/
noncomputable def trigCandidate (k : CubicCoefficients ℝ) (i : ℕ) : ℝ :=
  2 * cbrt (Real.sqrt (|reducedP k| ^ 3)) *
    Real.cos ((Real.arccos (-reducedQ k / Real.sqrt (|reducedP k| ^ 3)) +
      2 * (i : ℝ) * Real.pi) / 3) + simpleRoot k

/-- The Bezier point in Bernstein form, as the documentation of the solver
writes a cubic curve: `c0*u^3 + 3*c1*t*u^2 + 3*c2*t^2*u + c3*t^3` with
`u = 1 - t`, on each axis. -/
def bezierPoint {K : Type} [LinearOrderedField K] (curve : CCubicBezierCurve K) (t : K) :
    CCurvePoint K :=
  { relativeTime := bernstein curve.c0.x curve.c1.x curve.c2.x curve.c3.x t
    relativeValue := bernstein curve.c0.y curve.c1.y curve.c2.y curve.c3.y t }

/-! ## A second embedding of the forward evaluation: binary64 arithmetic

The definitions above read a double as the number it stands for.  The two
below keep the rounding of every operation of `coefficientsFromCurve` and
`CurvePointOnBezierCurveAtT`: a double is a rational number, and the result of
each product, sum, difference and call of `pow` is rounded to the nearest
binary64 number, ties to even.  The exponent range (overflow, subnormal
numbers) is not modelled. -/

/-- The integer nearest to `q`; halfway between two integers, the even one. -/
def roundNearestEven (q : ℚ) : ℤ :=
  if q - (Int.floor q : ℚ) < 1 / 2 then Int.floor q
  else if 1 / 2 < q - (Int.floor q : ℚ) then Int.floor q + 1
  else if Int.floor q % 2 = 0 then Int.floor q else Int.floor q + 1

/-- The binary64 number nearest to `x`, ties to even: a multiple of
`2 ^ (e - 52)`, where `2 ^ e <= |x| < 2 ^ (e + 1)`. -/
def roundDouble (x : ℚ) : ℚ :=
  if x = 0 then 0
  else (roundNearestEven (x / 2 ^ (Int.log 2 |x| - 52)) : ℚ) * 2 ^ (Int.log 2 |x| - 52)

/-- The C function `coefficientsFromCurve` on binary64 numbers: in
`c3 - 3*c2 + 3*c1 - c0`, `3*c2 - 6*c1 + 3*c0` and `3*c1 - 3*c0` every product
is rounded and every sum or difference, taken from left to right, is rounded. -/
def coefficientsFromCurveRounded (curve : CCubicBezierCurve ℚ) (axis : Axis) :
    CubicCoefficients ℚ :=
  let c0 := if axis = Axis.XAxis then curve.c0.x else curve.c0.y
  let c1 := if axis = Axis.XAxis then curve.c1.x else curve.c1.y
  let c2 := if axis = Axis.XAxis then curve.c2.x else curve.c2.y
  let c3 := if axis = Axis.XAxis then curve.c3.x else curve.c3.y
  { a := roundDouble (roundDouble (roundDouble (c3 - roundDouble (3 * c2)) +
      roundDouble (3 * c1)) - c0)
    b := roundDouble (roundDouble (roundDouble (3 * c2) - roundDouble (6 * c1)) +
      roundDouble (3 * c0))
    c := roundDouble (roundDouble (3 * c1) - roundDouble (3 * c0))
    d := c0 }

/-- The C function `CurvePointOnBezierCurveAtT` on binary64 numbers: the loop
adds the rounded product of the coefficient and the rounded `pow(t, i)` to each
accumulator and rounds the sum. -/
def CurvePointOnBezierCurveAtTRounded (curve : CCubicBezierCurve ℚ) (t : ℚ) : CCurvePoint ℚ :=
  if t ≤ 0 ∨ t ≥ 1 then
    let value := min (max 0 t) 1
    { relativeTime := value, relativeValue := value }
  else
    let xCoefficients := coefficientsFromCurveRounded curve Axis.XAxis
    let yCoefficients := coefficientsFromCurveRounded curve Axis.YAxis
    let combinedCoefficients : List (ℚ × ℚ) :=
      [ (xCoefficients.a, yCoefficients.a),
        (xCoefficients.b, yCoefficients.b),
        (xCoefficients.c, yCoefficients.c),
        (xCoefficients.d, yCoefficients.d) ]
    let sums : ℚ × ℚ :=
      [3, 2, 1, 0].foldl
        (fun (acc : ℚ × ℚ) (i : ℕ) =>
          let coefficient := combinedCoefficients.getD (3 - i) (0, 0)
          let tValue := roundDouble (t ^ i)
          (roundDouble (acc.1 + roundDouble (coefficient.1 * tValue)),
            roundDouble (acc.2 + roundDouble (coefficient.2 * tValue))))
        (0, 0)
    { relativeTime := sums.1, relativeValue := sums.2 }

/-! ## Concrete curves -/

/-- The CSS curve "ease-in-out": cubic-bezier(0.42, 0, 0.58, 1). -/
def easeInOutCurve (K : Type) [LinearOrderedField K] : CCubicBezierCurve K :=
  { c0 := ⟨0, 0⟩, c1 := ⟨21/50, 0⟩, c2 := ⟨29/50, 1⟩, c3 := ⟨1, 1⟩ }

/-- A curve that leaves `(0,0)` slowly and reaches `(1,1)` early, with dyadic
coordinates: `(0,0), (1/64,1/64), (1,1), (1,1)`. -/
def steepCurve (K : Type) [LinearOrderedField K] : CCubicBezierCurve K :=
  { c0 := ⟨0, 0⟩, c1 := ⟨1/64, 1/64⟩, c2 := ⟨1, 1⟩, c3 := ⟨1, 1⟩ }

/-- A curve whose Y-axis cubic is `3000 s^3 - 3600 s^2 + 870 s - 54`, with the
three roots `1/10`, `1/5` and `9/10`: `(0,-54), (0,236), (0,-674), (0,216)`. -/
def threeRootCurve (K : Type) [LinearOrderedField K] : CCubicBezierCurve K :=
  { c0 := ⟨0, -54⟩, c1 := ⟨0, 236⟩, c2 := ⟨0, -674⟩, c3 := ⟨0, 216⟩ }

/-- The CSS curve "ease": cubic-bezier(0.25, 0.1, 0.25, 1.0). -/
def easeCurve (K : Type) [LinearOrderedField K] : CCubicBezierCurve K :=
  { c0 := ⟨0, 0⟩, c1 := ⟨1/4, 1/10⟩, c2 := ⟨1/4, 1⟩, c3 := ⟨1, 1⟩ }

/-- The identity curve `(0,0), (1/3,1/3), (2/3,2/3), (1,1)`. -/
def identityCurve (K : Type) [LinearOrderedField K] : CCubicBezierCurve K :=
  { c0 := ⟨0, 0⟩, c1 := ⟨1/3, 1/3⟩, c2 := ⟨2/3, 2/3⟩, c3 := ⟨1, 1⟩ }

/-- A curve with the x-coordinates of "ease" whose coordinates, and those of
its aligned curve at `t = 5/32`, are all dyadic: `(0,0), (1/4,0), (1/4,0), (1,1/2)`. -/
def dyadicEaseCurve (K : Type) [LinearOrderedField K] : CCubicBezierCurve K :=
  { c0 := ⟨0, 0⟩, c1 := ⟨1/4, 0⟩, c2 := ⟨1/4, 0⟩, c3 := ⟨1, 1/2⟩ }

/-- A curve whose Y-axis cubic is `s^3 - 3/4 s^2 + 3/4 s - 5/32`, with the
single real root `1/4`: `(0,-5/32), (0,3/32), (0,3/32), (0,27/32)`. -/
def inflectionCurve (K : Type) [LinearOrderedField K] : CCubicBezierCurve K :=
  { c0 := ⟨0, -5/32⟩, c1 := ⟨0, 3/32⟩, c2 := ⟨0, 3/32⟩, c3 := ⟨0, 27/32⟩ }

/-- A curve whose Y-axis cubic `s^3 + 1` and whose x polynomial `s^3 + 2` have no
root in the unit interval: `(2,1), (2,1), (2,1), (3,2)`. -/
def offsetCurve (K : Type) [LinearOrderedField K] : CCubicBezierCurve K :=
  { c0 := ⟨2, 1⟩, c1 := ⟨2, 1⟩, c2 := ⟨2, 1⟩, c3 := ⟨3, 2⟩ }

/-- A curve whose end points are not `(0,0)` and `(1,1)`:
`(5,7), (1,2), (3,4), (9,11)`. -/
def shiftedCurve (K : Type) [LinearOrderedField K] : CCubicBezierCurve K :=
  { c0 := ⟨5, 7⟩, c1 := ⟨1, 2⟩, c2 := ⟨3, 4⟩, c3 := ⟨9, 11⟩ }

/-! ## Forward evaluation -/

section FieldTheorems

variable {K : Type} [LinearOrderedField K]

/-- The loop of the interior branch adds up to the two cubics. -/
theorem CurvePointOnBezierCurveAtT_interior (curve : CCubicBezierCurve K) (t : K)
    (h0 : 0 < t) (h1 : t < 1) :
    CurvePointOnBezierCurveAtT curve t =
      { relativeTime := (coefficientsFromCurve curve Axis.XAxis).eval t
        relativeValue := (coefficientsFromCurve curve Axis.YAxis).eval t } := by
  have hc : ¬ (t ≤ 0 ∨ t ≥ 1) := by
    rintro (h | h)
    · exact absurd h0 (not_lt.mpr h)
    · exact absurd h1 (not_lt.mpr h)
  simp only [CurvePointOnBezierCurveAtT, if_neg hc, List.foldl, List.getD, CubicCoefficients.eval]
  simp

/-- The clamped branch for a parameter at or below zero. -/
theorem CurvePointOnBezierCurveAtT_le_zero (curve : CCubicBezierCurve K) (t : K) (h : t ≤ 0) :
    CurvePointOnBezierCurveAtT curve t = { relativeTime := 0, relativeValue := 0 } := by
  have hm : min (max 0 t) 1 = 0 := by
    rw [max_eq_left h]; exact min_eq_left zero_le_one
  simp [CurvePointOnBezierCurveAtT, h, hm]

/-- The clamped branch for a parameter at or above one. -/
theorem CurvePointOnBezierCurveAtT_ge_one (curve : CCubicBezierCurve K) (t : K) (h : 1 ≤ t) :
    CurvePointOnBezierCurveAtT curve t = { relativeTime := 1, relativeValue := 1 } := by
  have hm : min (max 0 t) 1 = 1 := by
    rw [max_eq_right (le_trans zero_le_one h)]; exact min_eq_right h
  simp [CurvePointOnBezierCurveAtT, h, hm]

end FieldTheorems

/-! ## The acceptance loop of the root solver -/

/-- An accepted candidate overwrites `root`. -/
theorem acceptRoot_accepted (root : ℝ) (z : ℂ) (him : z.im = 0)
    (hu : floatIsUniform z.re = true) : acceptRoot root (some z) = z.re := by
  simp only [acceptRoot, if_pos (And.intro him hu)]

/-- A candidate that is not accepted leaves `root` as it is. -/
theorem acceptRoot_rejected (root : ℝ) (candidate : Option ℂ) (h : ¬ isAccepted candidate) :
    acceptRoot root candidate = root := by
  cases candidate with
  | none => rfl
  | some z =>
    have : ¬ (z.im = 0 ∧ floatIsUniform z.re = true) := fun hh => h ⟨z, rfl, hh.1, hh.2⟩
    simp only [acceptRoot, if_neg this]

/-- The test `floatIsUniform` is membership in the closed unit interval. -/
theorem floatIsUniform_iff {K : Type} [LinearOrderedField K] (value : K) :
    floatIsUniform value = true ↔ 0 ≤ value ∧ value ≤ 1 := by
  simp only [floatIsUniform, Bool.and_eq_true, decide_eq_true_eq]

/-- One pass of the loop body of `rootForCurve` keeps `root` in the unit interval. -/
theorem acceptRoot_mem_unit (candidate : Option ℂ) (root : ℝ) (h : 0 ≤ root ∧ root ≤ 1) :
    0 ≤ acceptRoot root candidate ∧ acceptRoot root candidate ≤ 1 := by
  by_cases hc : isAccepted candidate
  · obtain ⟨z, hz, him, hu⟩ := hc
    rw [hz, acceptRoot_accepted root z him hu]
    exact (floatIsUniform_iff z.re).mp hu
  · rw [acceptRoot_rejected root candidate hc]
    exact h

/-- The loop of `rootForCurve` written out. -/
theorem rootForCurve_unfold (curve : CCubicBezierCurve ℝ) :
    rootForCurve curve =
      acceptRoot (acceptRoot (acceptRoot 0 (possibleRoot curve 0)) (possibleRoot curve 1))
        (possibleRoot curve 2) := by
  simp only [rootForCurve, List.foldl]

/-- The result of `rootForCurve` always lies in the unit interval. -/
theorem rootForCurve_mem_unit (curve : CCubicBezierCurve ℝ) :
    0 ≤ rootForCurve curve ∧ rootForCurve curve ≤ 1 := by
  rw [rootForCurve_unfold]
  apply acceptRoot_mem_unit
  apply acceptRoot_mem_unit
  apply acceptRoot_mem_unit
  exact ⟨le_refl 0, zero_le_one⟩

/-- The result of `rootForCurve` is 0 when no candidate is accepted, and
otherwise the accepted candidate of greatest index. -/
theorem rootForCurve_cases (curve : CCubicBezierCurve ℝ) :
    (rootForCurve curve = 0 ∧ ∀ i, i ≤ 2 → ¬ isAccepted (possibleRoot curve i)) ∨
      ∃ i, i ≤ 2 ∧ ∃ z, possibleRoot curve i = some z ∧ z.im = 0 ∧
        floatIsUniform z.re = true ∧ rootForCurve curve = z.re ∧
        ∀ j, i < j → j ≤ 2 → ¬ isAccepted (possibleRoot curve j) := by
  rw [rootForCurve_unfold]
  by_cases a2 : isAccepted (possibleRoot curve 2)
  · obtain ⟨z, hz, h1, h2⟩ := a2
    right
    refine ⟨2, le_refl 2, z, hz, h1, h2, ?_, ?_⟩
    · rw [hz, acceptRoot_accepted _ z h1 h2]
    · intro j hj hj2; omega
  rw [acceptRoot_rejected _ _ a2]
  by_cases a1 : isAccepted (possibleRoot curve 1)
  · obtain ⟨z, hz, h1, h2⟩ := a1
    right
    refine ⟨1, by norm_num, z, hz, h1, h2, ?_, ?_⟩
    · rw [hz, acceptRoot_accepted _ z h1 h2]
    · intro j hj hj2
      have : j = 2 := by omega
      rw [this]; exact a2
  rw [acceptRoot_rejected _ _ a1]
  by_cases a0 : isAccepted (possibleRoot curve 0)
  · obtain ⟨z, hz, h1, h2⟩ := a0
    right
    refine ⟨0, by norm_num, z, hz, h1, h2, ?_, ?_⟩
    · rw [hz, acceptRoot_accepted _ z h1 h2]
    · intro j hj hj2
      have : j = 1 ∨ j = 2 := by omega
      rcases this with h | h
      · rw [h]; exact a1
      · rw [h]; exact a2
  rw [acceptRoot_rejected _ _ a0]
  left
  refine ⟨rfl, ?_⟩
  intro i hi
  have : i = 0 ∨ i = 1 ∨ i = 2 := by omega
  rcases this with h | h | h
  · rw [h]; exact a0
  · rw [h]; exact a1
  · rw [h]; exact a2

/-! ## Inverse evaluation at the boundary -/

/-- Outside the open unit interval the inverse evaluation is the forward one. -/
theorem CurvePointIntersectingCurveAtT_boundary (curve : CCubicBezierCurve ℝ) (t : ℝ)
    (h : t ≤ 0 ∨ 1 ≤ t) :
    CurvePointIntersectingCurveAtT curve t = CurvePointOnBezierCurveAtT curve t := by
  have hc : t ≤ 0 ∨ t ≥ 1 := h
  simp only [CurvePointIntersectingCurveAtT, if_pos hc]
  rcases h with h | h
  · have hm : min (max 0 t) 1 = 0 := by
      rw [max_eq_left h]; exact min_eq_left zero_le_one
    rw [hm, CurvePointOnBezierCurveAtT_le_zero curve t h,
      CurvePointOnBezierCurveAtT_le_zero curve 0 (le_refl 0)]
  · have hm : min (max 0 t) 1 = 1 := by
      rw [max_eq_right (le_trans zero_le_one h)]; exact min_eq_right h
    rw [hm, CurvePointOnBezierCurveAtT_ge_one curve t h,
      CurvePointOnBezierCurveAtT_ge_one curve 1 (le_refl 1)]

/-- Inside the open unit interval the inverse evaluation is the forward one at
the solver's root of the aligned curve. -/
theorem CurvePointIntersectingCurveAtT_interior (curve : CCubicBezierCurve ℝ) (t : ℝ)
    (h0 : 0 < t) (h1 : t < 1) :
    CurvePointIntersectingCurveAtT curve t =
      CurvePointOnBezierCurveAtT curve (rootForCurve (alignedCurve curve t)) := by
  have hc : ¬ (t ≤ 0 ∨ t ≥ 1) := by
    rintro (h | h)
    · exact absurd h0 (not_lt.mpr h)
    · exact absurd h1 (not_lt.mpr h)
  have hn : t ≠ 0 ∧ t ≠ 1 := ⟨ne_of_gt h0, ne_of_lt h1⟩
  simp only [CurvePointIntersectingCurveAtT, if_neg hc, if_pos hn]

/-! ## The real cube root -/

/-- Cubing is injective on the reals. -/
theorem cube_injective {x y : ℝ} (h : x ^ 3 = y ^ 3) : x = y :=
  (Odd.strictMono_pow (R := ℝ) (n := 3) (by decide)).injective h

/-- The cube of the cube root. -/
theorem cbrt_cube (x : ℝ) : cbrt x ^ 3 = x := by
  unfold cbrt
  have h3 : (1 / 3 : ℝ) = ((3 : ℕ) : ℝ)⁻¹ := by norm_num
  by_cases hx : 0 ≤ x
  · rw [if_pos hx, h3]
    exact Real.rpow_inv_natCast_pow hx (by norm_num)
  · rw [if_neg hx, h3]
    have hx' : 0 ≤ -x := by linarith
    have := Real.rpow_inv_natCast_pow hx' (n := 3) (by norm_num)
    calc (-((-x) ^ (((3 : ℕ) : ℝ)⁻¹))) ^ 3 = -(((-x) ^ (((3 : ℕ) : ℝ)⁻¹)) ^ 3) := by ring
      _ = x := by rw [this]; ring

/-- The cube root is the only real number with the given cube. -/
theorem cbrt_eq_of_cube_eq {x y : ℝ} (h : y ^ 3 = x) : cbrt x = y :=
  cube_injective (by rw [cbrt_cube, h])

/-- The cube root of a cube. -/
theorem cbrt_of_cube (y : ℝ) : cbrt (y ^ 3) = y := cbrt_eq_of_cube_eq rfl

/-- The cube root is odd. -/
theorem cbrt_neg (x : ℝ) : cbrt (-x) = -cbrt x :=
  cbrt_eq_of_cube_eq (by rw [neg_pow, cbrt_cube]; norm_num)

/-- The cube root of zero. -/
theorem cbrt_zero : cbrt 0 = 0 := cbrt_eq_of_cube_eq (by norm_num)

/-- The cube root vanishes only at zero. -/
theorem cbrt_eq_zero_iff (x : ℝ) : cbrt x = 0 ↔ x = 0 := by
  constructor
  · intro h
    have := cbrt_cube x
    rw [h] at this
    rw [← this]; norm_num
  · intro h; rw [h, cbrt_zero]

/-- The cube root is multiplicative. -/
theorem cbrt_mul (x y : ℝ) : cbrt (x * y) = cbrt x * cbrt y :=
  cbrt_eq_of_cube_eq (by rw [mul_pow, cbrt_cube, cbrt_cube])

/-- The cube root of a non-negative number is non-negative. -/
theorem cbrt_nonneg {x : ℝ} (h : 0 ≤ x) : 0 ≤ cbrt x := by
  have := cbrt_cube x
  by_contra hc
  push_neg at hc
  have : cbrt x ^ 3 < 0 := (Odd.pow_neg_iff (by decide)).mpr hc
  linarith [cbrt_cube x]

/-! ## The branches of the candidate formula -/

/-- The candidate when `p = 0`. -/
theorem cardanoCandidate_p_zero (q : ℝ) (i : ℕ) :
    cardanoCandidate 0 q i = some (((cbrt (-2 * q) : ℝ) : ℂ) * rootOfUnity i) := by
  simp [cardanoCandidate, sqrtD]

/-- The candidate when `q = 0` and `p < 0`. -/
theorem cardanoCandidate_q_zero_neg {p : ℝ} (hp : p < 0) (i : ℕ) :
    cardanoCandidate p 0 i =
      some ((((-1 : ℝ) ^ i * Real.sqrt (-3 * p) * min (i : ℝ) 1 : ℝ) : ℂ)) := by
  have h1 : (0 : ℝ) ≤ -3 * p := by linarith
  have h2 : p ≠ 0 := ne_of_lt hp
  have h0 : 3 * p = 0 ∨ 2 * (0 : ℝ) = 0 := Or.inr (by norm_num)
  simp only [cardanoCandidate, if_pos h0, sqrtD, if_pos h1, if_neg h2, Option.bind_eq_bind,
    Option.some_bind, Option.pure_def]

/-- The candidate when `q = 0` and `p > 0`: the square root is not a number. -/
theorem cardanoCandidate_q_zero_pos {p : ℝ} (hp : 0 < p) (i : ℕ) :
    cardanoCandidate p 0 i = none := by
  have h1 : ¬ (0 : ℝ) ≤ -3 * p := by linarith
  have h0 : 3 * p = 0 ∨ 2 * (0 : ℝ) = 0 := Or.inr (by norm_num)
  simp only [cardanoCandidate, if_pos h0, sqrtD, if_neg h1, Option.bind_eq_bind,
    Option.none_bind]

/-- The candidate when the discriminant is zero. -/
theorem cardanoCandidate_disc_zero {p q : ℝ} (hp : p ≠ 0) (hq : q ≠ 0)
    (hd : p ^ 3 + q ^ 2 = 0) (i : ℕ) :
    cardanoCandidate p q i =
      some (((if i = 0 then 2 * cbrt (-q) else cbrt q : ℝ) : ℂ)) := by
  have h1 : ¬ (3 * p = 0 ∨ 2 * q = 0) := by simp [hp, hq]
  simp only [cardanoCandidate, if_neg h1, if_pos hd]
  by_cases hi : i = 0
  · simp [hi]
  · simp [hi]

/-- The candidate when the discriminant is positive. -/
theorem cardanoCandidate_disc_pos {p q : ℝ} (hp : p ≠ 0) (hq : q ≠ 0)
    (hd : 0 < p ^ 3 + q ^ 2) (i : ℕ) :
    cardanoCandidate p q i =
      some (((cbrt (Real.sqrt (p ^ 3 + q ^ 2) - q) : ℝ) : ℂ) * rootOfUnity i -
        ((cbrt (Real.sqrt (p ^ 3 + q ^ 2) + q) : ℝ) : ℂ) * (starRingEnd ℂ) (rootOfUnity i)) := by
  have h1 : ¬ (3 * p = 0 ∨ 2 * q = 0) := by simp [hp, hq]
  have h2 : ¬ (p ^ 3 + q ^ 2 = 0) := ne_of_gt hd
  have h3 : p ^ 3 + q ^ 2 > 0 := hd
  have h4 : 0 ≤ p ^ 3 + q ^ 2 := le_of_lt hd
  simp only [cardanoCandidate, if_neg h1, if_neg h2, if_pos h3, sqrtD, if_pos h4]
  rfl

/-- In the branch of a negative discriminant `p` is negative and `q` is
smaller in size than `r = sqrt(|p|^3)`. -/
theorem disc_neg_facts {p q : ℝ} (hd : p ^ 3 + q ^ 2 < 0) :
    p < 0 ∧ 0 < Real.sqrt (|p| ^ 3) ∧ Real.sqrt (|p| ^ 3) ^ 2 = -p ^ 3 ∧
      -1 < -q / Real.sqrt (|p| ^ 3) ∧ -q / Real.sqrt (|p| ^ 3) < 1 := by
  have hp : p < 0 := by
    by_contra h
    push_neg at h
    have : 0 ≤ p ^ 3 := pow_nonneg h 3
    nlinarith [sq_nonneg q]
  have habs : |p| ^ 3 = -p ^ 3 := by
    rw [abs_of_neg hp]; ring
  have hpos : 0 < |p| ^ 3 := by
    have : 0 < |p| := abs_pos.mpr (ne_of_lt hp)
    positivity
  have hr : 0 < Real.sqrt (|p| ^ 3) := Real.sqrt_pos.mpr hpos
  have hr2 : Real.sqrt (|p| ^ 3) ^ 2 = -p ^ 3 := by
    rw [Real.sq_sqrt (le_of_lt hpos), habs]
  refine ⟨hp, hr, hr2, ?_, ?_⟩
  · rw [lt_div_iff₀ hr]
    nlinarith
  · rw [div_lt_iff₀ hr]
    nlinarith

/-- The candidate when the discriminant is negative. -/
theorem cardanoCandidate_disc_neg {p q : ℝ} (hq : q ≠ 0)
    (hd : p ^ 3 + q ^ 2 < 0) (i : ℕ) :
    cardanoCandidate p q i =
      some (((2 * cbrt (Real.sqrt (|p| ^ 3)) *
        Real.cos ((Real.arccos (-q / Real.sqrt (|p| ^ 3)) + 2 * (i : ℝ) * Real.pi) / 3) : ℝ) : ℂ)) := by
  obtain ⟨hp, hr, _, hlo, hhi⟩ := disc_neg_facts hd
  have h1 : ¬ (3 * p = 0 ∨ 2 * q = 0) := by simp [ne_of_lt hp, hq]
  have h2 : ¬ (p ^ 3 + q ^ 2 = 0) := ne_of_lt hd
  have h3 : ¬ (p ^ 3 + q ^ 2 > 0) := not_lt.mpr (le_of_lt hd)
  have h4 : 0 ≤ |p| ^ 3 := by positivity
  have h5 : ¬ (Real.sqrt (|p| ^ 3) = 0) := ne_of_gt hr
  have h6 : -1 ≤ -q / Real.sqrt (|p| ^ 3) ∧ -q / Real.sqrt (|p| ^ 3) ≤ 1 :=
    ⟨le_of_lt hlo, le_of_lt hhi⟩
  simp only [cardanoCandidate, if_neg h1, if_neg h2, if_neg h3, sqrtD, if_pos h4, divD,
    if_neg h5, acosD, if_pos h6, Option.bind_eq_bind, Option.some_bind, Option.pure_def]

/-! ## The cube roots of unity -/

/-- The root of unity of index zero. -/
theorem rootOfUnity_zero : rootOfUnity 0 = 1 := by
  simp [rootOfUnity]

/-- The imaginary part of a root of unity of positive index. -/
theorem rootOfUnity_im {i : ℕ} (hi : 0 < i) :
    (rootOfUnity i).im = Real.sqrt 3 * (-1 : ℝ) ^ i / 2 := by
  have h : i > 0 := hi
  simp only [rootOfUnity, if_pos h]
  have e : ((-1 : ℂ) ^ i).re = (-1 : ℝ) ^ i := by
    have := Complex.ofReal_re ((-1 : ℝ) ^ i)
    push_cast at this
    exact this
  simp [Complex.div_im, Complex.ofReal_im, Complex.ofReal_re, e]

/-- The imaginary part of a root of unity of positive index is not zero. -/
theorem rootOfUnity_im_ne_zero {i : ℕ} (hi : 0 < i) : (rootOfUnity i).im ≠ 0 := by
  rw [rootOfUnity_im hi]
  have h3 : Real.sqrt 3 ≠ 0 := (Real.sqrt_pos.mpr (by norm_num)).ne'
  have h1 : (-1 : ℝ) ^ i ≠ 0 := pow_ne_zero _ (by norm_num)
  exact div_ne_zero (mul_ne_zero h3 h1) (by norm_num)

/-- The real part of a root of unity of positive index. -/
theorem rootOfUnity_re {i : ℕ} (hi : 0 < i) : (rootOfUnity i).re = -1 / 2 := by
  have h : i > 0 := hi
  simp only [rootOfUnity, if_pos h]
  have e : ((-1 : ℂ) ^ i).im = 0 := by
    have := Complex.ofReal_im ((-1 : ℝ) ^ i)
    push_cast at this
    exact this
  simp [Complex.div_re, Complex.ofReal_im, Complex.ofReal_re, e]

/-! ## Soundness of the candidates for the depressed cubic -/

/-- A real candidate of the branch `p = 0` solves `y^3 + 2q = 0`. -/
theorem sound_p_zero (q : ℝ) (i : ℕ) (z : ℂ) (h : cardanoCandidate 0 q i = some z)
    (him : z.im = 0) : z.re ^ 3 + 3 * 0 * z.re + 2 * q = 0 := by
  rw [cardanoCandidate_p_zero] at h
  have hz : z = ((cbrt (-2 * q) : ℝ) : ℂ) * rootOfUnity i := (Option.some.inj h).symm
  rcases Nat.eq_zero_or_pos i with hi | hi
  · subst hi
    rw [rootOfUnity_zero, mul_one] at hz
    rw [hz, Complex.ofReal_re, cbrt_cube]
    ring
  · have h1 : z.im = cbrt (-2 * q) * (rootOfUnity i).im := by
      rw [hz]; simp
    rw [him] at h1
    have h2 : cbrt (-2 * q) = 0 := by
      rcases mul_eq_zero.mp h1.symm with h2 | h2
      · exact h2
      · exact absurd h2 (rootOfUnity_im_ne_zero hi)
    have h3 : -2 * q = 0 := (cbrt_eq_zero_iff _).mp h2
    have h4 : z = 0 := by rw [hz, h2]; simp
    rw [h4]
    simp
    linarith

/-- A candidate of the branch `q = 0` solves `y^3 + 3py = 0`. -/
theorem sound_q_zero (p : ℝ) (hp : p ≠ 0) (i : ℕ) (z : ℂ)
    (h : cardanoCandidate p 0 i = some z) : z.re ^ 3 + 3 * p * z.re + 2 * 0 = 0 := by
  rcases lt_or_gt_of_ne hp with hneg | hpos
  · rw [cardanoCandidate_q_zero_neg hneg] at h
    have hz : z = (((-1 : ℝ) ^ i * Real.sqrt (-3 * p) * min (i : ℝ) 1 : ℝ) : ℂ) :=
      (Option.some.inj h).symm
    have hs : Real.sqrt (-3 * p) ^ 2 = -3 * p := Real.sq_sqrt (by linarith)
    rcases Nat.eq_zero_or_pos i with hi | hi
    · subst hi
      rw [hz, Complex.ofReal_re]
      simp
    · have hm : min (i : ℝ) 1 = 1 := by
        apply min_eq_right
        exact_mod_cast hi
      have hsq : ((-1 : ℝ) ^ i) ^ 2 = 1 := by
        rw [← pow_mul, mul_comm, pow_mul]; norm_num
      rw [hz, Complex.ofReal_re, hm]
      have : ((-1 : ℝ) ^ i * Real.sqrt (-3 * p) * 1) ^ 2 = -3 * p := by
        rw [mul_one, mul_pow, hsq, hs]
        ring
      generalize (-1 : ℝ) ^ i * Real.sqrt (-3 * p) * 1 = w at this
      have : w ^ 3 + 3 * p * w + 2 * 0 = w * (w ^ 2 - -3 * p) := by ring
      rw [this]
      simp [*]
  · rw [cardanoCandidate_q_zero_pos hpos] at h
    exact absurd h (by simp)

/-- With a vanishing discriminant, `p = -(cbrt q)^2`. -/
theorem disc_zero_p {p q : ℝ} (hd : p ^ 3 + q ^ 2 = 0) : p = -(cbrt q) ^ 2 := by
  apply cube_injective
  have h := cbrt_cube q
  have : (-(cbrt q) ^ 2) ^ 3 = -((cbrt q ^ 3) ^ 2) := by ring
  rw [this, h]
  linarith

/-- A candidate of the branch of a vanishing discriminant solves the depressed cubic. -/
theorem sound_disc_zero {p q : ℝ} (hp : p ≠ 0) (hq : q ≠ 0) (hd : p ^ 3 + q ^ 2 = 0)
    (i : ℕ) (z : ℂ) (h : cardanoCandidate p q i = some z) :
    z.re ^ 3 + 3 * p * z.re + 2 * q = 0 := by
  rw [cardanoCandidate_disc_zero hp hq hd] at h
  have hz := (Option.some.inj h).symm
  have hp2 := disc_zero_p hd
  have hc := cbrt_cube q
  rw [hz, Complex.ofReal_re]
  by_cases hi : i = 0
  · rw [if_pos hi, cbrt_neg, hp2]
    nlinarith [hc]
  · rw [if_neg hi, hp2]
    nlinarith [hc]

/-- The two cube roots of the branch of a positive discriminant: their
product is `p`, the difference of their cubes is `-2q`, their sum is not zero. -/
theorem disc_pos_facts {p q : ℝ} (hd : 0 < p ^ 3 + q ^ 2) :
    cbrt (Real.sqrt (p ^ 3 + q ^ 2) - q) * cbrt (Real.sqrt (p ^ 3 + q ^ 2) + q) = p ∧
      cbrt (Real.sqrt (p ^ 3 + q ^ 2) - q) ^ 3 - cbrt (Real.sqrt (p ^ 3 + q ^ 2) + q) ^ 3
        = -2 * q ∧
      cbrt (Real.sqrt (p ^ 3 + q ^ 2) - q) + cbrt (Real.sqrt (p ^ 3 + q ^ 2) + q) ≠ 0 := by
  have hs : Real.sqrt (p ^ 3 + q ^ 2) ^ 2 = p ^ 3 + q ^ 2 := Real.sq_sqrt (le_of_lt hd)
  have hspos : 0 < Real.sqrt (p ^ 3 + q ^ 2) := Real.sqrt_pos.mpr hd
  refine ⟨?_, ?_, ?_⟩
  · rw [← cbrt_mul]
    apply cbrt_eq_of_cube_eq
    nlinarith [hs]
  · rw [cbrt_cube, cbrt_cube]
    ring
  · intro h
    have h1 : cbrt (Real.sqrt (p ^ 3 + q ^ 2) - q) = -cbrt (Real.sqrt (p ^ 3 + q ^ 2) + q) := by
      linarith
    have h2 := congrArg (fun w => w ^ 3) h1
    simp only at h2
    rw [neg_pow, cbrt_cube, cbrt_cube] at h2
    norm_num at h2
    linarith

/-- The imaginary part of a candidate of the branch of a positive discriminant. -/
theorem disc_pos_im (A B : ℝ) (w : ℂ) :
    ((A : ℂ) * w - (B : ℂ) * (starRingEnd ℂ) w).im = (A + B) * w.im := by
  simp
  ring

/-- A real candidate of the branch of a positive discriminant solves the
depressed cubic; it can only be the one of index zero. -/
theorem sound_disc_pos {p q : ℝ} (hp : p ≠ 0) (hq : q ≠ 0) (hd : 0 < p ^ 3 + q ^ 2)
    (i : ℕ) (z : ℂ) (h : cardanoCandidate p q i = some z) (him : z.im = 0) :
    i = 0 ∧ z.re ^ 3 + 3 * p * z.re + 2 * q = 0 := by
  rw [cardanoCandidate_disc_pos hp hq hd] at h
  have hz := (Option.some.inj h).symm
  obtain ⟨hAB, hcube, hsum⟩ := disc_pos_facts hd
  rcases Nat.eq_zero_or_pos i with hi | hi
  · refine ⟨hi, ?_⟩
    subst hi
    rw [rootOfUnity_zero] at hz
    have hre : z.re = cbrt (Real.sqrt (p ^ 3 + q ^ 2) - q) - cbrt (Real.sqrt (p ^ 3 + q ^ 2) + q) := by
      rw [hz]; simp
    rw [hre]
    generalize cbrt (Real.sqrt (p ^ 3 + q ^ 2) - q) = A at *
    generalize cbrt (Real.sqrt (p ^ 3 + q ^ 2) + q) = B at *
    rw [← hAB]
    linear_combination hcube
  · exfalso
    rw [hz, disc_pos_im] at him
    rcases mul_eq_zero.mp him with h1 | h1
    · exact hsum h1
    · exact rootOfUnity_im_ne_zero hi h1

/-- In the branch of a negative discriminant, `cbrt r` squares to `-p` and is positive. -/
theorem disc_neg_cbrt {p q : ℝ} (hd : p ^ 3 + q ^ 2 < 0) :
    cbrt (Real.sqrt (|p| ^ 3)) ^ 2 = -p ∧ 0 < cbrt (Real.sqrt (|p| ^ 3)) := by
  obtain ⟨hp, hr, hr2, _, _⟩ := disc_neg_facts hd
  have hc := cbrt_cube (Real.sqrt (|p| ^ 3))
  have hnn : 0 ≤ cbrt (Real.sqrt (|p| ^ 3)) := cbrt_nonneg (le_of_lt hr)
  have hne : cbrt (Real.sqrt (|p| ^ 3)) ≠ 0 := by
    intro h0
    exact (ne_of_gt hr) ((cbrt_eq_zero_iff _).mp h0)
  refine ⟨?_, lt_of_le_of_ne hnn (Ne.symm hne)⟩
  apply cube_injective
  have : (cbrt (Real.sqrt (|p| ^ 3)) ^ 2) ^ 3 = (cbrt (Real.sqrt (|p| ^ 3)) ^ 3) ^ 2 := by ring
  rw [this, hc, hr2]
  ring

/-- A candidate of the branch of a negative discriminant solves the depressed cubic. -/
theorem sound_disc_neg {p q : ℝ} (hq : q ≠ 0) (hd : p ^ 3 + q ^ 2 < 0)
    (i : ℕ) (z : ℂ) (h : cardanoCandidate p q i = some z) :
    z.re ^ 3 + 3 * p * z.re + 2 * q = 0 := by
  rw [cardanoCandidate_disc_neg hq hd] at h
  have hz := (Option.some.inj h).symm
  obtain ⟨hp, hr, hr2, hlo, hhi⟩ := disc_neg_facts hd
  obtain ⟨hc2, hcpos⟩ := disc_neg_cbrt hd
  have hc3 := cbrt_cube (Real.sqrt (|p| ^ 3))
  have hcos : Real.cos (3 * ((Real.arccos (-q / Real.sqrt (|p| ^ 3)) + 2 * (i : ℝ) * Real.pi) / 3))
      = -q / Real.sqrt (|p| ^ 3) := by
    have : 3 * ((Real.arccos (-q / Real.sqrt (|p| ^ 3)) + 2 * (i : ℝ) * Real.pi) / 3)
        = Real.arccos (-q / Real.sqrt (|p| ^ 3)) + (i : ℝ) * (2 * Real.pi) := by ring
    rw [this, Real.cos_add_nat_mul_two_pi, Real.cos_arccos (le_of_lt hlo) (le_of_lt hhi)]
  rw [Real.cos_three_mul] at hcos
  rw [hz, Complex.ofReal_re]
  generalize Real.cos ((Real.arccos (-q / Real.sqrt (|p| ^ 3)) + 2 * (i : ℝ) * Real.pi) / 3) = k at *
  have hq2 : Real.sqrt (|p| ^ 3) * (4 * k ^ 3 - 3 * k) = -q := by
    rw [hcos]; field_simp; ring
  generalize Real.sqrt (|p| ^ 3) = r at *
  generalize cbrt r = c at *
  have hp' : p = -c ^ 2 := by linarith
  rw [hp']
  have : (2 * c * k) ^ 3 + 3 * -c ^ 2 * (2 * c * k) + 2 * q
      = 2 * (c ^ 3 * (4 * k ^ 3 - 3 * k)) + 2 * q := by ring
  rw [this, hc3, hq2]
  ring

/-- Every real candidate solves the depressed cubic `y^3 + 3py + 2q = 0`. -/
theorem cardanoCandidate_sound (p q : ℝ) (i : ℕ) (z : ℂ)
    (h : cardanoCandidate p q i = some z) (him : z.im = 0) :
    z.re ^ 3 + 3 * p * z.re + 2 * q = 0 := by
  by_cases hp : p = 0
  · subst hp
    exact sound_p_zero q i z h him
  by_cases hq : q = 0
  · subst hq
    exact sound_q_zero p hp i z h
  rcases lt_trichotomy (p ^ 3 + q ^ 2) 0 with hd | hd | hd
  · exact sound_disc_neg hq hd i z h
  · exact sound_disc_zero hp hq hd i z h
  · exact (sound_disc_pos hp hq hd i z h him).2

/-! ## Completeness of the candidates for the depressed cubic -/

/-- Branch `p = 0`: the real root is the candidate of index zero. -/
theorem complete_p_zero (q y : ℝ) (hy : y ^ 3 + 3 * 0 * y + 2 * q = 0) :
    cardanoCandidate 0 q 0 = some (y : ℂ) := by
  rw [cardanoCandidate_p_zero, rootOfUnity_zero, mul_one]
  have : cbrt (-2 * q) = y := cbrt_eq_of_cube_eq (by linarith)
  rw [this]

/-- Branch `q = 0` with `p < 0`: each of the three real roots is a candidate. -/
theorem complete_q_zero {p : ℝ} (hp : p < 0) (y : ℝ) (hy : y ^ 3 + 3 * p * y + 2 * 0 = 0) :
    ∃ i, i ≤ 2 ∧ cardanoCandidate p 0 i = some (y : ℂ) := by
  have hs : Real.sqrt (-3 * p) ^ 2 = -3 * p := Real.sq_sqrt (by linarith)
  have hfac : y * ((y - Real.sqrt (-3 * p)) * (y + Real.sqrt (-3 * p))) = 0 := by
    have : y * ((y - Real.sqrt (-3 * p)) * (y + Real.sqrt (-3 * p)))
        = y ^ 3 - Real.sqrt (-3 * p) ^ 2 * y := by ring
    rw [this, hs]
    linarith
  rcases mul_eq_zero.mp hfac with h0 | h0
  · refine ⟨0, by norm_num, ?_⟩
    rw [cardanoCandidate_q_zero_neg hp, h0]
    simp
  rcases mul_eq_zero.mp h0 with h1 | h1
  · refine ⟨2, le_refl 2, ?_⟩
    rw [cardanoCandidate_q_zero_neg hp]
    have : y = Real.sqrt (-3 * p) := by linarith
    rw [this]
    norm_num
  · refine ⟨1, by norm_num, ?_⟩
    rw [cardanoCandidate_q_zero_neg hp]
    have : y = -Real.sqrt (-3 * p) := by linarith
    rw [this]
    norm_num

/-- Branch of a vanishing discriminant: each real root is a candidate. -/
theorem complete_disc_zero {p q : ℝ} (hp : p ≠ 0) (hq : q ≠ 0) (hd : p ^ 3 + q ^ 2 = 0)
    (y : ℝ) (hy : y ^ 3 + 3 * p * y + 2 * q = 0) :
    ∃ i, i ≤ 2 ∧ cardanoCandidate p q i = some (y : ℂ) := by
  have hp2 := disc_zero_p hd
  have hc := cbrt_cube q
  have hfac : (y - cbrt q) ^ 2 * (y + 2 * cbrt q) = 0 := by
    have : (y - cbrt q) ^ 2 * (y + 2 * cbrt q)
        = y ^ 3 + 3 * (-(cbrt q) ^ 2) * y + 2 * cbrt q ^ 3 := by ring
    rw [this, hc, ← hp2]
    exact hy
  rcases mul_eq_zero.mp hfac with h0 | h0
  · refine ⟨1, by norm_num, ?_⟩
    rw [cardanoCandidate_disc_zero hp hq hd]
    have : y = cbrt q := by
      have := pow_eq_zero_iff (n := 2) (by norm_num) |>.mp h0
      linarith
    rw [this]
    simp
  · refine ⟨0, by norm_num, ?_⟩
    rw [cardanoCandidate_disc_zero hp hq hd]
    have : y = 2 * cbrt (-q) := by rw [cbrt_neg]; linarith
    rw [this]
    simp

/-- Branch of a positive discriminant: the only real root is the candidate of
index zero. -/
theorem complete_disc_pos {p q : ℝ} (hp : p ≠ 0) (hq : q ≠ 0) (hd : 0 < p ^ 3 + q ^ 2)
    (y : ℝ) (hy : y ^ 3 + 3 * p * y + 2 * q = 0) :
    cardanoCandidate p q 0 = some (y : ℂ) := by
  rw [cardanoCandidate_disc_pos hp hq hd, rootOfUnity_zero]
  obtain ⟨hAB, hcube, hsum⟩ := disc_pos_facts hd
  generalize cbrt (Real.sqrt (p ^ 3 + q ^ 2) - q) = A at *
  generalize cbrt (Real.sqrt (p ^ 3 + q ^ 2) + q) = B at *
  have hy0 : (A - B) ^ 3 + 3 * p * (A - B) + 2 * q = 0 := by
    rw [← hAB]
    linear_combination hcube
  have hfac : (y - (A - B)) * (y ^ 2 + y * (A - B) + (A - B) ^ 2 + 3 * p) = 0 := by
    linear_combination hy - hy0
  have hposs : 0 < (A + B) ^ 2 := by positivity
  have hquad : 0 < y ^ 2 + y * (A - B) + (A - B) ^ 2 + 3 * p := by
    rw [← hAB]
    nlinarith [sq_nonneg (y + (A - B) / 2), hposs]
  have : y = A - B := by
    rcases mul_eq_zero.mp hfac with h0 | h0
    · linarith
    · exact absurd h0 (ne_of_gt hquad)
  rw [this]
  simp

/-- Three pairwise distinct real roots of a depressed cubic are all its real roots. -/
theorem depressed_three_roots {p q y0 y1 y2 y : ℝ}
    (h0 : y0 ^ 3 + 3 * p * y0 + 2 * q = 0) (h1 : y1 ^ 3 + 3 * p * y1 + 2 * q = 0)
    (h2 : y2 ^ 3 + 3 * p * y2 + 2 * q = 0) (h01 : y0 ≠ y1) (h02 : y0 ≠ y2) (h12 : y1 ≠ y2)
    (hy : y ^ 3 + 3 * p * y + 2 * q = 0) : y = y0 ∨ y = y1 ∨ y = y2 := by
  have e1 : y0 ^ 2 + y0 * y1 + y1 ^ 2 + 3 * p = 0 := by
    have : (y0 - y1) * (y0 ^ 2 + y0 * y1 + y1 ^ 2 + 3 * p) = 0 := by
      linear_combination h0 - h1
    rcases mul_eq_zero.mp this with h | h
    · exact absurd (sub_eq_zero.mp h) h01
    · exact h
  have e2 : y0 ^ 2 + y0 * y2 + y2 ^ 2 + 3 * p = 0 := by
    have : (y0 - y2) * (y0 ^ 2 + y0 * y2 + y2 ^ 2 + 3 * p) = 0 := by
      linear_combination h0 - h2
    rcases mul_eq_zero.mp this with h | h
    · exact absurd (sub_eq_zero.mp h) h02
    · exact h
  have e3 : y0 + y1 + y2 = 0 := by
    have : (y1 - y2) * (y0 + y1 + y2) = 0 := by
      linear_combination e1 - e2
    rcases mul_eq_zero.mp this with h | h
    · exact absurd (sub_eq_zero.mp h) h12
    · exact h
  have hfac : (y - y0) * ((y - y1) * (y - y2)) = 0 := by
    have hy2 : y2 = -y0 - y1 := by linarith
    subst hy2
    linear_combination hy - h0 - (y - y0) * e1
  rcases mul_eq_zero.mp hfac with h | h
  · exact Or.inl (sub_eq_zero.mp h)
  rcases mul_eq_zero.mp h with h | h
  · exact Or.inr (Or.inl (sub_eq_zero.mp h))
  · exact Or.inr (Or.inr (sub_eq_zero.mp h))

/-- The cosine of two thirds of pi. -/
theorem cos_two_pi_div_three : Real.cos (2 * Real.pi / 3) = -1 / 2 := by
  have : 2 * Real.pi / 3 = Real.pi - Real.pi / 3 := by ring
  rw [this, Real.cos_pi_sub, Real.cos_pi_div_three]
  norm_num

/-- The three cosines of the trigonometric branch lie in three disjoint ranges. -/
theorem trig_cos_ranges {x : ℝ} (hlo : -1 < x) (hhi : x < 1) :
    1 / 2 < Real.cos ((Real.arccos x + 2 * ((0 : ℕ) : ℝ) * Real.pi) / 3) ∧
      Real.cos ((Real.arccos x + 2 * ((1 : ℕ) : ℝ) * Real.pi) / 3) < -1 / 2 ∧
      -1 / 2 < Real.cos ((Real.arccos x + 2 * ((2 : ℕ) : ℝ) * Real.pi) / 3) ∧
      Real.cos ((Real.arccos x + 2 * ((2 : ℕ) : ℝ) * Real.pi) / 3) < 1 / 2 := by
  have hpi := Real.pi_pos
  have h0 : 0 < Real.arccos x := by
    rcases lt_or_eq_of_le (Real.arccos_nonneg x) with h | h
    · exact h
    · exact absurd (Real.arccos_eq_zero.mp h.symm) (not_le.mpr hhi)
  have h1 : Real.arccos x < Real.pi := by
    rcases lt_or_eq_of_le (Real.arccos_le_pi x) with h | h
    · exact h
    · exact absurd (Real.arccos_eq_pi.mp h) (not_le.mpr hlo)
  generalize Real.arccos x = φ at *
  have anti := Real.strictAntiOn_cos
  refine ⟨?_, ?_, ?_, ?_⟩
  · rw [← Real.cos_pi_div_three]
    apply anti
    · constructor <;> (simp only [Nat.cast_zero]; nlinarith)
    · constructor <;> nlinarith
    · simp only [Nat.cast_zero]; nlinarith
  · have : (-1 : ℝ) / 2 = Real.cos (2 * Real.pi / 3) := cos_two_pi_div_three.symm
    rw [this]
    apply anti
    · constructor <;> nlinarith
    · constructor <;> (simp only [Nat.cast_one]; nlinarith)
    · simp only [Nat.cast_one]; nlinarith
  · have e : Real.cos ((φ + 2 * ((2 : ℕ) : ℝ) * Real.pi) / 3)
        = Real.cos ((2 * Real.pi - φ) / 3) := by
      have : (φ + 2 * ((2 : ℕ) : ℝ) * Real.pi) / 3 = 2 * Real.pi - (2 * Real.pi - φ) / 3 := by
        push_cast; ring
      rw [this, Real.cos_two_pi_sub]
    rw [e]
    have : (-1 : ℝ) / 2 = Real.cos (2 * Real.pi / 3) := cos_two_pi_div_three.symm
    rw [this]
    apply anti
    · constructor <;> nlinarith
    · constructor <;> nlinarith
    · nlinarith
  · have e : Real.cos ((φ + 2 * ((2 : ℕ) : ℝ) * Real.pi) / 3)
        = Real.cos ((2 * Real.pi - φ) / 3) := by
      have : (φ + 2 * ((2 : ℕ) : ℝ) * Real.pi) / 3 = 2 * Real.pi - (2 * Real.pi - φ) / 3 := by
        push_cast; ring
      rw [this, Real.cos_two_pi_sub]
    rw [e, ← Real.cos_pi_div_three]
    apply anti
    · constructor <;> nlinarith
    · constructor <;> nlinarith
    · nlinarith

/-- Branch of a negative discriminant: each real root is one of the three candidates. -/
theorem complete_disc_neg {p q : ℝ} (hq : q ≠ 0) (hd : p ^ 3 + q ^ 2 < 0)
    (y : ℝ) (hy : y ^ 3 + 3 * p * y + 2 * q = 0) :
    ∃ i, i ≤ 2 ∧ cardanoCandidate p q i = some (y : ℂ) := by
  obtain ⟨hp, hr, hr2, hlo, hhi⟩ := disc_neg_facts hd
  obtain ⟨hc2, hcpos⟩ := disc_neg_cbrt hd
  obtain ⟨k0, k1, k2lo, k2hi⟩ := trig_cos_ranges hlo hhi
  have s0 := sound_disc_neg hq hd 0 _ (cardanoCandidate_disc_neg hq hd 0)
  have s1 := sound_disc_neg hq hd 1 _ (cardanoCandidate_disc_neg hq hd 1)
  have s2 := sound_disc_neg hq hd 2 _ (cardanoCandidate_disc_neg hq hd 2)
  rw [Complex.ofReal_re] at s0 s1 s2
  have c0 := cardanoCandidate_disc_neg hq hd 0
  have c1 := cardanoCandidate_disc_neg hq hd 1
  have c2 := cardanoCandidate_disc_neg hq hd 2
  generalize Real.cos ((Real.arccos (-q / Real.sqrt (|p| ^ 3)) + 2 * ((0 : ℕ) : ℝ) * Real.pi) / 3)
    = a0 at *
  generalize Real.cos ((Real.arccos (-q / Real.sqrt (|p| ^ 3)) + 2 * ((1 : ℕ) : ℝ) * Real.pi) / 3)
    = a1 at *
  generalize Real.cos ((Real.arccos (-q / Real.sqrt (|p| ^ 3)) + 2 * ((2 : ℕ) : ℝ) * Real.pi) / 3)
    = a2 at *
  generalize cbrt (Real.sqrt (|p| ^ 3)) = c at *
  have d01 : 2 * c * a0 ≠ 2 * c * a1 := by
    intro h
    have : a0 = a1 := by
      have h' : c * (a0 - a1) = 0 := by linarith
      rcases mul_eq_zero.mp h' with h'' | h''
      · exact absurd h'' (ne_of_gt hcpos)
      · linarith
    linarith
  have d02 : 2 * c * a0 ≠ 2 * c * a2 := by
    intro h
    have : a0 = a2 := by
      have h' : c * (a0 - a2) = 0 := by linarith
      rcases mul_eq_zero.mp h' with h'' | h''
      · exact absurd h'' (ne_of_gt hcpos)
      · linarith
    linarith
  have d12 : 2 * c * a1 ≠ 2 * c * a2 := by
    intro h
    have : a1 = a2 := by
      have h' : c * (a1 - a2) = 0 := by linarith
      rcases mul_eq_zero.mp h' with h'' | h''
      · exact absurd h'' (ne_of_gt hcpos)
      · linarith
    linarith
  rcases depressed_three_roots s0 s1 s2 d01 d02 d12 hy with h | h | h
  · exact ⟨0, by norm_num, by rw [c0, h]⟩
  · exact ⟨1, by norm_num, by rw [c1, h]⟩
  · exact ⟨2, le_refl 2, by rw [c2, h]⟩

/-- Every real root of the depressed cubic `y^3 + 3py + 2q = 0` is the value of
one of the three candidates, unless `q = 0` and `p > 0`. -/
theorem cardanoCandidate_complete (p q y : ℝ) (hnan : ¬ (q = 0 ∧ 0 < p))
    (hy : y ^ 3 + 3 * p * y + 2 * q = 0) :
    ∃ i, i ≤ 2 ∧ cardanoCandidate p q i = some (y : ℂ) := by
  by_cases hp : p = 0
  · subst hp
    exact ⟨0, by norm_num, complete_p_zero q y hy⟩
  by_cases hq : q = 0
  · subst hq
    rcases lt_or_gt_of_ne hp with hneg | hpos
    · exact complete_q_zero hneg y hy
    · exact absurd ⟨rfl, hpos⟩ hnan
  rcases lt_trichotomy (p ^ 3 + q ^ 2) 0 with hd | hd | hd
  · exact complete_disc_neg hq hd y hy
  · exact complete_disc_zero hp hq hd y hy
  · exact ⟨0, by norm_num, complete_disc_pos hp hq hd y hy⟩

/-! ## From the depressed cubic back to the curve -/

/-- With a zero leading coefficient the reduced coefficients are not numbers
and no candidate is a number. -/
theorem possibleRoot_of_leading_zero (curve : CCubicBezierCurve ℝ) (i : ℕ)
    (ha : (coefficientsFromCurve curve Axis.YAxis).a = 0) : possibleRoot curve i = none := by
  simp only [possibleRoot, divD, if_pos ha, Option.bind_eq_bind, Option.none_bind]

/-- With a non-zero leading coefficient the candidate is the one of the branch
chain at the reduced `p` and `q`, shifted by `simpleRoot`. -/
theorem possibleRoot_of_leading_ne_zero (curve : CCubicBezierCurve ℝ) (i : ℕ)
    (ha : (coefficientsFromCurve curve Axis.YAxis).a ≠ 0) :
    possibleRoot curve i =
      (cardanoCandidate (reducedP (coefficientsFromCurve curve Axis.YAxis))
        (reducedQ (coefficientsFromCurve curve Axis.YAxis)) i).map
        (fun candidate => candidate +
          ((-((coefficientsFromCurve curve Axis.YAxis).b /
            (coefficientsFromCurve curve Axis.YAxis).a) / 3 : ℝ) : ℂ)) := by
  simp only [possibleRoot, divD, if_neg ha, Option.bind_eq_bind, Option.some_bind,
    Option.pure_def, reducedP, reducedQ]
  cases cardanoCandidate _ _ i <;> rfl

/-- The cubic of the curve is its leading coefficient times the depressed
cubic at the shifted argument. -/
theorem eval_eq_depressed (k : CubicCoefficients ℝ) (ha : k.a ≠ 0) (s : ℝ) :
    k.eval s = k.a * ((s - -(k.b / k.a) / 3) ^ 3 + 3 * reducedP k * (s - -(k.b / k.a) / 3)
      + 2 * reducedQ k) := by
  simp only [CubicCoefficients.eval, reducedP, reducedQ]
  field_simp
  ring

/-- Every real candidate of the loop is a root of the cubic of the curve. -/
theorem possibleRoot_sound (curve : CCubicBezierCurve ℝ) (i : ℕ) (z : ℂ)
    (h : possibleRoot curve i = some z) (him : z.im = 0) :
    (coefficientsFromCurve curve Axis.YAxis).a ≠ 0 ∧
      (coefficientsFromCurve curve Axis.YAxis).eval z.re = 0 := by
  by_cases ha : (coefficientsFromCurve curve Axis.YAxis).a = 0
  · rw [possibleRoot_of_leading_zero curve i ha] at h
    exact absurd h (by simp)
  refine ⟨ha, ?_⟩
  rw [possibleRoot_of_leading_ne_zero curve i ha] at h
  obtain ⟨w, hw, hz⟩ := Option.map_eq_some'.mp h
  have hwim : w.im = 0 := by
    have := congrArg Complex.im hz
    simp only [Complex.add_im, Complex.ofReal_im, add_zero] at this
    rw [this, him]
  have hwre : w.re = z.re - -((coefficientsFromCurve curve Axis.YAxis).b /
      (coefficientsFromCurve curve Axis.YAxis).a) / 3 := by
    have := congrArg Complex.re hz
    simp only [Complex.add_re, Complex.ofReal_re] at this
    linarith
  have hs := cardanoCandidate_sound _ _ i w hw hwim
  rw [eval_eq_depressed _ ha, ← hwre, hs, mul_zero]

/-- Every real root of the cubic of the curve is the value of one of the three
candidates of the loop, unless `q = 0` and `p > 0`. -/
theorem possibleRoot_complete (curve : CCubicBezierCurve ℝ)
    (ha : (coefficientsFromCurve curve Axis.YAxis).a ≠ 0)
    (hnan : ¬ (reducedQ (coefficientsFromCurve curve Axis.YAxis) = 0 ∧
      0 < reducedP (coefficientsFromCurve curve Axis.YAxis)))
    (s : ℝ) (hs : (coefficientsFromCurve curve Axis.YAxis).eval s = 0) :
    ∃ i, i ≤ 2 ∧ possibleRoot curve i = some (s : ℂ) := by
  rw [eval_eq_depressed _ ha] at hs
  have hy := (mul_eq_zero.mp hs).resolve_left ha
  obtain ⟨i, hi, hc⟩ := cardanoCandidate_complete _ _ _ hnan hy
  refine ⟨i, hi, ?_⟩
  rw [possibleRoot_of_leading_ne_zero curve i ha, hc, Option.map_some']
  congr 1
  push_cast
  ring

/-- When `q = 0` and `p > 0` no candidate of the loop is a number. -/
theorem possibleRoot_of_sqrt_negative (curve : CCubicBezierCurve ℝ) (i : ℕ)
    (hq : reducedQ (coefficientsFromCurve curve Axis.YAxis) = 0)
    (hp : 0 < reducedP (coefficientsFromCurve curve Axis.YAxis)) :
    possibleRoot curve i = none := by
  by_cases ha : (coefficientsFromCurve curve Axis.YAxis).a = 0
  · exact possibleRoot_of_leading_zero curve i ha
  · rw [possibleRoot_of_leading_ne_zero curve i ha, hq, cardanoCandidate_q_zero_pos hp]
    rfl

/-! ## What the root solver returns -/

/-- A result other than 0 is a root of the cubic of the curve, and the leading
coefficient is then not zero. -/
theorem rootForCurve_zero_or_root (curve : CCubicBezierCurve ℝ) :
    rootForCurve curve = 0 ∨
      ((coefficientsFromCurve curve Axis.YAxis).a ≠ 0 ∧
        (coefficientsFromCurve curve Axis.YAxis).eval (rootForCurve curve) = 0) := by
  rcases rootForCurve_cases curve with h | ⟨i, _, z, hz, him, _, hr, _⟩
  · exact Or.inl h.1
  · right
    rw [hr]
    exact possibleRoot_sound curve i z hz him

/-- Without a root of the cubic in the unit interval the result is 0. -/
theorem rootForCurve_eq_zero_of_no_root (curve : CCubicBezierCurve ℝ)
    (hno : ∀ s : ℝ, 0 ≤ s → s ≤ 1 → (coefficientsFromCurve curve Axis.YAxis).eval s ≠ 0) :
    rootForCurve curve = 0 := by
  rcases rootForCurve_cases curve with h | ⟨i, _, z, hz, him, hu, _, _⟩
  · exact h.1
  · have hroot := (possibleRoot_sound curve i z hz him).2
    have hmem := (floatIsUniform_iff z.re).mp hu
    exact absurd hroot (hno z.re hmem.1 hmem.2)

/-- With a zero leading coefficient the result is 0. -/
theorem rootForCurve_eq_zero_of_leading_zero (curve : CCubicBezierCurve ℝ)
    (ha : (coefficientsFromCurve curve Axis.YAxis).a = 0) : rootForCurve curve = 0 := by
  rcases rootForCurve_zero_or_root curve with h | h
  · exact h
  · exact absurd ha h.1

/-- When `q = 0` and `p > 0` the result is 0. -/
theorem rootForCurve_eq_zero_of_sqrt_negative (curve : CCubicBezierCurve ℝ)
    (hq : reducedQ (coefficientsFromCurve curve Axis.YAxis) = 0)
    (hp : 0 < reducedP (coefficientsFromCurve curve Axis.YAxis)) :
    rootForCurve curve = 0 := by
  rw [rootForCurve_unfold, possibleRoot_of_sqrt_negative curve 0 hq hp,
    possibleRoot_of_sqrt_negative curve 1 hq hp, possibleRoot_of_sqrt_negative curve 2 hq hp]
  rfl

/-- The result is the root of the cubic in the unit interval when there is
exactly one, the leading coefficient is not zero, and the reduced cubic does
not have `q = 0` with `p > 0`. -/
theorem rootForCurve_eq_of_unique (curve : CCubicBezierCurve ℝ)
    (ha : (coefficientsFromCurve curve Axis.YAxis).a ≠ 0)
    (hnan : ¬ (reducedQ (coefficientsFromCurve curve Axis.YAxis) = 0 ∧
      0 < reducedP (coefficientsFromCurve curve Axis.YAxis)))
    (r : ℝ) (h0 : 0 ≤ r) (h1 : r ≤ 1)
    (hr : (coefficientsFromCurve curve Axis.YAxis).eval r = 0)
    (huniq : ∀ s : ℝ, 0 ≤ s → s ≤ 1 →
      (coefficientsFromCurve curve Axis.YAxis).eval s = 0 → s = r) :
    rootForCurve curve = r := by
  rcases rootForCurve_cases curve with ⟨_, hnone⟩ | ⟨i, _, z, hz, him, hu, hres, _⟩
  · exfalso
    obtain ⟨i, hi, hc⟩ := possibleRoot_complete curve ha hnan r hr
    apply hnone i hi
    refine ⟨(r : ℂ), hc, Complex.ofReal_im r, ?_⟩
    rw [Complex.ofReal_re]
    exact (floatIsUniform_iff r).mpr ⟨h0, h1⟩
  · rw [hres]
    have hroot := (possibleRoot_sound curve i z hz him).2
    have hmem := (floatIsUniform_iff z.re).mp hu
    exact huniq z.re hmem.1 hmem.2 hroot

/-! ## The aligned curve -/

/-- A rotation by 90 degrees sends `(x, y)` to `(-y, x)`. -/
theorem rotated_by_ninety (controlPoint : CControlPoint ℝ) :
    rotatedControlPointAroundOriginByDegrees controlPoint 90 =
      { x := -controlPoint.y, y := controlPoint.x } := by
  have h : (90 : ℝ) * Real.pi / 180 = Real.pi / 2 := by ring
  simp only [rotatedControlPointAroundOriginByDegrees, h, Real.cos_pi_div_two,
    Real.sin_pi_div_two]
  simp

/-- The Y-axis coefficients of the aligned curve are the X-axis coefficients of
the curve with `t` taken off the constant one. -/
theorem alignedCurve_coefficients (curve : CCubicBezierCurve ℝ) (t : ℝ) :
    coefficientsFromCurve (alignedCurve curve t) Axis.YAxis =
      { a := (coefficientsFromCurve curve Axis.XAxis).a
        b := (coefficientsFromCurve curve Axis.XAxis).b
        c := (coefficientsFromCurve curve Axis.XAxis).c
        d := (coefficientsFromCurve curve Axis.XAxis).d - t } := by
  simp only [alignedCurve, rotated_by_ninety, translatedControlPoint, coefficientsFromCurve]
  simp
  refine ⟨?_, ?_, ?_, ?_⟩ <;> ring

/-- The cubic handed to the root solver is `x(s) - t`. -/
theorem alignedCurve_eval (curve : CCubicBezierCurve ℝ) (t s : ℝ) :
    (coefficientsFromCurve (alignedCurve curve t) Axis.YAxis).eval s =
      (coefficientsFromCurve curve Axis.XAxis).eval s - t := by
  rw [alignedCurve_coefficients]
  simp only [CubicCoefficients.eval]
  ring
/-! ## The x polynomial of a curve with non-decreasing x -/

section Monotone

variable {K : Type} [LinearOrderedField K]

/-- The power-basis cubic of an axis is the Bernstein form on that axis. -/
theorem eval_eq_bernstein (curve : CCubicBezierCurve K) (t : K) :
    (coefficientsFromCurve curve Axis.XAxis).eval t =
        bernstein curve.c0.x curve.c1.x curve.c2.x curve.c3.x t ∧
      (coefficientsFromCurve curve Axis.YAxis).eval t =
        bernstein curve.c0.y curve.c1.y curve.c2.y curve.c3.y t := by
  constructor
  · simp [CubicCoefficients.eval, coefficientsFromCurve, bernstein]
    ring
  · simp [CubicCoefficients.eval, coefficientsFromCurve, bernstein]
    ring

/-- With non-decreasing x-coordinates that are not all equal, the x polynomial
is strictly increasing on the closed unit interval. -/
theorem xEval_strictMono (curve : CCubicBezierCurve K)
    (h01 : curve.c0.x ≤ curve.c1.x) (h12 : curve.c1.x ≤ curve.c2.x)
    (h23 : curve.c2.x ≤ curve.c3.x) (h03 : curve.c0.x < curve.c3.x)
    (s1 s2 : K) (hs1 : 0 ≤ s1) (hlt : s1 < s2) (hs2 : s2 ≤ 1) :
    (coefficientsFromCurve curve Axis.XAxis).eval s1 <
      (coefficientsFromCurve curve Axis.XAxis).eval s2 := by
  have hD1 : 0 < (1 - s1) ^ 3 - (1 - s2) ^ 3 := by
    have : (1 - s2) ^ 3 < (1 - s1) ^ 3 :=
      pow_lt_pow_left₀ (by linarith) (by linarith) (by norm_num)
    linarith
  have hD3 : 0 < s2 ^ 3 - s1 ^ 3 := by
    have : s1 ^ 3 < s2 ^ 3 := pow_lt_pow_left₀ hlt hs1 (by norm_num)
    linarith
  have hD2 : 0 < (3 * s2 ^ 2 - 2 * s2 ^ 3) - (3 * s1 ^ 2 - 2 * s1 ^ 3) := by
    have e : (3 * s2 ^ 2 - 2 * s2 ^ 3) - (3 * s1 ^ 2 - 2 * s1 ^ 3)
        = (s2 - s1) * (s1 * (3 - 2 * s1 - s2) + s2 * (3 - 2 * s2 - s1)) := by ring
    rw [e]
    apply mul_pos (by linarith)
    have t1 : 0 ≤ s1 * (3 - 2 * s1 - s2) := mul_nonneg hs1 (by linarith)
    have t2 : 0 < s2 * (3 - 2 * s2 - s1) := mul_pos (by linarith) (by linarith)
    linarith
  have e : (coefficientsFromCurve curve Axis.XAxis).eval s2 -
      (coefficientsFromCurve curve Axis.XAxis).eval s1
      = (curve.c1.x - curve.c0.x) * ((1 - s1) ^ 3 - (1 - s2) ^ 3)
        + (curve.c2.x - curve.c1.x) * ((3 * s2 ^ 2 - 2 * s2 ^ 3) - (3 * s1 ^ 2 - 2 * s1 ^ 3))
        + (curve.c3.x - curve.c2.x) * (s2 ^ 3 - s1 ^ 3) := by
    simp [CubicCoefficients.eval, coefficientsFromCurve]
    ring
  have n1 : 0 ≤ (curve.c1.x - curve.c0.x) * ((1 - s1) ^ 3 - (1 - s2) ^ 3) :=
    mul_nonneg (by linarith) (le_of_lt hD1)
  have n2 : 0 ≤ (curve.c2.x - curve.c1.x) *
      ((3 * s2 ^ 2 - 2 * s2 ^ 3) - (3 * s1 ^ 2 - 2 * s1 ^ 3)) :=
    mul_nonneg (by linarith) (le_of_lt hD2)
  have n3 : 0 ≤ (curve.c3.x - curve.c2.x) * (s2 ^ 3 - s1 ^ 3) :=
    mul_nonneg (by linarith) (le_of_lt hD3)
  have hsome : curve.c0.x < curve.c1.x ∨ curve.c1.x < curve.c2.x ∨ curve.c2.x < curve.c3.x := by
    by_contra hcon
    push_neg at hcon
    linarith [hcon.1, hcon.2.1, hcon.2.2]
  have hpos : 0 < (coefficientsFromCurve curve Axis.XAxis).eval s2 -
      (coefficientsFromCurve curve Axis.XAxis).eval s1 := by
    rw [e]
    rcases hsome with h | h | h
    · have : 0 < (curve.c1.x - curve.c0.x) * ((1 - s1) ^ 3 - (1 - s2) ^ 3) :=
        mul_pos (by linarith) hD1
      linarith
    · have : 0 < (curve.c2.x - curve.c1.x) *
          ((3 * s2 ^ 2 - 2 * s2 ^ 3) - (3 * s1 ^ 2 - 2 * s1 ^ 3)) :=
        mul_pos (by linarith) hD2
      linarith
    · have : 0 < (curve.c3.x - curve.c2.x) * (s2 ^ 3 - s1 ^ 3) :=
        mul_pos (by linarith) hD3
      linarith
  linarith

/-- The x polynomial takes the value `c0.x` at 0 and `c3.x` at 1. -/
theorem xEval_endpoints (curve : CCubicBezierCurve K) :
    (coefficientsFromCurve curve Axis.XAxis).eval 0 = curve.c0.x ∧
      (coefficientsFromCurve curve Axis.XAxis).eval 1 = curve.c3.x := by
  constructor
  · simp [CubicCoefficients.eval, coefficientsFromCurve]
  · simp [CubicCoefficients.eval, coefficientsFromCurve]
    ring

/-- A non-zero leading x coefficient with non-decreasing x-coordinates forces
the first and last x-coordinates apart. -/
theorem x_ends_apart (curve : CCubicBezierCurve K)
    (h01 : curve.c0.x ≤ curve.c1.x) (h12 : curve.c1.x ≤ curve.c2.x)
    (h23 : curve.c2.x ≤ curve.c3.x)
    (ha : (coefficientsFromCurve curve Axis.XAxis).a ≠ 0) : curve.c0.x < curve.c3.x := by
  rcases lt_or_eq_of_le (le_trans h01 (le_trans h12 h23)) with h | h
  · exact h
  · exfalso
    apply ha
    have e1 : curve.c1.x = curve.c0.x := le_antisymm (by rw [h]; exact le_trans h12 h23) h01
    have e2 : curve.c2.x = curve.c0.x := le_antisymm (by rw [h]; exact h23) (by rw [← e1]; exact h12)
    simp [coefficientsFromCurve, e1, e2, ← h]

end Monotone

/-- A cubic that is not positive at 0 and not negative at 1 has a root in the
closed unit interval. -/
theorem exists_root_unit (k : CubicCoefficients ℝ) (h0 : k.eval 0 ≤ 0) (h1 : 0 ≤ k.eval 1) :
    ∃ s : ℝ, 0 ≤ s ∧ s ≤ 1 ∧ k.eval s = 0 := by
  have hcont : ContinuousOn (fun s : ℝ => k.eval s) (Set.Icc 0 1) := by
    apply Continuous.continuousOn
    unfold CubicCoefficients.eval
    fun_prop
  have hmem : (0 : ℝ) ∈ Set.Icc (k.eval 0) (k.eval 1) := ⟨h0, h1⟩
  obtain ⟨s, hs, hval⟩ := intermediate_value_Icc (zero_le_one : (0 : ℝ) ≤ 1) hcont hmem
  exact ⟨s, hs.1, hs.2, hval⟩

/-! ## The inverse evaluation inside the unit interval -/

/-- For a curve with non-decreasing x-coordinates and a non-zero leading x
coefficient, a target `t` inside the unit interval, and a parameter `s` of the
closed unit interval with `x(s) = t`, the inverse evaluation at `t` is the
forward evaluation at `s`, unless the reduced cubic of the aligned curve has
`q = 0` and `p > 0`. -/
theorem CurvePointIntersectingCurveAtT_eq_at_root (curve : CCubicBezierCurve ℝ) (t : ℝ)
    (ht0 : 0 < t) (ht1 : t < 1)
    (h01 : curve.c0.x ≤ curve.c1.x) (h12 : curve.c1.x ≤ curve.c2.x)
    (h23 : curve.c2.x ≤ curve.c3.x)
    (ha : (coefficientsFromCurve curve Axis.XAxis).a ≠ 0)
    (hnan : ¬ (reducedQ (coefficientsFromCurve (alignedCurve curve t) Axis.YAxis) = 0 ∧
      0 < reducedP (coefficientsFromCurve (alignedCurve curve t) Axis.YAxis)))
    (s : ℝ) (hs0 : 0 ≤ s) (hs1 : s ≤ 1)
    (hs : (coefficientsFromCurve curve Axis.XAxis).eval s = t) :
    CurvePointIntersectingCurveAtT curve t = CurvePointOnBezierCurveAtT curve s := by
  rw [CurvePointIntersectingCurveAtT_interior curve t ht0 ht1]
  have h03 := x_ends_apart curve h01 h12 h23 ha
  have ha' : (coefficientsFromCurve (alignedCurve curve t) Axis.YAxis).a ≠ 0 := by
    rw [alignedCurve_coefficients]; exact ha
  have hroot : (coefficientsFromCurve (alignedCurve curve t) Axis.YAxis).eval s = 0 := by
    rw [alignedCurve_eval, hs, sub_self]
  have huniq : ∀ u : ℝ, 0 ≤ u → u ≤ 1 →
      (coefficientsFromCurve (alignedCurve curve t) Axis.YAxis).eval u = 0 → u = s := by
    intro u hu0 hu1 hu
    rw [alignedCurve_eval] at hu
    have hu' : (coefficientsFromCurve curve Axis.XAxis).eval u
        = (coefficientsFromCurve curve Axis.XAxis).eval s := by linarith
    rcases lt_trichotomy u s with h | h | h
    · have := xEval_strictMono curve h01 h12 h23 h03 u s hu0 h hs1
      linarith
    · exact h
    · have := xEval_strictMono curve h01 h12 h23 h03 s u hs0 h hu1
      linarith
  rw [rootForCurve_eq_of_unique (alignedCurve curve t) ha' hnan s hs0 hs1 hroot huniq]

/-! ## Claims on the coefficients and the forward evaluation -/

/-- Claim C7: for every curve, on either axis and for every `t`, the coefficients
returned by `coefficientsFromCurve` are `a = c3 - 3*c2 + 3*c1 - c0`,
`b = 3*c2 - 6*c1 + 3*c0`, `c = 3*c1 - 3*c0`, `d = c0` for the coordinates
`c0..c3` of that axis, and `a*t^3 + b*t^2 + c*t + d` equals the Bernstein form
`(1-t)^3*c0 + 3*(1-t)^2*t*c1 + 3*(1-t)*t^2*c2 + t^3*c3`. -/
theorem coefficient_extraction {K : Type} [LinearOrderedField K]
    (curve : CCubicBezierCurve K) (t : K) :
    (coefficientsFromCurve curve Axis.XAxis =
        { a := curve.c3.x - 3 * curve.c2.x + 3 * curve.c1.x - curve.c0.x
          b := 3 * curve.c2.x - 6 * curve.c1.x + 3 * curve.c0.x
          c := 3 * curve.c1.x - 3 * curve.c0.x
          d := curve.c0.x } ∧
      (coefficientsFromCurve curve Axis.XAxis).a * t ^ 3 +
          (coefficientsFromCurve curve Axis.XAxis).b * t ^ 2 +
          (coefficientsFromCurve curve Axis.XAxis).c * t +
          (coefficientsFromCurve curve Axis.XAxis).d =
        (1 - t) ^ 3 * curve.c0.x + 3 * (1 - t) ^ 2 * t * curve.c1.x +
          3 * (1 - t) * t ^ 2 * curve.c2.x + t ^ 3 * curve.c3.x) ∧
    (coefficientsFromCurve curve Axis.YAxis =
        { a := curve.c3.y - 3 * curve.c2.y + 3 * curve.c1.y - curve.c0.y
          b := 3 * curve.c2.y - 6 * curve.c1.y + 3 * curve.c0.y
          c := 3 * curve.c1.y - 3 * curve.c0.y
          d := curve.c0.y } ∧
      (coefficientsFromCurve curve Axis.YAxis).a * t ^ 3 +
          (coefficientsFromCurve curve Axis.YAxis).b * t ^ 2 +
          (coefficientsFromCurve curve Axis.YAxis).c * t +
          (coefficientsFromCurve curve Axis.YAxis).d =
        (1 - t) ^ 3 * curve.c0.y + 3 * (1 - t) ^ 2 * t * curve.c1.y +
          3 * (1 - t) * t ^ 2 * curve.c2.y + t ^ 3 * curve.c3.y) := by
  refine ⟨⟨?_, ?_⟩, ⟨?_, ?_⟩⟩
  · simp [coefficientsFromCurve]
  · simp [coefficientsFromCurve]
    ring
  · simp [coefficientsFromCurve]
  · simp [coefficientsFromCurve]
    ring

/-- Claim C8: for every curve and every `t` with `0 < t < 1`, the forward
evaluation returns `relativeTime = ax*t^3 + bx*t^2 + cx*t + dx` and
`relativeValue = ay*t^3 + by*t^2 + cy*t + dy` for the X-axis and Y-axis
coefficients of the curve; `relativeTime` is the same for any other curve with
the same x-coordinates and `relativeValue` for any other curve with the same
y-coordinates. -/
theorem forward_evaluation_interior {K : Type} [LinearOrderedField K]
    (curve : CCubicBezierCurve K) (t : K) (h0 : 0 < t) (h1 : t < 1) :
    (CurvePointOnBezierCurveAtT curve t).relativeTime =
        (coefficientsFromCurve curve Axis.XAxis).a * t ^ 3 +
          (coefficientsFromCurve curve Axis.XAxis).b * t ^ 2 +
          (coefficientsFromCurve curve Axis.XAxis).c * t +
          (coefficientsFromCurve curve Axis.XAxis).d ∧
      (CurvePointOnBezierCurveAtT curve t).relativeValue =
        (coefficientsFromCurve curve Axis.YAxis).a * t ^ 3 +
          (coefficientsFromCurve curve Axis.YAxis).b * t ^ 2 +
          (coefficientsFromCurve curve Axis.YAxis).c * t +
          (coefficientsFromCurve curve Axis.YAxis).d ∧
      (∀ other : CCubicBezierCurve K,
        other.c0.x = curve.c0.x → other.c1.x = curve.c1.x →
        other.c2.x = curve.c2.x → other.c3.x = curve.c3.x →
        (CurvePointOnBezierCurveAtT other t).relativeTime =
          (CurvePointOnBezierCurveAtT curve t).relativeTime) ∧
      (∀ other : CCubicBezierCurve K,
        other.c0.y = curve.c0.y → other.c1.y = curve.c1.y →
        other.c2.y = curve.c2.y → other.c3.y = curve.c3.y →
        (CurvePointOnBezierCurveAtT other t).relativeValue =
          (CurvePointOnBezierCurveAtT curve t).relativeValue) := by
  refine ⟨?_, ?_, ?_, ?_⟩
  · rw [CurvePointOnBezierCurveAtT_interior curve t h0 h1]
    rfl
  · rw [CurvePointOnBezierCurveAtT_interior curve t h0 h1]
    rfl
  · intro other e0 e1 e2 e3
    rw [CurvePointOnBezierCurveAtT_interior curve t h0 h1,
      CurvePointOnBezierCurveAtT_interior other t h0 h1]
    simp [CubicCoefficients.eval, coefficientsFromCurve, e0, e1, e2, e3]
  · intro other e0 e1 e2 e3
    rw [CurvePointOnBezierCurveAtT_interior curve t h0 h1,
      CurvePointOnBezierCurveAtT_interior other t h0 h1]
    simp [CubicCoefficients.eval, coefficientsFromCurve, e0, e1, e2, e3]

/-- Witness of claim C8: the curve "ease" at `t = 1/2`, compared with a curve
that shares its x-coordinates only. -/
theorem forward_evaluation_interior_witness :
    (0 : ℚ) < 1 / 2 ∧ (1 / 2 : ℚ) < 1 ∧
      (CurvePointOnBezierCurveAtT (easeCurve ℚ) (1 / 2)).relativeTime = 5 / 16 ∧
      (CurvePointOnBezierCurveAtT (easeCurve ℚ) (1 / 2)).relativeValue = 43 / 80 ∧
      (CurvePointOnBezierCurveAtT (dyadicEaseCurve ℚ) (1 / 2)).relativeTime = 5 / 16 := by
  have h := forward_evaluation_interior (easeCurve ℚ) (1 / 2) (by norm_num) (by norm_num)
  refine ⟨by norm_num, by norm_num, ?_, ?_, ?_⟩
  · rw [h.1]
    norm_num [coefficientsFromCurve, easeCurve]
  · rw [h.2.1]
    simp [coefficientsFromCurve, easeCurve]
    norm_num
  · rw [h.2.2.1 (dyadicEaseCurve ℚ) rfl rfl rfl rfl, h.1]
    norm_num [coefficientsFromCurve, easeCurve]

/-- Claim C9: for every curve, whatever its control points, the forward
evaluation returns `(0, 0)` for every `t <= 0` and `(1, 1)` for every `t >= 1`:
both fields are the clamped `t`, not the coordinates of `c0` or `c3`. -/
theorem forward_boundary_clamp {K : Type} [LinearOrderedField K]
    (curve : CCubicBezierCurve K) (t : K) :
    (t ≤ 0 → CurvePointOnBezierCurveAtT curve t = { relativeTime := 0, relativeValue := 0 }) ∧
      (1 ≤ t → CurvePointOnBezierCurveAtT curve t = { relativeTime := 1, relativeValue := 1 }) :=
  ⟨CurvePointOnBezierCurveAtT_le_zero curve t, CurvePointOnBezierCurveAtT_ge_one curve t⟩

/-- Witness of claim C9: `t = -1/2, 0, 1, 3/2` on a curve that starts at
`(5, 7)` and ends at `(9, 11)`. -/
theorem forward_boundary_clamp_witness :
    CurvePointOnBezierCurveAtT (shiftedCurve ℚ) (-1 / 2) = { relativeTime := 0, relativeValue := 0 } ∧
      CurvePointOnBezierCurveAtT (shiftedCurve ℚ) 0 = { relativeTime := 0, relativeValue := 0 } ∧
      CurvePointOnBezierCurveAtT (shiftedCurve ℚ) 1 = { relativeTime := 1, relativeValue := 1 } ∧
      CurvePointOnBezierCurveAtT (shiftedCurve ℚ) (3 / 2) =
        { relativeTime := 1, relativeValue := 1 } ∧
      (shiftedCurve ℚ).c0 = { x := 5, y := 7 } ∧ (shiftedCurve ℚ).c3 = { x := 9, y := 11 } :=
  ⟨(forward_boundary_clamp (shiftedCurve ℚ) (-1 / 2)).1 (by norm_num),
    (forward_boundary_clamp (shiftedCurve ℚ) 0).1 (le_refl 0),
    (forward_boundary_clamp (shiftedCurve ℚ) 1).2 (le_refl 1),
    (forward_boundary_clamp (shiftedCurve ℚ) (3 / 2)).2 (by norm_num), rfl, rfl⟩

/-- Claim C10: for every curve and every `t` with `t <= 0` or `t >= 1`, the
inverse evaluation equals the forward evaluation at `t`, namely `(0, 0)` when
`t <= 0` and `(1, 1)` when `t >= 1`. -/
theorem inverse_boundary_delegation (curve : CCubicBezierCurve ℝ) (t : ℝ)
    (h : t ≤ 0 ∨ 1 ≤ t) :
    CurvePointIntersectingCurveAtT curve t = CurvePointOnBezierCurveAtT curve t ∧
      (t ≤ 0 → CurvePointIntersectingCurveAtT curve t =
        { relativeTime := 0, relativeValue := 0 }) ∧
      (1 ≤ t → CurvePointIntersectingCurveAtT curve t =
        { relativeTime := 1, relativeValue := 1 }) := by
  have e := CurvePointIntersectingCurveAtT_boundary curve t h
  refine ⟨e, ?_, ?_⟩
  · intro h0
    rw [e, CurvePointOnBezierCurveAtT_le_zero curve t h0]
  · intro h1
    rw [e, CurvePointOnBezierCurveAtT_ge_one curve t h1]

/-- Witness of claim C10: `t = -1/2` and `t = 3/2` on a curve that starts at
`(5, 7)` and ends at `(9, 11)`. -/
theorem inverse_boundary_delegation_witness :
    CurvePointIntersectingCurveAtT (shiftedCurve ℝ) (-1 / 2) =
        { relativeTime := 0, relativeValue := 0 } ∧
      CurvePointIntersectingCurveAtT (shiftedCurve ℝ) (3 / 2) =
        { relativeTime := 1, relativeValue := 1 } :=
  ⟨(inverse_boundary_delegation (shiftedCurve ℝ) (-1 / 2) (Or.inl (by norm_num))).2.1
      (by norm_num),
    (inverse_boundary_delegation (shiftedCurve ℝ) (3 / 2) (Or.inr (by norm_num))).2.2
      (by norm_num)⟩

/-! ## Claims on the root solver -/

/-- Claim C6: `rootForCurve` never returns a value outside `[0, 1]`: for every
curve, with no precondition (a zero leading coefficient included), the result
lies in `[0, 1]`, and so does the result for the translated-and-rotated curve of
every curve and every target `t`. -/
theorem root_domain (curve : CCubicBezierCurve ℝ) (t : ℝ) :
    (0 ≤ rootForCurve curve ∧ rootForCurve curve ≤ 1) ∧
      (0 ≤ rootForCurve (alignedCurve curve t) ∧ rootForCurve (alignedCurve curve t) ≤ 1) :=
  ⟨rootForCurve_mem_unit curve, rootForCurve_mem_unit (alignedCurve curve t)⟩

/-! ## The inverse evaluation when the solver finds nothing -/

/-- Inside the unit interval, a solver result of 0 makes the inverse
evaluation return `(0, 0)`. -/
theorem CurvePointIntersectingCurveAtT_of_root_zero (curve : CCubicBezierCurve ℝ) (t : ℝ)
    (ht0 : 0 < t) (ht1 : t < 1) (h : rootForCurve (alignedCurve curve t) = 0) :
    CurvePointIntersectingCurveAtT curve t = { relativeTime := 0, relativeValue := 0 } := by
  rw [CurvePointIntersectingCurveAtT_interior curve t ht0 ht1, h,
    CurvePointOnBezierCurveAtT_le_zero curve 0 (le_refl 0)]

/-- The reduced `p` and `q` of the aligned curve in terms of the x-coordinates. -/
theorem alignedCurve_reduced (curve : CCubicBezierCurve ℝ) (t : ℝ) :
    reducedP (coefficientsFromCurve (alignedCurve curve t) Axis.YAxis) =
        reducedP (coefficientsFromCurve curve Axis.XAxis) ∧
      reducedQ (coefficientsFromCurve (alignedCurve curve t) Axis.YAxis) =
        reducedQ { a := (coefficientsFromCurve curve Axis.XAxis).a
                   b := (coefficientsFromCurve curve Axis.XAxis).b
                   c := (coefficientsFromCurve curve Axis.XAxis).c
                   d := (coefficientsFromCurve curve Axis.XAxis).d - t } := by
  rw [alignedCurve_coefficients]
  exact ⟨rfl, rfl⟩

/-- The x-coordinates of "ease" at the target `5/32`: `q = 0` and `p = 3/16`. -/
theorem ease_x_reduced (curve : CCubicBezierCurve ℝ)
    (e0 : curve.c0.x = 0) (e1 : curve.c1.x = 1 / 4) (e2 : curve.c2.x = 1 / 4)
    (e3 : curve.c3.x = 1) :
    reducedQ (coefficientsFromCurve (alignedCurve curve (5 / 32)) Axis.YAxis) = 0 ∧
      reducedP (coefficientsFromCurve (alignedCurve curve (5 / 32)) Axis.YAxis) = 3 / 16 := by
  rw [alignedCurve_coefficients]
  simp [reducedP, reducedQ, coefficientsFromCurve, e0, e1, e2, e3]
  constructor <;> norm_num

/-- With the x-coordinates of "ease" the inverse evaluation at `5/32` returns `(0, 0)`. -/
theorem ease_x_inverse (curve : CCubicBezierCurve ℝ)
    (e0 : curve.c0.x = 0) (e1 : curve.c1.x = 1 / 4) (e2 : curve.c2.x = 1 / 4)
    (e3 : curve.c3.x = 1) :
    CurvePointIntersectingCurveAtT curve (5 / 32) = { relativeTime := 0, relativeValue := 0 } := by
  obtain ⟨hq, hp⟩ := ease_x_reduced curve e0 e1 e2 e3
  apply CurvePointIntersectingCurveAtT_of_root_zero curve (5 / 32) (by norm_num) (by norm_num)
  apply rootForCurve_eq_zero_of_sqrt_negative _ hq
  rw [hp]
  norm_num

/-! ## Claims on the inverse evaluation -/

/-- Claim C5: for every curve whose Y-axis cubic has a non-zero leading
coefficient and no real root in `[0, 1]`, `rootForCurve` returns 0; and for
every curve with a non-zero x-axis leading coefficient and every `t` in `(0, 1)`
such that the x polynomial never equals `t` on `[0, 1]`, the inverse evaluation
returns `(relativeTime = 0, relativeValue = 0)`. -/
theorem no_root_degrades_to_zero (curve : CCubicBezierCurve ℝ) (t : ℝ) :
    ((coefficientsFromCurve curve Axis.YAxis).a ≠ 0 →
        (∀ s : ℝ, 0 ≤ s → s ≤ 1 → (coefficientsFromCurve curve Axis.YAxis).eval s ≠ 0) →
        rootForCurve curve = 0) ∧
      ((coefficientsFromCurve curve Axis.XAxis).a ≠ 0 → 0 < t → t < 1 →
        (∀ s : ℝ, 0 ≤ s → s ≤ 1 → (coefficientsFromCurve curve Axis.XAxis).eval s ≠ t) →
        CurvePointIntersectingCurveAtT curve t = { relativeTime := 0, relativeValue := 0 }) := by
  constructor
  · intro _ hno
    exact rootForCurve_eq_zero_of_no_root curve hno
  · intro _ ht0 ht1 hno
    apply CurvePointIntersectingCurveAtT_of_root_zero curve t ht0 ht1
    apply rootForCurve_eq_zero_of_no_root
    intro s hs0 hs1 hs
    rw [alignedCurve_eval] at hs
    exact hno s hs0 hs1 (by linarith)

/-- Witness of claim C5: the curve `(2,1), (2,1), (2,1), (3,2)`, whose Y-axis
cubic is `s^3 + 1` and whose x polynomial is `s^3 + 2`, with the target `1/2`. -/
theorem no_root_degrades_to_zero_witness :
    rootForCurve (offsetCurve ℝ) = 0 ∧
      CurvePointIntersectingCurveAtT (offsetCurve ℝ) (1 / 2) =
        { relativeTime := 0, relativeValue := 0 } := by
  have h := no_root_degrades_to_zero (offsetCurve ℝ) (1 / 2)
  constructor
  · apply h.1
    · simp [coefficientsFromCurve, offsetCurve]
      norm_num
    · intro s hs0 _
      simp [CubicCoefficients.eval, coefficientsFromCurve, offsetCurve]
      have : 0 ≤ s ^ 3 := pow_nonneg hs0 3
      nlinarith
  · apply h.2
    · simp [coefficientsFromCurve, offsetCurve]
      norm_num
    · norm_num
    · norm_num
    · intro s hs0 _
      simp [CubicCoefficients.eval, coefficientsFromCurve, offsetCurve]
      have : 0 ≤ s ^ 3 := pow_nonneg hs0 3
      nlinarith
/-- The parameter of "ease" at which x is `1/2` lies between 0.698 and 0.701. -/
theorem ease_half_parameter (s : ℝ) (hs : s ^ 3 - 3 / 4 * s ^ 2 + 3 / 4 * s - 1 / 2 = 0) :
    349 / 500 < s ∧ s < 701 / 1000 := by
  constructor
  · by_contra hcon
    push_neg at hcon
    have hg : 0 < s ^ 2 + (349 / 500 - 3 / 4) * s + ((349 / 500) ^ 2 - 3 / 4 * (349 / 500) + 3 / 4) := by
      nlinarith [sq_nonneg (s - 13 / 500)]
    have hprod : 0 ≤ (349 / 500 - s) *
        (s ^ 2 + (349 / 500 - 3 / 4) * s + ((349 / 500) ^ 2 - 3 / 4 * (349 / 500) + 3 / 4)) :=
      mul_nonneg (by linarith) (le_of_lt hg)
    nlinarith
  · by_contra hcon
    push_neg at hcon
    have hg : 0 < s ^ 2 + (701 / 1000 - 3 / 4) * s +
        ((701 / 1000) ^ 2 - 3 / 4 * (701 / 1000) + 3 / 4) := by
      nlinarith [sq_nonneg (s - 49 / 2000)]
    have hprod : 0 ≤ (s - 701 / 1000) *
        (s ^ 2 + (701 / 1000 - 3 / 4) * s + ((701 / 1000) ^ 2 - 3 / 4 * (701 / 1000) + 3 / 4)) :=
      mul_nonneg (by linarith) (le_of_lt hg)
    nlinarith

/-- Claim C3: for the CSS curve "ease" `(0,0), (0.25,0.1), (0.25,1.0), (1,1)`,
the inverse evaluation at `0.5` has `relativeTime = 0.5` and a `relativeValue`
within `0.01` of `0.8024`. -/
theorem ease_at_half :
    (CurvePointIntersectingCurveAtT (easeCurve ℝ) (1 / 2)).relativeTime = 1 / 2 ∧
      |(CurvePointIntersectingCurveAtT (easeCurve ℝ) (1 / 2)).relativeValue - 8024 / 10000|
        ≤ 1 / 100 := by
  have hk := alignedCurve_coefficients (easeCurve ℝ) (1 / 2)
  have hx : ∀ s : ℝ, (coefficientsFromCurve (easeCurve ℝ) Axis.XAxis).eval s
      = s ^ 3 - 3 / 4 * s ^ 2 + 3 / 4 * s := by
    intro s
    simp [CubicCoefficients.eval, coefficientsFromCurve, easeCurve]
    ring
  have hy : ∀ s : ℝ, (coefficientsFromCurve (easeCurve ℝ) Axis.YAxis).eval s
      = -(17 / 10) * s ^ 3 + 12 / 5 * s ^ 2 + 3 / 10 * s := by
    intro s
    simp [CubicCoefficients.eval, coefficientsFromCurve, easeCurve]
    ring
  have ha : (coefficientsFromCurve (easeCurve ℝ) Axis.XAxis).a ≠ 0 := by
    norm_num [coefficientsFromCurve, easeCurve]
  obtain ⟨s, hs0, hs1, hs⟩ :=
    exists_root_unit (coefficientsFromCurve (alignedCurve (easeCurve ℝ) (1 / 2)) Axis.YAxis)
      (by rw [alignedCurve_eval, hx]; norm_num) (by rw [alignedCurve_eval, hx]; norm_num)
  rw [alignedCurve_eval, hx] at hs
  have hxs : (coefficientsFromCurve (easeCurve ℝ) Axis.XAxis).eval s = 1 / 2 := by
    rw [hx]; linarith
  have hnan : ¬ (reducedQ (coefficientsFromCurve (alignedCurve (easeCurve ℝ) (1 / 2)) Axis.YAxis)
      = 0 ∧ 0 < reducedP (coefficientsFromCurve (alignedCurve (easeCurve ℝ) (1 / 2)) Axis.YAxis)) := by
    rintro ⟨hq, _⟩
    rw [hk] at hq
    simp [reducedQ, coefficientsFromCurve, easeCurve] at hq
    norm_num at hq
  have hinv := CurvePointIntersectingCurveAtT_eq_at_root (easeCurve ℝ) (1 / 2) (by norm_num)
    (by norm_num) (by simp [easeCurve]) (by simp [easeCurve])
    (by simp [easeCurve]; norm_num) ha hnan s hs0 hs1 hxs
  obtain ⟨hlo, hhi⟩ := ease_half_parameter s (by linarith)
  rw [hinv, CurvePointOnBezierCurveAtT_interior (easeCurve ℝ) s (by linarith) (by linarith)]
  refine ⟨hxs, ?_⟩
  show |(coefficientsFromCurve (easeCurve ℝ) Axis.YAxis).eval s - 8024 / 10000| ≤ 1 / 100
  rw [hy, abs_le]
  have hcube : s ^ 3 = 3 / 4 * s ^ 2 - 3 / 4 * s + 1 / 2 := by linarith
  rw [hcube]
  constructor <;> nlinarith

/-- The round trip where the solver finds the root: for every curve with
`0 <= c0.x <= c1.x <= c2.x <= c3.x <= 1` and a non-zero leading x coefficient,
and every `t` in `(0, 1)`, with `p` the forward evaluation at `t`: unless the
reduced cubic of the curve aligned at `p.relativeTime` has `q = 0` and `p > 0`,
the inverse evaluation at `p.relativeTime` returns `p`. -/
theorem round_trip (curve : CCubicBezierCurve ℝ) (t : ℝ) (ht0 : 0 < t) (ht1 : t < 1)
    (hx0 : 0 ≤ curve.c0.x) (h01 : curve.c0.x ≤ curve.c1.x) (h12 : curve.c1.x ≤ curve.c2.x)
    (h23 : curve.c2.x ≤ curve.c3.x) (hx3 : curve.c3.x ≤ 1)
    (ha : (coefficientsFromCurve curve Axis.XAxis).a ≠ 0)
    (hnan : ¬ (reducedQ (coefficientsFromCurve
          (alignedCurve curve (CurvePointOnBezierCurveAtT curve t).relativeTime) Axis.YAxis) = 0 ∧
        0 < reducedP (coefficientsFromCurve
          (alignedCurve curve (CurvePointOnBezierCurveAtT curve t).relativeTime) Axis.YAxis))) :
    (CurvePointIntersectingCurveAtT curve
        (CurvePointOnBezierCurveAtT curve t).relativeTime).relativeValue =
        (CurvePointOnBezierCurveAtT curve t).relativeValue ∧
      CurvePointIntersectingCurveAtT curve (CurvePointOnBezierCurveAtT curve t).relativeTime =
        CurvePointOnBezierCurveAtT curve t := by
  have h03 := x_ends_apart curve h01 h12 h23 ha
  have hends := xEval_endpoints curve
  have hlo := xEval_strictMono curve h01 h12 h23 h03 0 t (le_refl 0) ht0 (le_of_lt ht1)
  have hhi := xEval_strictMono curve h01 h12 h23 h03 t 1 (le_of_lt ht0) ht1 (le_refl 1)
  rw [hends.1] at hlo
  rw [hends.2] at hhi
  have htime : (CurvePointOnBezierCurveAtT curve t).relativeTime =
      (coefficientsFromCurve curve Axis.XAxis).eval t := by
    rw [CurvePointOnBezierCurveAtT_interior curve t ht0 ht1]
  have key : CurvePointIntersectingCurveAtT curve (CurvePointOnBezierCurveAtT curve t).relativeTime
      = CurvePointOnBezierCurveAtT curve t :=
    CurvePointIntersectingCurveAtT_eq_at_root curve _ (by rw [htime]; linarith)
      (by rw [htime]; linarith) h01 h12 h23 ha hnan t (le_of_lt ht0) (le_of_lt ht1) htime.symm
  exact ⟨by rw [key], key⟩

/-- The round trip of the curve "ease" at `t = 1/2`, where the forward
evaluation is `(5/16, 43/80)`. -/
theorem round_trip_witness :
    CurvePointOnBezierCurveAtT (easeCurve ℝ) (1 / 2) =
        { relativeTime := 5 / 16, relativeValue := 43 / 80 } ∧
      CurvePointIntersectingCurveAtT (easeCurve ℝ) (5 / 16) =
        { relativeTime := 5 / 16, relativeValue := 43 / 80 } := by
  have hf : CurvePointOnBezierCurveAtT (easeCurve ℝ) (1 / 2) =
      { relativeTime := 5 / 16, relativeValue := 43 / 80 } := by
    rw [CurvePointOnBezierCurveAtT_interior (easeCurve ℝ) (1 / 2) (by norm_num) (by norm_num)]
    simp [CubicCoefficients.eval, coefficientsFromCurve, easeCurve]
    constructor <;> norm_num
  have h := round_trip (easeCurve ℝ) (1 / 2) (by norm_num) (by norm_num)
    (by simp [easeCurve]) (by simp [easeCurve]) (by simp [easeCurve])
    (by simp [easeCurve]; norm_num) (by simp [easeCurve])
    (by norm_num [coefficientsFromCurve, easeCurve])
    (by
      rw [hf, alignedCurve_coefficients]
      rintro ⟨hq, _⟩
      simp [reducedQ, coefficientsFromCurve, easeCurve] at hq
      norm_num at hq)
  refine ⟨hf, ?_⟩
  have h2 := h.2
  rw [hf] at h2
  exact h2

/-- Claim C1, evaluated at a failing input: the curve `(0,0), (1/4,0), (1/4,0),
(1,1/2)` meets the preconditions of the claim, `s = 1/4` is the only real
parameter at which its x polynomial equals `t = 5/32`, the forward evaluation at
`s` is `(5/32, 1/128)`, and the inverse evaluation at `t` returns `(0, 0)`. -/
theorem inverse_at_inflection_target :
    ((dyadicEaseCurve ℝ).c0.x = 0 ∧ (dyadicEaseCurve ℝ).c0.x ≤ (dyadicEaseCurve ℝ).c1.x ∧
        (dyadicEaseCurve ℝ).c1.x ≤ (dyadicEaseCurve ℝ).c2.x ∧
        (dyadicEaseCurve ℝ).c2.x ≤ (dyadicEaseCurve ℝ).c3.x ∧ (dyadicEaseCurve ℝ).c3.x = 1 ∧
        (coefficientsFromCurve (dyadicEaseCurve ℝ) Axis.XAxis).a ≠ 0) ∧
      (∀ s : ℝ, (coefficientsFromCurve (dyadicEaseCurve ℝ) Axis.XAxis).eval s = 5 / 32 ↔
        s = 1 / 4) ∧
      CurvePointOnBezierCurveAtT (dyadicEaseCurve ℝ) (1 / 4) =
        { relativeTime := 5 / 32, relativeValue := 1 / 128 } ∧
      CurvePointIntersectingCurveAtT (dyadicEaseCurve ℝ) (5 / 32) =
        { relativeTime := 0, relativeValue := 0 } := by
  refine ⟨⟨rfl, ?_, ?_, ?_, rfl, ?_⟩, ?_, ?_, ease_x_inverse (dyadicEaseCurve ℝ) rfl rfl rfl rfl⟩
  · simp [dyadicEaseCurve]
  · simp [dyadicEaseCurve]
  · simp [dyadicEaseCurve]; norm_num
  · norm_num [coefficientsFromCurve, dyadicEaseCurve]
  · intro s
    have e : (coefficientsFromCurve (dyadicEaseCurve ℝ) Axis.XAxis).eval s - 5 / 32
        = (s - 1 / 4) * (s ^ 2 - 1 / 2 * s + 5 / 8) := by
      simp [CubicCoefficients.eval, coefficientsFromCurve, dyadicEaseCurve]
      ring
    constructor
    · intro h
      have h0 : (s - 1 / 4) * (s ^ 2 - 1 / 2 * s + 5 / 8) = 0 := by rw [← e, h]; norm_num
      rcases mul_eq_zero.mp h0 with h1 | h1
      · linarith
      · nlinarith [sq_nonneg (s - 1 / 4)]
    · intro h
      have : (coefficientsFromCurve (dyadicEaseCurve ℝ) Axis.XAxis).eval s - 5 / 32 = 0 := by
        rw [e, h]; norm_num
      linarith
  · rw [CurvePointOnBezierCurveAtT_interior (dyadicEaseCurve ℝ) (1 / 4) (by norm_num) (by norm_num)]
    simp [CubicCoefficients.eval, coefficientsFromCurve, dyadicEaseCurve]
    constructor <;> norm_num

/-- Claim C4, evaluated at a failing input: the Y-axis cubic of the curve
`(0,-5/32), (0,3/32), (0,3/32), (0,27/32)` is `s^3 - 3/4 s^2 + 3/4 s - 5/32`,
its leading coefficient is 1, its only real root is `1/4`, which lies in
`[0, 1]`, and `rootForCurve` returns 0. -/
theorem rootForCurve_at_inflection_root :
    (coefficientsFromCurve (inflectionCurve ℝ) Axis.YAxis) =
        { a := 1, b := -3 / 4, c := 3 / 4, d := -5 / 32 } ∧
      (∀ s : ℝ, (coefficientsFromCurve (inflectionCurve ℝ) Axis.YAxis).eval s = 0 ↔ s = 1 / 4) ∧
      rootForCurve (inflectionCurve ℝ) = 0 := by
  have hk : (coefficientsFromCurve (inflectionCurve ℝ) Axis.YAxis) =
      { a := 1, b := -3 / 4, c := 3 / 4, d := -5 / 32 } := by
    simp [coefficientsFromCurve, inflectionCurve]
    refine ⟨?_, ?_, ?_⟩ <;> norm_num
  refine ⟨hk, ?_, ?_⟩
  · intro s
    rw [hk]
    have e : ({ a := 1, b := -3 / 4, c := 3 / 4, d := -5 / 32 } : CubicCoefficients ℝ).eval s
        = (s - 1 / 4) * (s ^ 2 - 1 / 2 * s + 5 / 8) := by
      simp [CubicCoefficients.eval]
      ring
    rw [e]
    constructor
    · intro h0
      rcases mul_eq_zero.mp h0 with h1 | h1
      · linarith
      · nlinarith [sq_nonneg (s - 1 / 4)]
    · intro h
      rw [h]; norm_num
  · apply rootForCurve_eq_zero_of_sqrt_negative
    · rw [hk]
      norm_num [reducedQ]
    · rw [hk]
      norm_num [reducedP]

/-! ## Claims on the forward evaluation of particular curves -/

/-- Claim C11: for the identity curve `(0,0), (1/3,1/3), (2/3,2/3), (1,1)` and
every `t` in the closed interval `[0, 1]`, the forward evaluation returns
`relativeTime = t` and `relativeValue = t` exactly, hence within `1e-9`. -/
theorem identity_curve_forward {K : Type} [LinearOrderedField K] (t : K)
    (h0 : 0 ≤ t) (h1 : t ≤ 1) :
    CurvePointOnBezierCurveAtT (identityCurve K) t = { relativeTime := t, relativeValue := t } ∧
      |(CurvePointOnBezierCurveAtT (identityCurve K) t).relativeTime - t| ≤ 1 / 1000000000 ∧
      |(CurvePointOnBezierCurveAtT (identityCurve K) t).relativeValue - t| ≤ 1 / 1000000000 := by
  have key : CurvePointOnBezierCurveAtT (identityCurve K) t =
      { relativeTime := t, relativeValue := t } := by
    rcases lt_or_eq_of_le h0 with hpos | hzero
    · rcases lt_or_eq_of_le h1 with hlt | hone
      · rw [CurvePointOnBezierCurveAtT_interior (identityCurve K) t hpos hlt]
        have e : ∀ axis, (coefficientsFromCurve (identityCurve K) axis).eval t = t := by
          intro axis
          cases axis <;>
            simp [CubicCoefficients.eval, coefficientsFromCurve, identityCurve] <;>
            ring
        rw [e, e]
      · rw [hone, CurvePointOnBezierCurveAtT_ge_one (identityCurve K) 1 (le_refl 1)]
    · rw [← hzero, CurvePointOnBezierCurveAtT_le_zero (identityCurve K) 0 (le_refl 0)]
  refine ⟨key, ?_, ?_⟩
  · rw [key]
    simp
  · rw [key]
    simp

/-- Witness of claim C11: `t = 0`, `t = 1/3` and `t = 1`. -/
theorem identity_curve_forward_witness :
    CurvePointOnBezierCurveAtT (identityCurve ℚ) 0 = { relativeTime := 0, relativeValue := 0 } ∧
      CurvePointOnBezierCurveAtT (identityCurve ℚ) (1 / 3) =
        { relativeTime := 1 / 3, relativeValue := 1 / 3 } ∧
      CurvePointOnBezierCurveAtT (identityCurve ℚ) 1 = { relativeTime := 1, relativeValue := 1 } :=
  ⟨(identity_curve_forward (0 : ℚ) (le_refl 0) zero_le_one).1,
    (identity_curve_forward (1 / 3 : ℚ) (by norm_num) (by norm_num)).1,
    (identity_curve_forward (1 : ℚ) zero_le_one (le_refl 1)).1⟩

/-- Claim C14: a rotation by 90 degrees sends every control point `p` to
`(-p.y, p.x)`, and for every curve and every `t` the aligned curve built by the
inverse evaluation has the Y-axis coefficients `(ax, bx, cx, dx - t)` of the
X-axis coefficients `(ax, bx, cx, dx)` of the curve, so that the cubic handed to
`rootForCurve` is `x(s) - t`. -/
theorem alignment_transform (controlPoint : CControlPoint ℝ) (curve : CCubicBezierCurve ℝ)
    (t s : ℝ) :
    rotatedControlPointAroundOriginByDegrees controlPoint 90 =
        { x := -controlPoint.y, y := controlPoint.x } ∧
      coefficientsFromCurve (alignedCurve curve t) Axis.YAxis =
        { a := (coefficientsFromCurve curve Axis.XAxis).a
          b := (coefficientsFromCurve curve Axis.XAxis).b
          c := (coefficientsFromCurve curve Axis.XAxis).c
          d := (coefficientsFromCurve curve Axis.XAxis).d - t } ∧
      (coefficientsFromCurve (alignedCurve curve t) Axis.YAxis).a * s ^ 3 +
          (coefficientsFromCurve (alignedCurve curve t) Axis.YAxis).b * s ^ 2 +
          (coefficientsFromCurve (alignedCurve curve t) Axis.YAxis).c * s +
          (coefficientsFromCurve (alignedCurve curve t) Axis.YAxis).d =
        ((coefficientsFromCurve curve Axis.XAxis).a * s ^ 3 +
          (coefficientsFromCurve curve Axis.XAxis).b * s ^ 2 +
          (coefficientsFromCurve curve Axis.XAxis).c * s +
          (coefficientsFromCurve curve Axis.XAxis).d) - t := by
  refine ⟨rotated_by_ninety controlPoint, alignedCurve_coefficients curve t, ?_⟩
  have h := alignedCurve_eval curve t s
  simp only [CubicCoefficients.eval] at h
  exact h

/-! ## The Bernstein form and the unit square -/

section Bernstein

variable {K : Type} [LinearOrderedField K]

/-- The Bernstein form of coordinates in the unit interval stays in the unit
interval for a parameter in the unit interval. -/
theorem bernstein_mem_unit (c0 c1 c2 c3 t : K) (h0 : 0 ≤ c0 ∧ c0 ≤ 1) (h1 : 0 ≤ c1 ∧ c1 ≤ 1)
    (h2 : 0 ≤ c2 ∧ c2 ≤ 1) (h3 : 0 ≤ c3 ∧ c3 ≤ 1) (ht0 : 0 ≤ t) (ht1 : t ≤ 1) :
    0 ≤ bernstein c0 c1 c2 c3 t ∧ bernstein c0 c1 c2 c3 t ≤ 1 := by
  have hu : 0 ≤ 1 - t := by linarith
  have b0 : 0 ≤ (1 - t) ^ 3 := pow_nonneg hu 3
  have b1 : 0 ≤ 3 * (1 - t) ^ 2 * t := mul_nonneg (mul_nonneg (by norm_num) (pow_nonneg hu 2)) ht0
  have b2 : 0 ≤ 3 * (1 - t) * t ^ 2 := mul_nonneg (mul_nonneg (by norm_num) hu) (pow_nonneg ht0 2)
  have b3 : 0 ≤ t ^ 3 := pow_nonneg ht0 3
  have hsum : (1 - t) ^ 3 + 3 * (1 - t) ^ 2 * t + 3 * (1 - t) * t ^ 2 + t ^ 3 = 1 := by ring
  unfold bernstein
  constructor
  · have := mul_nonneg b0 h0.1
    have := mul_nonneg b1 h1.1
    have := mul_nonneg b2 h2.1
    have := mul_nonneg b3 h3.1
    linarith
  · have e0 : (1 - t) ^ 3 * c0 ≤ (1 - t) ^ 3 := by
      have := mul_le_mul_of_nonneg_left h0.2 b0
      linarith
    have e1 : 3 * (1 - t) ^ 2 * t * c1 ≤ 3 * (1 - t) ^ 2 * t := by
      have := mul_le_mul_of_nonneg_left h1.2 b1
      linarith
    have e2 : 3 * (1 - t) * t ^ 2 * c2 ≤ 3 * (1 - t) * t ^ 2 := by
      have := mul_le_mul_of_nonneg_left h2.2 b2
      linarith
    have e3 : t ^ 3 * c3 ≤ t ^ 3 := by
      have := mul_le_mul_of_nonneg_left h3.2 b3
      linarith
    linarith

/-- The forward evaluation is the clamped parameter outside the open unit
interval and the Bernstein-form point inside. -/
theorem CurvePointOnBezierCurveAtT_cases (curve : CCubicBezierCurve K) (t : K) :
    (t ≤ 0 ∧ CurvePointOnBezierCurveAtT curve t = { relativeTime := 0, relativeValue := 0 }) ∨
      (1 ≤ t ∧ CurvePointOnBezierCurveAtT curve t = { relativeTime := 1, relativeValue := 1 }) ∨
      (0 < t ∧ t < 1 ∧ CurvePointOnBezierCurveAtT curve t = bezierPoint curve t) := by
  rcases le_or_lt t 0 with h0 | h0
  · exact Or.inl ⟨h0, CurvePointOnBezierCurveAtT_le_zero curve t h0⟩
  rcases le_or_lt 1 t with h1 | h1
  · exact Or.inr (Or.inl ⟨h1, CurvePointOnBezierCurveAtT_ge_one curve t h1⟩)
  · refine Or.inr (Or.inr ⟨h0, h1, ?_⟩)
    rw [CurvePointOnBezierCurveAtT_interior curve t h0 h1, (eval_eq_bernstein curve t).1,
      (eval_eq_bernstein curve t).2]
    rfl

/-- With y-coordinates in the unit interval the forward `relativeValue` is in
the unit interval, at every parameter. -/
theorem forward_value_mem_unit (curve : CCubicBezierCurve K) (t : K)
    (h0 : 0 ≤ curve.c0.y ∧ curve.c0.y ≤ 1) (h1 : 0 ≤ curve.c1.y ∧ curve.c1.y ≤ 1)
    (h2 : 0 ≤ curve.c2.y ∧ curve.c2.y ≤ 1) (h3 : 0 ≤ curve.c3.y ∧ curve.c3.y ≤ 1) :
    0 ≤ (CurvePointOnBezierCurveAtT curve t).relativeValue ∧
      (CurvePointOnBezierCurveAtT curve t).relativeValue ≤ 1 := by
  rcases CurvePointOnBezierCurveAtT_cases curve t with ⟨_, h⟩ | ⟨_, h⟩ | ⟨ht0, ht1, h⟩
  · rw [h]; exact ⟨le_refl 0, zero_le_one⟩
  · rw [h]; exact ⟨zero_le_one, le_refl 1⟩
  · rw [h]
    exact bernstein_mem_unit _ _ _ _ t h0 h1 h2 h3 (le_of_lt ht0) (le_of_lt ht1)

/-- With x-coordinates in the unit interval the forward `relativeTime` is in
the unit interval, at every parameter. -/
theorem forward_time_mem_unit (curve : CCubicBezierCurve K) (t : K)
    (h0 : 0 ≤ curve.c0.x ∧ curve.c0.x ≤ 1) (h1 : 0 ≤ curve.c1.x ∧ curve.c1.x ≤ 1)
    (h2 : 0 ≤ curve.c2.x ∧ curve.c2.x ≤ 1) (h3 : 0 ≤ curve.c3.x ∧ curve.c3.x ≤ 1) :
    0 ≤ (CurvePointOnBezierCurveAtT curve t).relativeTime ∧
      (CurvePointOnBezierCurveAtT curve t).relativeTime ≤ 1 := by
  rcases CurvePointOnBezierCurveAtT_cases curve t with ⟨_, h⟩ | ⟨_, h⟩ | ⟨ht0, ht1, h⟩
  · rw [h]; exact ⟨le_refl 0, zero_le_one⟩
  · rw [h]; exact ⟨zero_le_one, le_refl 1⟩
  · rw [h]
    exact bernstein_mem_unit _ _ _ _ t h0 h1 h2 h3 (le_of_lt ht0) (le_of_lt ht1)

end Bernstein

/-- The inverse evaluation is always a forward evaluation at some parameter. -/
theorem CurvePointIntersectingCurveAtT_is_forward (curve : CCubicBezierCurve ℝ) (t : ℝ) :
    ∃ u : ℝ, CurvePointIntersectingCurveAtT curve t = CurvePointOnBezierCurveAtT curve u := by
  rcases le_or_lt t 0 with h0 | h0
  · exact ⟨t, CurvePointIntersectingCurveAtT_boundary curve t (Or.inl h0)⟩
  rcases le_or_lt 1 t with h1 | h1
  · exact ⟨t, CurvePointIntersectingCurveAtT_boundary curve t (Or.inr h1)⟩
  · exact ⟨_, CurvePointIntersectingCurveAtT_interior curve t h0 h1⟩

/-- Claim C18, amended: in exact real arithmetic, for every curve whose four
control points all have `y` in `[0, 1]` and every real `t`, the `relativeValue`
of the forward evaluation lies in `[0, 1]`, and so does the `relativeValue` of
the inverse evaluation, whatever the root solver returns; likewise both
`relativeTime`s lie in `[0, 1]` when all four x-coordinates do. -/
theorem no_overshoot (curve : CCubicBezierCurve ℝ) (t : ℝ) :
    ((0 ≤ curve.c0.y ∧ curve.c0.y ≤ 1) → (0 ≤ curve.c1.y ∧ curve.c1.y ≤ 1) →
      (0 ≤ curve.c2.y ∧ curve.c2.y ≤ 1) → (0 ≤ curve.c3.y ∧ curve.c3.y ≤ 1) →
        (0 ≤ (CurvePointOnBezierCurveAtT curve t).relativeValue ∧
          (CurvePointOnBezierCurveAtT curve t).relativeValue ≤ 1) ∧
        (0 ≤ (CurvePointIntersectingCurveAtT curve t).relativeValue ∧
          (CurvePointIntersectingCurveAtT curve t).relativeValue ≤ 1)) ∧
    ((0 ≤ curve.c0.x ∧ curve.c0.x ≤ 1) → (0 ≤ curve.c1.x ∧ curve.c1.x ≤ 1) →
      (0 ≤ curve.c2.x ∧ curve.c2.x ≤ 1) → (0 ≤ curve.c3.x ∧ curve.c3.x ≤ 1) →
        (0 ≤ (CurvePointOnBezierCurveAtT curve t).relativeTime ∧
          (CurvePointOnBezierCurveAtT curve t).relativeTime ≤ 1) ∧
        (0 ≤ (CurvePointIntersectingCurveAtT curve t).relativeTime ∧
          (CurvePointIntersectingCurveAtT curve t).relativeTime ≤ 1)) := by
  obtain ⟨u, hu⟩ := CurvePointIntersectingCurveAtT_is_forward curve t
  constructor
  · intro h0 h1 h2 h3
    refine ⟨forward_value_mem_unit curve t h0 h1 h2 h3, ?_⟩
    rw [hu]
    exact forward_value_mem_unit curve u h0 h1 h2 h3
  · intro h0 h1 h2 h3
    refine ⟨forward_time_mem_unit curve t h0 h1 h2 h3, ?_⟩
    rw [hu]
    exact forward_time_mem_unit curve u h0 h1 h2 h3

/-- Witness of the amended claim C18: the curve "ease" at `t = 1/2`, and the
identity curve, whose leading coefficients are zero, at `t = 1/2`. -/
theorem no_overshoot_witness :
    (0 ≤ (CurvePointIntersectingCurveAtT (easeCurve ℝ) (1 / 2)).relativeValue ∧
        (CurvePointIntersectingCurveAtT (easeCurve ℝ) (1 / 2)).relativeValue ≤ 1) ∧
      (0 ≤ (CurvePointIntersectingCurveAtT (easeCurve ℝ) (1 / 2)).relativeTime ∧
        (CurvePointIntersectingCurveAtT (easeCurve ℝ) (1 / 2)).relativeTime ≤ 1) ∧
      (0 ≤ (CurvePointIntersectingCurveAtT (identityCurve ℝ) (1 / 2)).relativeValue ∧
        (CurvePointIntersectingCurveAtT (identityCurve ℝ) (1 / 2)).relativeValue ≤ 1) := by
  refine ⟨?_, ?_, ?_⟩
  · exact ((no_overshoot (easeCurve ℝ) (1 / 2)).1 (by norm_num [easeCurve])
      (by norm_num [easeCurve]) (by norm_num [easeCurve]) (by norm_num [easeCurve])).2
  · exact ((no_overshoot (easeCurve ℝ) (1 / 2)).2 (by norm_num [easeCurve])
      (by norm_num [easeCurve]) (by norm_num [easeCurve]) (by norm_num [easeCurve])).2
  · exact ((no_overshoot (identityCurve ℝ) (1 / 2)).1 (by norm_num [identityCurve])
      (by norm_num [identityCurve]) (by norm_num [identityCurve])
      (by norm_num [identityCurve])).2

/-- Claim C19: for every curve, the cubic of the interior branch takes the value
`c0` at `t = 0` and `c3` at `t = 1` on each axis (`d = c0` and
`a + b + c + d = c3`); the forward evaluation at 0 equals the true start point
of the curve if and only if `c0 = (0, 0)`, the forward evaluation at 1 equals
the true end point if and only if `c3 = (1, 1)`, and for a curve with
`c0 = (0, 0)` and `c3 = (1, 1)` the forward evaluation equals the
Bernstein-form Bezier point for every `t` in the closed interval `[0, 1]`. -/
theorem clamp_agrees_with_easing_endpoints {K : Type} [LinearOrderedField K]
    (curve : CCubicBezierCurve K) :
    ((coefficientsFromCurve curve Axis.XAxis).d = curve.c0.x ∧
        (coefficientsFromCurve curve Axis.YAxis).d = curve.c0.y ∧
        (coefficientsFromCurve curve Axis.XAxis).a + (coefficientsFromCurve curve Axis.XAxis).b +
          (coefficientsFromCurve curve Axis.XAxis).c + (coefficientsFromCurve curve Axis.XAxis).d
          = curve.c3.x ∧
        (coefficientsFromCurve curve Axis.YAxis).a + (coefficientsFromCurve curve Axis.YAxis).b +
          (coefficientsFromCurve curve Axis.YAxis).c + (coefficientsFromCurve curve Axis.YAxis).d
          = curve.c3.y) ∧
      ((coefficientsFromCurve curve Axis.XAxis).eval 0 = curve.c0.x ∧
        (coefficientsFromCurve curve Axis.YAxis).eval 0 = curve.c0.y ∧
        (coefficientsFromCurve curve Axis.XAxis).eval 1 = curve.c3.x ∧
        (coefficientsFromCurve curve Axis.YAxis).eval 1 = curve.c3.y) ∧
      (bezierPoint curve 0 = { relativeTime := curve.c0.x, relativeValue := curve.c0.y } ∧
        bezierPoint curve 1 = { relativeTime := curve.c3.x, relativeValue := curve.c3.y }) ∧
      (CurvePointOnBezierCurveAtT curve 0 = bezierPoint curve 0 ↔ curve.c0 = { x := 0, y := 0 }) ∧
      (CurvePointOnBezierCurveAtT curve 1 = bezierPoint curve 1 ↔ curve.c3 = { x := 1, y := 1 }) ∧
      (curve.c0 = { x := 0, y := 0 } → curve.c3 = { x := 1, y := 1 } →
        ∀ t : K, 0 ≤ t → t ≤ 1 → CurvePointOnBezierCurveAtT curve t = bezierPoint curve t) := by
  have hb0 : bezierPoint curve 0 = { relativeTime := curve.c0.x, relativeValue := curve.c0.y } := by
    simp [bezierPoint, bernstein]
  have hb1 : bezierPoint curve 1 = { relativeTime := curve.c3.x, relativeValue := curve.c3.y } := by
    simp [bezierPoint, bernstein]
  have hf0 := CurvePointOnBezierCurveAtT_le_zero curve 0 (le_refl 0)
  have hf1 := CurvePointOnBezierCurveAtT_ge_one curve 1 (le_refl 1)
  have i0 : CurvePointOnBezierCurveAtT curve 0 = bezierPoint curve 0 ↔
      curve.c0 = { x := 0, y := 0 } := by
    rw [hf0, hb0]
    constructor
    · intro h
      have hx : (0 : K) = curve.c0.x := congrArg CCurvePoint.relativeTime h
      have hy : (0 : K) = curve.c0.y := congrArg CCurvePoint.relativeValue h
      cases hc : curve.c0 with
      | mk x y =>
        rw [hc] at hx hy
        simp only at hx hy
        rw [← hx, ← hy]
    · intro h
      rw [h]
  have i1 : CurvePointOnBezierCurveAtT curve 1 = bezierPoint curve 1 ↔
      curve.c3 = { x := 1, y := 1 } := by
    rw [hf1, hb1]
    constructor
    · intro h
      have hx : (1 : K) = curve.c3.x := congrArg CCurvePoint.relativeTime h
      have hy : (1 : K) = curve.c3.y := congrArg CCurvePoint.relativeValue h
      cases hc : curve.c3 with
      | mk x y =>
        rw [hc] at hx hy
        simp only at hx hy
        rw [← hx, ← hy]
    · intro h
      rw [h]
  refine ⟨⟨?_, ?_, ?_, ?_⟩, ⟨?_, ?_, ?_, ?_⟩, ⟨hb0, hb1⟩, i0, i1, ?_⟩
  · simp [coefficientsFromCurve]
  · simp [coefficientsFromCurve]
  · simp [coefficientsFromCurve]; ring
  · simp [coefficientsFromCurve]; ring
  · simp [CubicCoefficients.eval, coefficientsFromCurve]
  · simp [CubicCoefficients.eval, coefficientsFromCurve]
  · simp [CubicCoefficients.eval, coefficientsFromCurve]; ring
  · simp [CubicCoefficients.eval, coefficientsFromCurve]; ring
  · intro h0 h3 t ht0 ht1
    rcases CurvePointOnBezierCurveAtT_cases curve t with ⟨hle, _⟩ | ⟨hge, _⟩ | ⟨_, _, h⟩
    · have : t = 0 := le_antisymm hle ht0
      rw [this]
      exact i0.mpr h0
    · have : t = 1 := le_antisymm ht1 hge
      rw [this]
      exact i1.mpr h3
    · exact h

/-- Witness of claim C19: the curve "ease", which starts at `(0, 0)` and ends at
`(1, 1)`, at `t = 0`, `1/2` and `1`, and a curve that starts at `(5, 7)`, whose
forward evaluation at 0 is not its start point. -/
theorem clamp_agrees_with_easing_endpoints_witness :
    CurvePointOnBezierCurveAtT (easeCurve ℚ) 0 = bezierPoint (easeCurve ℚ) 0 ∧
      CurvePointOnBezierCurveAtT (easeCurve ℚ) (1 / 2) = bezierPoint (easeCurve ℚ) (1 / 2) ∧
      CurvePointOnBezierCurveAtT (easeCurve ℚ) 1 = bezierPoint (easeCurve ℚ) 1 ∧
      CurvePointOnBezierCurveAtT (shiftedCurve ℚ) 0 ≠ bezierPoint (shiftedCurve ℚ) 0 := by
  have h := (clamp_agrees_with_easing_endpoints (easeCurve ℚ)).2.2.2.2.2 rfl rfl
  refine ⟨h 0 (le_refl 0) zero_le_one, h (1 / 2) (by norm_num) (by norm_num),
    h 1 zero_le_one (le_refl 1), ?_⟩
  intro hcon
  have := (clamp_agrees_with_easing_endpoints (shiftedCurve ℚ)).2.2.2.1.mp hcon
  simp [shiftedCurve] at this

/-- Claim C20, amended: in exact real arithmetic, for every curve with
`c0.x = 0 <= c1.x <= c2.x <= c3.x = 1`, the map from `t` to the `relativeTime`
of the forward evaluation is non-decreasing over all real `t`, clamped branches
included, and strictly increasing on `(0, 1)`, so that each target in `(0, 1)`
is attained at exactly one parameter in `(0, 1)`. -/
theorem time_is_monotone (curve : CCubicBezierCurve ℝ)
    (hc0 : curve.c0.x = 0) (h01 : curve.c0.x ≤ curve.c1.x) (h12 : curve.c1.x ≤ curve.c2.x)
    (h23 : curve.c2.x ≤ curve.c3.x) (hc3 : curve.c3.x = 1) :
    (∀ t1 t2 : ℝ, t1 ≤ t2 →
        (CurvePointOnBezierCurveAtT curve t1).relativeTime ≤
          (CurvePointOnBezierCurveAtT curve t2).relativeTime) ∧
      (∀ t1 t2 : ℝ, 0 < t1 → t1 < t2 → t2 < 1 →
        (CurvePointOnBezierCurveAtT curve t1).relativeTime <
          (CurvePointOnBezierCurveAtT curve t2).relativeTime) ∧
      (∀ target : ℝ, 0 < target → target < 1 →
        ∃! s : ℝ, (0 < s ∧ s < 1) ∧
          (CurvePointOnBezierCurveAtT curve s).relativeTime = target) := by
  have h03 : curve.c0.x < curve.c3.x := by rw [hc0, hc3]; exact zero_lt_one
  have hends := xEval_endpoints curve
  have hx0 : 0 ≤ curve.c0.x ∧ curve.c0.x ≤ 1 := by rw [hc0]; exact ⟨le_refl 0, zero_le_one⟩
  have hx3 : 0 ≤ curve.c3.x ∧ curve.c3.x ≤ 1 := by rw [hc3]; exact ⟨zero_le_one, le_refl 1⟩
  have hx1 : 0 ≤ curve.c1.x ∧ curve.c1.x ≤ 1 := ⟨by linarith, by linarith⟩
  have hx2 : 0 ≤ curve.c2.x ∧ curve.c2.x ≤ 1 := ⟨by linarith, by linarith⟩
  have hint : ∀ t : ℝ, 0 < t → t < 1 → (CurvePointOnBezierCurveAtT curve t).relativeTime =
      (coefficientsFromCurve curve Axis.XAxis).eval t := by
    intro t ht0 ht1
    rw [CurvePointOnBezierCurveAtT_interior curve t ht0 ht1]
  have hstrict : ∀ t1 t2 : ℝ, 0 < t1 → t1 < t2 → t2 < 1 →
      (CurvePointOnBezierCurveAtT curve t1).relativeTime <
        (CurvePointOnBezierCurveAtT curve t2).relativeTime := by
    intro t1 t2 h1 h12' h2
    rw [hint t1 h1 (lt_trans h12' h2), hint t2 (lt_trans h1 h12') h2]
    exact xEval_strictMono curve h01 h12 h23 h03 t1 t2 (le_of_lt h1) h12' (le_of_lt h2)
  refine ⟨?_, hstrict, ?_⟩
  · intro t1 t2 hle
    rcases le_or_lt t1 0 with a0 | a0
    · rw [CurvePointOnBezierCurveAtT_le_zero curve t1 a0]
      exact (forward_time_mem_unit curve t2 hx0 hx1 hx2 hx3).1
    rcases le_or_lt 1 t2 with b1 | b1
    · rw [CurvePointOnBezierCurveAtT_ge_one curve t2 b1]
      exact (forward_time_mem_unit curve t1 hx0 hx1 hx2 hx3).2
    rcases lt_or_eq_of_le hle with hlt | heq
    · exact le_of_lt (hstrict t1 t2 a0 hlt b1)
    · rw [heq]
  · intro target hT0 hT1
    obtain ⟨s, hs0, hs1, hs⟩ :=
      exists_root_unit (coefficientsFromCurve (alignedCurve curve target) Axis.YAxis)
        (by rw [alignedCurve_eval, hends.1, hc0]; linarith)
        (by rw [alignedCurve_eval, hends.2, hc3]; linarith)
    rw [alignedCurve_eval] at hs
    have hval : (coefficientsFromCurve curve Axis.XAxis).eval s = target := by linarith
    have hs0' : 0 < s := by
      rcases lt_or_eq_of_le hs0 with h | h
      · exact h
      · exfalso
        rw [← h, hends.1, hc0] at hval
        linarith
    have hs1' : s < 1 := by
      rcases lt_or_eq_of_le hs1 with h | h
      · exact h
      · exfalso
        rw [h, hends.2, hc3] at hval
        linarith
    refine ⟨s, ⟨⟨hs0', hs1'⟩, by rw [hint s hs0' hs1']; exact hval⟩, ?_⟩
    rintro u ⟨⟨hu0, hu1⟩, hu⟩
    have hs' : (CurvePointOnBezierCurveAtT curve s).relativeTime = target := by
      rw [hint s hs0' hs1']; exact hval
    rcases lt_trichotomy u s with h | h | h
    · have := hstrict u s hu0 h hs1'
      linarith
    · exact h
    · have := hstrict s u hs0' h hu1
      linarith

/-- Witness of the amended claim C20: the curve "ease". -/
theorem time_is_monotone_witness :
    (CurvePointOnBezierCurveAtT (easeCurve ℝ) (-1)).relativeTime ≤
        (CurvePointOnBezierCurveAtT (easeCurve ℝ) (1 / 2)).relativeTime ∧
      (CurvePointOnBezierCurveAtT (easeCurve ℝ) (1 / 4)).relativeTime <
        (CurvePointOnBezierCurveAtT (easeCurve ℝ) (1 / 2)).relativeTime ∧
      (∃! s : ℝ, (0 < s ∧ s < 1) ∧
        (CurvePointOnBezierCurveAtT (easeCurve ℝ) s).relativeTime = 1 / 2) := by
  have h := time_is_monotone (easeCurve ℝ) rfl (by norm_num [easeCurve])
    (by norm_num [easeCurve]) (by norm_num [easeCurve]) rfl
  exact ⟨h.1 (-1) (1 / 2) (by norm_num), h.2.1 (1 / 4) (1 / 2) (by norm_num) (by norm_num)
    (by norm_num), h.2.2 (1 / 2) (by norm_num) (by norm_num)⟩

/-! ## The candidates as complex roots of the depressed cubic -/

/-- The square of the imaginary half of a root of unity of positive index. -/
theorem rootOfUnity_aux (i : ℕ) :
    (Complex.I * ((Real.sqrt 3 : ℝ) : ℂ) * (((-1 : ℝ) ^ i : ℝ) : ℂ)) ^ 2 = -3 := by
  have h3 : (((Real.sqrt 3 : ℝ) : ℂ)) ^ 2 = 3 := by
    have : (Real.sqrt 3) ^ 2 = (3 : ℝ) := Real.sq_sqrt (by norm_num)
    exact_mod_cast this
  have h1 : ((((-1 : ℝ) ^ i : ℝ) : ℂ)) ^ 2 = 1 := by
    have : ((-1 : ℝ) ^ i) ^ 2 = 1 := by
      rw [← pow_mul, mul_comm, pow_mul]; norm_num
    exact_mod_cast this
  rw [mul_pow, mul_pow, Complex.I_sq, h3, h1]
  norm_num

/-- Every value of `rootOfUnity` is a cube root of one. -/
theorem rootOfUnity_cube (i : ℕ) : rootOfUnity i ^ 3 = 1 := by
  rcases Nat.eq_zero_or_pos i with hi | hi
  · rw [hi, rootOfUnity_zero]; norm_num
  · have h : i > 0 := hi
    simp only [rootOfUnity, if_pos h]
    have hx := rootOfUnity_aux i
    generalize Complex.I * ((Real.sqrt 3 : ℝ) : ℂ) * (((-1 : ℝ) ^ i : ℝ) : ℂ) = x at hx
    linear_combination (x / 8 - 3 / 8) * hx

/-- The conjugate of a root of unity of positive index. -/
theorem rootOfUnity_conj {i : ℕ} (hi : 0 < i) :
    (starRingEnd ℂ) (rootOfUnity i) =
      (-1 - Complex.I * ((Real.sqrt 3 : ℝ) : ℂ) * (((-1 : ℝ) ^ i : ℝ) : ℂ)) / 2 := by
  have h : i > 0 := hi
  simp only [rootOfUnity, if_pos h]
  simp only [map_div₀, map_add, map_mul, map_neg, map_one, Complex.conj_I, Complex.conj_ofReal]
  have : (starRingEnd ℂ) (2 : ℂ) = 2 := by
    have := Complex.conj_ofReal 2
    exact_mod_cast this
  rw [this]
  ring

/-- A value of `rootOfUnity` times its conjugate is one. -/
theorem rootOfUnity_mul_conj (i : ℕ) : rootOfUnity i * (starRingEnd ℂ) (rootOfUnity i) = 1 := by
  rcases Nat.eq_zero_or_pos i with hi | hi
  · rw [hi, rootOfUnity_zero]; simp
  · rw [rootOfUnity_conj hi]
    have h : i > 0 := hi
    simp only [rootOfUnity, if_pos h]
    have hx := rootOfUnity_aux i
    generalize Complex.I * ((Real.sqrt 3 : ℝ) : ℂ) * (((-1 : ℝ) ^ i : ℝ) : ℂ) = x at hx
    linear_combination (-1 / 4 : ℂ) * hx

/-- The conjugate of a value of `rootOfUnity` is a cube root of one. -/
theorem rootOfUnity_conj_cube (i : ℕ) : ((starRingEnd ℂ) (rootOfUnity i)) ^ 3 = 1 := by
  rw [← map_pow, rootOfUnity_cube, map_one]

/-- A complex number without imaginary part whose real part solves the
depressed cubic solves it as a complex number. -/
theorem depressed_of_real (p q : ℝ) (z : ℂ) (him : z.im = 0)
    (h : z.re ^ 3 + 3 * p * z.re + 2 * q = 0) :
    z ^ 3 + 3 * (p : ℂ) * z + 2 * (q : ℂ) = 0 := by
  have hz : z = ((z.re : ℝ) : ℂ) := by
    apply Complex.ext
    · simp
    · simp [him]
  rw [hz]
  exact_mod_cast h

/-- Every candidate of the branch chain, real or not, solves the depressed
cubic `y^3 + 3py + 2q = 0` over the complex numbers. -/
theorem cardanoCandidate_sound_complex (p q : ℝ) (i : ℕ) (z : ℂ)
    (h : cardanoCandidate p q i = some z) :
    z ^ 3 + 3 * (p : ℂ) * z + 2 * (q : ℂ) = 0 := by
  by_cases hp : p = 0
  · subst hp
    rw [cardanoCandidate_p_zero] at h
    have hz := (Option.some.inj h).symm
    have hc : (((cbrt (-2 * q) : ℝ) : ℂ)) ^ 3 = ((-2 * q : ℝ) : ℂ) := by
      exact_mod_cast cbrt_cube (-2 * q)
    rw [hz, mul_pow, hc, rootOfUnity_cube]
    push_cast
    ring
  by_cases hq : q = 0
  · subst hq
    rcases lt_or_gt_of_ne hp with hneg | hpos
    · have h' := h
      rw [cardanoCandidate_q_zero_neg hneg] at h'
      have hz := (Option.some.inj h').symm
      have him : z.im = 0 := by rw [hz]; exact Complex.ofReal_im _
      exact depressed_of_real p 0 z him (sound_q_zero p hp i z h)
    · rw [cardanoCandidate_q_zero_pos hpos] at h
      exact absurd h (by simp)
  rcases lt_trichotomy (p ^ 3 + q ^ 2) 0 with hd | hd | hd
  · have h' := h
    rw [cardanoCandidate_disc_neg hq hd] at h'
    have hz := (Option.some.inj h').symm
    have him : z.im = 0 := by rw [hz]; exact Complex.ofReal_im _
    exact depressed_of_real p q z him (sound_disc_neg hq hd i z h)
  · have h' := h
    rw [cardanoCandidate_disc_zero hp hq hd] at h'
    have hz := (Option.some.inj h').symm
    have him : z.im = 0 := by rw [hz]; exact Complex.ofReal_im _
    exact depressed_of_real p q z him (sound_disc_zero hp hq hd i z h)
  · rw [cardanoCandidate_disc_pos hp hq hd] at h
    have hz := (Option.some.inj h).symm
    obtain ⟨hAB, hcube, _⟩ := disc_pos_facts hd
    have w3 := rootOfUnity_cube i
    have wc3 := rootOfUnity_conj_cube i
    have wwc := rootOfUnity_mul_conj i
    generalize cbrt (Real.sqrt (p ^ 3 + q ^ 2) - q) = A at *
    generalize cbrt (Real.sqrt (p ^ 3 + q ^ 2) + q) = B at *
    have hAB' : (A : ℂ) * (B : ℂ) = (p : ℂ) := by exact_mod_cast hAB
    have hcube' : (A : ℂ) ^ 3 - (B : ℂ) ^ 3 = -2 * (q : ℂ) := by exact_mod_cast hcube
    generalize rootOfUnity i = w at *
    generalize (starRingEnd ℂ) w = wc at *
    rw [hz]
    linear_combination (A : ℂ) ^ 3 * w3 - (B : ℂ) ^ 3 * wc3 + hcube' -
      3 * (A : ℂ) * (B : ℂ) * ((A : ℂ) * w - (B : ℂ) * wc) * wwc -
      3 * ((A : ℂ) * w - (B : ℂ) * wc) * hAB'

/-! ## The candidates of the loop, branch by branch -/

/-- The candidates of the loop when `q = 0` and `p < 0`. -/
theorem possibleRoot_q_zero_neg (curve : CCubicBezierCurve ℝ)
    (ha : (coefficientsFromCurve curve Axis.YAxis).a ≠ 0)
    (hq : reducedQ (coefficientsFromCurve curve Axis.YAxis) = 0)
    (hp : reducedP (coefficientsFromCurve curve Axis.YAxis) < 0) (i : ℕ) :
    possibleRoot curve i =
      some (((((-1 : ℝ) ^ i *
        Real.sqrt (-3 * reducedP (coefficientsFromCurve curve Axis.YAxis)) * min (i : ℝ) 1 +
        simpleRoot (coefficientsFromCurve curve Axis.YAxis) : ℝ)) : ℂ)) := by
  rw [possibleRoot_of_leading_ne_zero curve i ha, hq, cardanoCandidate_q_zero_neg hp,
    Option.map_some']
  simp only [simpleRoot]
  push_cast
  rfl

/-- The candidates of the loop when the discriminant is positive. -/
theorem possibleRoot_disc_pos (curve : CCubicBezierCurve ℝ)
    (ha : (coefficientsFromCurve curve Axis.YAxis).a ≠ 0)
    (hp : reducedP (coefficientsFromCurve curve Axis.YAxis) ≠ 0)
    (hq : reducedQ (coefficientsFromCurve curve Axis.YAxis) ≠ 0)
    (hd : 0 < reducedP (coefficientsFromCurve curve Axis.YAxis) ^ 3 +
      reducedQ (coefficientsFromCurve curve Axis.YAxis) ^ 2) (i : ℕ) :
    possibleRoot curve i =
      some (((cbrt (Real.sqrt (reducedP (coefficientsFromCurve curve Axis.YAxis) ^ 3 +
            reducedQ (coefficientsFromCurve curve Axis.YAxis) ^ 2) -
            reducedQ (coefficientsFromCurve curve Axis.YAxis)) : ℝ) : ℂ) * rootOfUnity i -
        ((cbrt (Real.sqrt (reducedP (coefficientsFromCurve curve Axis.YAxis) ^ 3 +
            reducedQ (coefficientsFromCurve curve Axis.YAxis) ^ 2) +
            reducedQ (coefficientsFromCurve curve Axis.YAxis)) : ℝ) : ℂ) *
          (starRingEnd ℂ) (rootOfUnity i) +
        ((simpleRoot (coefficientsFromCurve curve Axis.YAxis) : ℝ) : ℂ)) := by
  rw [possibleRoot_of_leading_ne_zero curve i ha, cardanoCandidate_disc_pos hp hq hd,
    Option.map_some']
  rfl

/-- The candidates of the loop when the discriminant is negative. -/
theorem possibleRoot_disc_neg (curve : CCubicBezierCurve ℝ)
    (ha : (coefficientsFromCurve curve Axis.YAxis).a ≠ 0)
    (hq : reducedQ (coefficientsFromCurve curve Axis.YAxis) ≠ 0)
    (hd : reducedP (coefficientsFromCurve curve Axis.YAxis) ^ 3 +
      reducedQ (coefficientsFromCurve curve Axis.YAxis) ^ 2 < 0) (i : ℕ) :
    possibleRoot curve i =
      some ((((2 * cbrt (Real.sqrt (|reducedP (coefficientsFromCurve curve Axis.YAxis)| ^ 3)) *
        Real.cos ((Real.arccos (-reducedQ (coefficientsFromCurve curve Axis.YAxis) /
          Real.sqrt (|reducedP (coefficientsFromCurve curve Axis.YAxis)| ^ 3)) +
          2 * (i : ℝ) * Real.pi) / 3) +
        simpleRoot (coefficientsFromCurve curve Axis.YAxis) : ℝ)) : ℂ)) := by
  rw [possibleRoot_of_leading_ne_zero curve i ha, cardanoCandidate_disc_neg hq hd,
    Option.map_some']
  simp only [simpleRoot]
  push_cast
  rfl

/-- A candidate without imaginary part and with real part in the unit interval
is accepted. -/
theorem isAccepted_ofReal (candidate : Option ℂ) (x : ℝ) (h : candidate = some (x : ℂ))
    (h0 : 0 ≤ x) (h1 : x ≤ 1) : isAccepted candidate :=
  ⟨(x : ℂ), h, Complex.ofReal_im x, by
    rw [Complex.ofReal_re]; exact (floatIsUniform_iff x).mpr ⟨h0, h1⟩⟩

/-- In the trigonometric branch the candidate of index 0 lies above `cbrt r`,
the one of index 1 below `-cbrt r`, and the one of index 2 strictly between. -/
theorem trig_candidate_order {p q : ℝ} (hd : p ^ 3 + q ^ 2 < 0) :
    cbrt (Real.sqrt (|p| ^ 3)) <
        2 * cbrt (Real.sqrt (|p| ^ 3)) *
          Real.cos ((Real.arccos (-q / Real.sqrt (|p| ^ 3)) + 2 * ((0 : ℕ) : ℝ) * Real.pi) / 3) ∧
      2 * cbrt (Real.sqrt (|p| ^ 3)) *
          Real.cos ((Real.arccos (-q / Real.sqrt (|p| ^ 3)) + 2 * ((1 : ℕ) : ℝ) * Real.pi) / 3) <
        -cbrt (Real.sqrt (|p| ^ 3)) ∧
      -cbrt (Real.sqrt (|p| ^ 3)) <
        2 * cbrt (Real.sqrt (|p| ^ 3)) *
          Real.cos ((Real.arccos (-q / Real.sqrt (|p| ^ 3)) + 2 * ((2 : ℕ) : ℝ) * Real.pi) / 3) ∧
      2 * cbrt (Real.sqrt (|p| ^ 3)) *
          Real.cos ((Real.arccos (-q / Real.sqrt (|p| ^ 3)) + 2 * ((2 : ℕ) : ℝ) * Real.pi) / 3) <
        cbrt (Real.sqrt (|p| ^ 3)) := by
  obtain ⟨_, _, _, hlo, hhi⟩ := disc_neg_facts hd
  obtain ⟨_, hcpos⟩ := disc_neg_cbrt hd
  obtain ⟨k0, k1, k2lo, k2hi⟩ := trig_cos_ranges hlo hhi
  refine ⟨?_, ?_, ?_, ?_⟩ <;> nlinarith

/-! ## A curve with three roots in the unit interval -/

/-- The coefficients and reduced quantities of the three-root curve. -/
theorem threeRootCurve_reduced :
    coefficientsFromCurve (threeRootCurve ℝ) Axis.YAxis =
        { a := 3000, b := -3600, c := 870, d := -54 } ∧
      reducedP (coefficientsFromCurve (threeRootCurve ℝ) Axis.YAxis) = -19 / 300 ∧
      reducedQ (coefficientsFromCurve (threeRootCurve ℝ) Axis.YAxis) = -3 / 200 ∧
      simpleRoot (coefficientsFromCurve (threeRootCurve ℝ) Axis.YAxis) = 2 / 5 := by
  have hk : coefficientsFromCurve (threeRootCurve ℝ) Axis.YAxis =
      { a := 3000, b := -3600, c := 870, d := -54 } := by
    simp [coefficientsFromCurve, threeRootCurve]
    refine ⟨?_, ?_, ?_⟩ <;> norm_num
  refine ⟨hk, ?_, ?_, ?_⟩
  · rw [hk]; norm_num [reducedP]
  · rw [hk]; norm_num [reducedQ]
  · rw [hk]; norm_num [simpleRoot]

/-- The three candidates of the loop for the three-root curve: `9/10` at index
0, `1/10` at index 1 and `1/5` at index 2. -/
theorem threeRootCurve_candidates :
    possibleRoot (threeRootCurve ℝ) 0 = some (((9 / 10 : ℝ)) : ℂ) ∧
      possibleRoot (threeRootCurve ℝ) 1 = some (((1 / 10 : ℝ)) : ℂ) ∧
      possibleRoot (threeRootCurve ℝ) 2 = some (((1 / 5 : ℝ)) : ℂ) := by
  obtain ⟨hk, hp, hq, hs⟩ := threeRootCurve_reduced
  have ha : (coefficientsFromCurve (threeRootCurve ℝ) Axis.YAxis).a ≠ 0 := by
    rw [hk]; norm_num
  have hq0 : reducedQ (coefficientsFromCurve (threeRootCurve ℝ) Axis.YAxis) ≠ 0 := by
    rw [hq]; norm_num
  have hd : reducedP (coefficientsFromCurve (threeRootCurve ℝ) Axis.YAxis) ^ 3 +
      reducedQ (coefficientsFromCurve (threeRootCurve ℝ) Axis.YAxis) ^ 2 < 0 := by
    rw [hp, hq]; norm_num
  have c0 := possibleRoot_disc_neg (threeRootCurve ℝ) ha hq0 hd 0
  have c1 := possibleRoot_disc_neg (threeRootCurve ℝ) ha hq0 hd 1
  have c2 := possibleRoot_disc_neg (threeRootCurve ℝ) ha hq0 hd 2
  have s0 := sound_disc_neg hq0 hd 0 _ (cardanoCandidate_disc_neg hq0 hd 0)
  have s1 := sound_disc_neg hq0 hd 1 _ (cardanoCandidate_disc_neg hq0 hd 1)
  have s2 := sound_disc_neg hq0 hd 2 _ (cardanoCandidate_disc_neg hq0 hd 2)
  rw [Complex.ofReal_re] at s0 s1 s2
  obtain ⟨o0, o1, o2lo, o2hi⟩ :=
    trig_candidate_order (q := reducedQ (coefficientsFromCurve (threeRootCurve ℝ) Axis.YAxis)) hd
  obtain ⟨hc2, hcpos⟩ := disc_neg_cbrt hd
  rw [hs] at c0 c1 c2
  generalize 2 * cbrt (Real.sqrt (|reducedP (coefficientsFromCurve (threeRootCurve ℝ) Axis.YAxis)| ^ 3)) *
    Real.cos ((Real.arccos (-reducedQ (coefficientsFromCurve (threeRootCurve ℝ) Axis.YAxis) /
      Real.sqrt (|reducedP (coefficientsFromCurve (threeRootCurve ℝ) Axis.YAxis)| ^ 3)) +
      2 * ((0 : ℕ) : ℝ) * Real.pi) / 3) = y0 at *
  generalize 2 * cbrt (Real.sqrt (|reducedP (coefficientsFromCurve (threeRootCurve ℝ) Axis.YAxis)| ^ 3)) *
    Real.cos ((Real.arccos (-reducedQ (coefficientsFromCurve (threeRootCurve ℝ) Axis.YAxis) /
      Real.sqrt (|reducedP (coefficientsFromCurve (threeRootCurve ℝ) Axis.YAxis)| ^ 3)) +
      2 * ((1 : ℕ) : ℝ) * Real.pi) / 3) = y1 at *
  generalize 2 * cbrt (Real.sqrt (|reducedP (coefficientsFromCurve (threeRootCurve ℝ) Axis.YAxis)| ^ 3)) *
    Real.cos ((Real.arccos (-reducedQ (coefficientsFromCurve (threeRootCurve ℝ) Axis.YAxis) /
      Real.sqrt (|reducedP (coefficientsFromCurve (threeRootCurve ℝ) Axis.YAxis)| ^ 3)) +
      2 * ((2 : ℕ) : ℝ) * Real.pi) / 3) = y2 at *
  generalize cbrt (Real.sqrt (|reducedP (coefficientsFromCurve (threeRootCurve ℝ) Axis.YAxis)| ^ 3))
    = c at *
  rw [hp] at hc2
  rw [hp, hq] at s0 s1 s2
  have hc_lo : 1 / 4 < c := by nlinarith
  have hc_hi : c < 3 / 10 := by nlinarith
  have fac : ∀ y : ℝ, y ^ 3 + 3 * (-19 / 300) * y + 2 * (-3 / 200) = 0 →
      y = -3 / 10 ∨ y = -1 / 5 ∨ y = 1 / 2 := by
    intro y hy
    have h : (y + 3 / 10) * ((y + 1 / 5) * (y - 1 / 2)) = 0 := by linear_combination hy
    rcases mul_eq_zero.mp h with h | h
    · left; linarith
    rcases mul_eq_zero.mp h with h | h
    · right; left; linarith
    · right; right; linarith
  have e0 : y0 = 1 / 2 := by
    rcases fac y0 s0 with h | h | h
    · linarith
    · linarith
    · exact h
  have e1 : y1 = -3 / 10 := by
    rcases fac y1 s1 with h | h | h
    · exact h
    · linarith
    · linarith
  have e2 : y2 = -1 / 5 := by
    rcases fac y2 s2 with h | h | h
    · linarith
    · exact h
    · linarith
  refine ⟨?_, ?_, ?_⟩
  · rw [c0, e0]; norm_num
  · rw [c1, e1]; norm_num
  · rw [c2, e2]; norm_num

/-- The solver returns `1/5` for the three-root curve: the candidate of index 2. -/
theorem threeRootCurve_root : rootForCurve (threeRootCurve ℝ) = 1 / 5 := by
  obtain ⟨_, _, c2⟩ := threeRootCurve_candidates
  rw [rootForCurve_unfold, c2, acceptRoot_accepted _ _ (Complex.ofReal_im _)
    (by rw [Complex.ofReal_re]; exact (floatIsUniform_iff _).mpr ⟨by norm_num, by norm_num⟩),
    Complex.ofReal_re]

/-! ## Claims on the branches of the root solver -/

/-- Claim C12: for every curve whose Y-axis coefficients `(a, b, c, d)` have
`a != 0`, every candidate that `rootForCurve` accepts is a real root of the
cubic, so a result `r != 0` satisfies `a*r^3 + b*r^2 + c*r + d = 0`; the
substitution `s = y + simpleRoot` with `p` and `q` as in the code reduces the
cubic to `a * (y^3 + 3p*y + 2q)`, and the formula of every branch solves that
depressed cubic. -/
theorem root_solver_soundness (curve : CCubicBezierCurve ℝ)
    (ha : (coefficientsFromCurve curve Axis.YAxis).a ≠ 0) :
    (∀ (i : ℕ) (z : ℂ), possibleRoot curve i = some z → z.im = 0 →
        floatIsUniform z.re = true →
        (coefficientsFromCurve curve Axis.YAxis).a * z.re ^ 3 +
          (coefficientsFromCurve curve Axis.YAxis).b * z.re ^ 2 +
          (coefficientsFromCurve curve Axis.YAxis).c * z.re +
          (coefficientsFromCurve curve Axis.YAxis).d = 0) ∧
      (rootForCurve curve ≠ 0 →
        (coefficientsFromCurve curve Axis.YAxis).a * rootForCurve curve ^ 3 +
          (coefficientsFromCurve curve Axis.YAxis).b * rootForCurve curve ^ 2 +
          (coefficientsFromCurve curve Axis.YAxis).c * rootForCurve curve +
          (coefficientsFromCurve curve Axis.YAxis).d = 0) ∧
      (∀ s : ℝ,
        (coefficientsFromCurve curve Axis.YAxis).a * s ^ 3 +
          (coefficientsFromCurve curve Axis.YAxis).b * s ^ 2 +
          (coefficientsFromCurve curve Axis.YAxis).c * s +
          (coefficientsFromCurve curve Axis.YAxis).d =
        (coefficientsFromCurve curve Axis.YAxis).a *
          ((s - simpleRoot (coefficientsFromCurve curve Axis.YAxis)) ^ 3 +
            3 * reducedP (coefficientsFromCurve curve Axis.YAxis) *
              (s - simpleRoot (coefficientsFromCurve curve Axis.YAxis)) +
            2 * reducedQ (coefficientsFromCurve curve Axis.YAxis))) ∧
      (∀ (i : ℕ) (z : ℂ),
        cardanoCandidate (reducedP (coefficientsFromCurve curve Axis.YAxis))
          (reducedQ (coefficientsFromCurve curve Axis.YAxis)) i = some z →
        z ^ 3 + 3 * ((reducedP (coefficientsFromCurve curve Axis.YAxis) : ℝ) : ℂ) * z +
          2 * ((reducedQ (coefficientsFromCurve curve Axis.YAxis) : ℝ) : ℂ) = 0) := by
  refine ⟨?_, ?_, ?_, ?_⟩
  · intro i z hz him _
    exact (possibleRoot_sound curve i z hz him).2
  · intro hne
    rcases rootForCurve_zero_or_root curve with h | h
    · exact absurd h hne
    · exact h.2
  · intro s
    exact eval_eq_depressed _ ha s
  · intro i z hz
    exact cardanoCandidate_sound_complex _ _ i z hz

/-- Witness of claim C12: the curve with the cubic
`3000 s^3 - 3600 s^2 + 870 s - 54`, for which the solver returns `1/5`. -/
theorem root_solver_soundness_witness :
    (coefficientsFromCurve (threeRootCurve ℝ) Axis.YAxis).a ≠ 0 ∧
      rootForCurve (threeRootCurve ℝ) = 1 / 5 ∧
      (coefficientsFromCurve (threeRootCurve ℝ) Axis.YAxis).a *
          rootForCurve (threeRootCurve ℝ) ^ 3 +
        (coefficientsFromCurve (threeRootCurve ℝ) Axis.YAxis).b *
          rootForCurve (threeRootCurve ℝ) ^ 2 +
        (coefficientsFromCurve (threeRootCurve ℝ) Axis.YAxis).c * rootForCurve (threeRootCurve ℝ) +
        (coefficientsFromCurve (threeRootCurve ℝ) Axis.YAxis).d = 0 := by
  have ha : (coefficientsFromCurve (threeRootCurve ℝ) Axis.YAxis).a ≠ 0 := by
    rw [threeRootCurve_reduced.1]; norm_num
  have hne : rootForCurve (threeRootCurve ℝ) ≠ 0 := by
    rw [threeRootCurve_root]; norm_num
  exact ⟨ha, threeRootCurve_root, (root_solver_soundness (threeRootCurve ℝ) ha).2.1 hne⟩

/-- Claim C15: for every curve, `rootForCurve` returns the candidate of greatest
index in `{0, 1, 2}` among the accepted ones (imaginary part zero and real part
in `[0, 1]`), and 0 when none is accepted. -/
theorem last_match_wins (curve : CCubicBezierCurve ℝ) :
    (∀ (i : ℕ) (z : ℂ), i ≤ 2 → possibleRoot curve i = some z → z.im = 0 →
        floatIsUniform z.re = true →
        (∀ j, i < j → j ≤ 2 → ¬ isAccepted (possibleRoot curve j)) →
        rootForCurve curve = z.re) ∧
      ((∀ i, i ≤ 2 → ¬ isAccepted (possibleRoot curve i)) → rootForCurve curve = 0) := by
  constructor
  · intro i z hi hz him hu hlater
    rcases rootForCurve_cases curve with ⟨_, hnone⟩ | ⟨i0, hi0, z0, hz0, him0, hu0, hres, hlater0⟩
    · exact absurd ⟨z, hz, him, hu⟩ (hnone i hi)
    · rcases lt_trichotomy i i0 with h | h | h
      · exact absurd ⟨z0, hz0, him0, hu0⟩ (hlater i0 h hi0)
      · subst h
        rw [hz] at hz0
        rw [hres, ← Option.some.inj hz0]
      · exact absurd ⟨z, hz, him, hu⟩ (hlater0 i h hi)
  · intro hnone
    rcases rootForCurve_cases curve with ⟨h, _⟩ | ⟨i0, hi0, z0, hz0, him0, hu0, _, _⟩
    · exact h
    · exact absurd ⟨z0, hz0, him0, hu0⟩ (hnone i0 hi0)

/-- Witness of claim C15: the cubic `3000 s^3 - 3600 s^2 + 870 s - 54` has the
three roots `1/10`, `1/5`, `9/10` in `[0, 1]` and a negative discriminant; the
candidates of index 0, 1, 2 are `9/10`, `1/10`, `1/5`, all accepted, and the
result is `1/5`: neither the smallest root nor the first one found. -/
theorem last_match_wins_witness :
    possibleRoot (threeRootCurve ℝ) 0 = some (((9 / 10 : ℝ)) : ℂ) ∧
      possibleRoot (threeRootCurve ℝ) 1 = some (((1 / 10 : ℝ)) : ℂ) ∧
      possibleRoot (threeRootCurve ℝ) 2 = some (((1 / 5 : ℝ)) : ℂ) ∧
      rootForCurve (threeRootCurve ℝ) = 1 / 5 := by
  obtain ⟨c0, c1, c2⟩ := threeRootCurve_candidates
  refine ⟨c0, c1, c2, ?_⟩
  have h := (last_match_wins (threeRootCurve ℝ)).1 2 _ (le_refl 2) c2 (Complex.ofReal_im _)
    (by rw [Complex.ofReal_re]; exact (floatIsUniform_iff _).mpr ⟨by norm_num, by norm_num⟩)
    (fun j hj hj2 => by omega)
  rw [h, Complex.ofReal_re]

/-- Claim C16: for every curve with a non-zero leading coefficient whose
reduced cubic has `p != 0`, `q != 0` and `Δ = p^3 + q^2 > 0`, the candidate of
index 0 is the real number `cbrt(sqrt(Δ) - q) - cbrt(sqrt(Δ) + q) + simpleRoot`,
it is the only real root of the cubic, the candidates of index 1 and 2 have a
non-zero imaginary part and are never accepted, and `rootForCurve` returns the
candidate of index 0 when it lies in `[0, 1]` and 0 otherwise. -/
theorem disc_pos_one_real_candidate (curve : CCubicBezierCurve ℝ)
    (ha : (coefficientsFromCurve curve Axis.YAxis).a ≠ 0)
    (hp : reducedP (coefficientsFromCurve curve Axis.YAxis) ≠ 0)
    (hq : reducedQ (coefficientsFromCurve curve Axis.YAxis) ≠ 0)
    (hd : 0 < reducedP (coefficientsFromCurve curve Axis.YAxis) ^ 3 +
      reducedQ (coefficientsFromCurve curve Axis.YAxis) ^ 2) :
    possibleRoot curve 0 =
        some (((realCardanoRoot (coefficientsFromCurve curve Axis.YAxis) : ℝ)) : ℂ) ∧
      (∀ s : ℝ,
        (coefficientsFromCurve curve Axis.YAxis).a * s ^ 3 +
          (coefficientsFromCurve curve Axis.YAxis).b * s ^ 2 +
          (coefficientsFromCurve curve Axis.YAxis).c * s +
          (coefficientsFromCurve curve Axis.YAxis).d = 0 ↔
        s = realCardanoRoot (coefficientsFromCurve curve Axis.YAxis)) ∧
      (∀ i : ℕ, 0 < i → ∃ z : ℂ, possibleRoot curve i = some z ∧ z.im ≠ 0) ∧
      (∀ i : ℕ, 0 < i → ¬ isAccepted (possibleRoot curve i)) ∧
      ((0 ≤ realCardanoRoot (coefficientsFromCurve curve Axis.YAxis) ∧
          realCardanoRoot (coefficientsFromCurve curve Axis.YAxis) ≤ 1) →
        rootForCurve curve = realCardanoRoot (coefficientsFromCurve curve Axis.YAxis)) ∧
      (¬ (0 ≤ realCardanoRoot (coefficientsFromCurve curve Axis.YAxis) ∧
          realCardanoRoot (coefficientsFromCurve curve Axis.YAxis) ≤ 1) →
        rootForCurve curve = 0) := by
  have c0 : possibleRoot curve 0 =
      some (((realCardanoRoot (coefficientsFromCurve curve Axis.YAxis) : ℝ)) : ℂ) := by
    rw [possibleRoot_disc_pos curve ha hp hq hd 0, rootOfUnity_zero]
    simp only [realCardanoRoot, map_one, mul_one]
    push_cast
    rfl
  have him : ∀ i : ℕ, 0 < i → ∃ z : ℂ, possibleRoot curve i = some z ∧ z.im ≠ 0 := by
    intro i hi
    refine ⟨_, possibleRoot_disc_pos curve ha hp hq hd i, ?_⟩
    rw [Complex.add_im, Complex.ofReal_im, add_zero, disc_pos_im]
    exact mul_ne_zero (disc_pos_facts hd).2.2 (rootOfUnity_im_ne_zero hi)
  have hrej : ∀ i : ℕ, 0 < i → ¬ isAccepted (possibleRoot curve i) := by
    intro i hi
    obtain ⟨z, hz, hne⟩ := him i hi
    rintro ⟨w, hw, hwim, _⟩
    rw [hz] at hw
    rw [Option.some.inj hw] at hne
    exact hne hwim
  have hroot : (coefficientsFromCurve curve Axis.YAxis).eval
      (realCardanoRoot (coefficientsFromCurve curve Axis.YAxis)) = 0 := by
    have := (possibleRoot_sound curve 0 _ c0 (Complex.ofReal_im _)).2
    rw [Complex.ofReal_re] at this
    exact this
  have hres : rootForCurve curve = acceptRoot 0 (possibleRoot curve 0) := by
    rw [rootForCurve_unfold, acceptRoot_rejected _ _ (hrej 2 (by norm_num)),
      acceptRoot_rejected _ _ (hrej 1 (by norm_num))]
  refine ⟨c0, ?_, him, hrej, ?_, ?_⟩
  · intro s
    constructor
    · intro hs
      have hs' : (coefficientsFromCurve curve Axis.YAxis).eval s = 0 := hs
      rw [eval_eq_depressed _ ha] at hs'
      have hy := (mul_eq_zero.mp hs').resolve_left ha
      have h1 := complete_disc_pos hp hq hd _ hy
      rw [cardanoCandidate_disc_pos hp hq hd 0, rootOfUnity_zero] at h1
      have h2 := congrArg Complex.re (Option.some.inj h1)
      simp only [map_one, mul_one, Complex.sub_re, Complex.ofReal_re] at h2
      simp only [realCardanoRoot, simpleRoot]
      linarith
    · intro hs
      rw [hs]
      exact hroot
  · intro hmem
    rw [hres, c0, acceptRoot_accepted _ _ (Complex.ofReal_im _)
      (by rw [Complex.ofReal_re]; exact (floatIsUniform_iff _).mpr hmem), Complex.ofReal_re]
  · intro hmem
    rw [hres]
    apply acceptRoot_rejected
    rintro ⟨w, hw, _, hu⟩
    rw [c0] at hw
    rw [← Option.some.inj hw, Complex.ofReal_re] at hu
    exact hmem ((floatIsUniform_iff _).mp hu)

/-- Witness of claim C16: the curve "ease" aligned at the target `1/2`, with the
cubic `s^3 - 3/4 s^2 + 3/4 s - 1/2`, `p = 3/16`, `q = -11/64` and
`Δ = 37/1024`: the solver returns the candidate of index 0. -/
theorem disc_pos_one_real_candidate_witness :
    reducedP (coefficientsFromCurve (alignedCurve (easeCurve ℝ) (1 / 2)) Axis.YAxis) = 3 / 16 ∧
      reducedQ (coefficientsFromCurve (alignedCurve (easeCurve ℝ) (1 / 2)) Axis.YAxis)
        = -11 / 64 ∧
      rootForCurve (alignedCurve (easeCurve ℝ) (1 / 2)) =
        realCardanoRoot (coefficientsFromCurve (alignedCurve (easeCurve ℝ) (1 / 2)) Axis.YAxis) := by
  have hk : coefficientsFromCurve (alignedCurve (easeCurve ℝ) (1 / 2)) Axis.YAxis =
      { a := 1, b := -3 / 4, c := 3 / 4, d := -1 / 2 } := by
    rw [alignedCurve_coefficients]
    simp [coefficientsFromCurve, easeCurve]
    norm_num
  have hp : reducedP (coefficientsFromCurve (alignedCurve (easeCurve ℝ) (1 / 2)) Axis.YAxis)
      = 3 / 16 := by
    rw [hk]; norm_num [reducedP]
  have hq : reducedQ (coefficientsFromCurve (alignedCurve (easeCurve ℝ) (1 / 2)) Axis.YAxis)
      = -11 / 64 := by
    rw [hk]; norm_num [reducedQ]
  have h := disc_pos_one_real_candidate (alignedCurve (easeCurve ℝ) (1 / 2))
    (by rw [hk]; norm_num) (by rw [hp]; norm_num) (by rw [hq]; norm_num)
    (by rw [hp, hq]; norm_num)
  refine ⟨hp, hq, ?_⟩
  apply h.2.2.2.2.1
  have hroot := (h.2.1 _).mpr rfl
  generalize realCardanoRoot (coefficientsFromCurve (alignedCurve (easeCurve ℝ) (1 / 2)) Axis.YAxis)
    = s at hroot ⊢
  rw [hk] at hroot
  have hb := ease_half_parameter s (by simp only at hroot; linarith)
  exact ⟨by linarith [hb.1], by linarith [hb.2]⟩

/-- Claim C17: for every curve with a non-zero leading coefficient whose
reduced cubic has `p != 0`, `q != 0` and `Δ = p^3 + q^2 < 0`, the quotient
`-q/r` with `r = sqrt(|p|^3)` lies strictly between -1 and 1, and the three
candidates `2*cbrt(r)*cos((acos(-q/r) + 2*i*pi)/3) + simpleRoot` for
`i = 0, 1, 2` are real, pairwise distinct, and exactly the roots of the cubic. -/
theorem disc_neg_three_real_roots (curve : CCubicBezierCurve ℝ)
    (ha : (coefficientsFromCurve curve Axis.YAxis).a ≠ 0)
    (hp : reducedP (coefficientsFromCurve curve Axis.YAxis) ≠ 0)
    (hq : reducedQ (coefficientsFromCurve curve Axis.YAxis) ≠ 0)
    (hd : reducedP (coefficientsFromCurve curve Axis.YAxis) ^ 3 +
      reducedQ (coefficientsFromCurve curve Axis.YAxis) ^ 2 < 0) :
    (-1 < -reducedQ (coefficientsFromCurve curve Axis.YAxis) /
          Real.sqrt (|reducedP (coefficientsFromCurve curve Axis.YAxis)| ^ 3) ∧
        -reducedQ (coefficientsFromCurve curve Axis.YAxis) /
          Real.sqrt (|reducedP (coefficientsFromCurve curve Axis.YAxis)| ^ 3) < 1) ∧
      (∀ i : ℕ, possibleRoot curve i =
        some (((trigCandidate (coefficientsFromCurve curve Axis.YAxis) i : ℝ)) : ℂ)) ∧
      (trigCandidate (coefficientsFromCurve curve Axis.YAxis) 0 ≠
          trigCandidate (coefficientsFromCurve curve Axis.YAxis) 1 ∧
        trigCandidate (coefficientsFromCurve curve Axis.YAxis) 0 ≠
          trigCandidate (coefficientsFromCurve curve Axis.YAxis) 2 ∧
        trigCandidate (coefficientsFromCurve curve Axis.YAxis) 1 ≠
          trigCandidate (coefficientsFromCurve curve Axis.YAxis) 2) ∧
      (∀ s : ℝ,
        (coefficientsFromCurve curve Axis.YAxis).a * s ^ 3 +
          (coefficientsFromCurve curve Axis.YAxis).b * s ^ 2 +
          (coefficientsFromCurve curve Axis.YAxis).c * s +
          (coefficientsFromCurve curve Axis.YAxis).d = 0 ↔
        s = trigCandidate (coefficientsFromCurve curve Axis.YAxis) 0 ∨
          s = trigCandidate (coefficientsFromCurve curve Axis.YAxis) 1 ∨
          s = trigCandidate (coefficientsFromCurve curve Axis.YAxis) 2) := by
  have _ := hp
  obtain ⟨_, _, _, hlo, hhi⟩ := disc_neg_facts hd
  obtain ⟨_, hcpos⟩ := disc_neg_cbrt hd
  obtain ⟨o0, o1, o2lo, o2hi⟩ :=
    trig_candidate_order (q := reducedQ (coefficientsFromCurve curve Axis.YAxis)) hd
  have hc : ∀ i : ℕ, possibleRoot curve i =
      some (((trigCandidate (coefficientsFromCurve curve Axis.YAxis) i : ℝ)) : ℂ) := by
    intro i
    rw [possibleRoot_disc_neg curve ha hq hd i]
    rfl
  have hroot : ∀ i : ℕ, (coefficientsFromCurve curve Axis.YAxis).eval
      (trigCandidate (coefficientsFromCurve curve Axis.YAxis) i) = 0 := by
    intro i
    have := (possibleRoot_sound curve i _ (hc i) (Complex.ofReal_im _)).2
    rw [Complex.ofReal_re] at this
    exact this
  refine ⟨⟨hlo, hhi⟩, hc, ⟨?_, ?_, ?_⟩, ?_⟩
  · simp only [trigCandidate]
    intro h
    linarith
  · simp only [trigCandidate]
    intro h
    linarith
  · simp only [trigCandidate]
    intro h
    linarith
  · intro s
    constructor
    · intro hs
      have hs' : (coefficientsFromCurve curve Axis.YAxis).eval s = 0 := hs
      obtain ⟨i, hi, hci⟩ := possibleRoot_complete curve ha (fun h => hq h.1) s hs'
      rw [hc i] at hci
      have e : trigCandidate (coefficientsFromCurve curve Axis.YAxis) i = s := by
        have := congrArg Complex.re (Option.some.inj hci)
        simpa using this
      have : i = 0 ∨ i = 1 ∨ i = 2 := by omega
      rcases this with h | h | h
      · left; rw [← e, h]
      · right; left; rw [← e, h]
      · right; right; rw [← e, h]
    · rintro (h | h | h)
      · rw [h]; exact hroot 0
      · rw [h]; exact hroot 1
      · rw [h]; exact hroot 2

/-- Witness of claim C17: the cubic `3000 s^3 - 3600 s^2 + 870 s - 54`, with
`p = -19/300` and `q = -3/200`, whose three candidates are `9/10`, `1/10` and
`1/5`. -/
theorem disc_neg_three_real_roots_witness :
    reducedP (coefficientsFromCurve (threeRootCurve ℝ) Axis.YAxis) = -19 / 300 ∧
      reducedQ (coefficientsFromCurve (threeRootCurve ℝ) Axis.YAxis) = -3 / 200 ∧
      trigCandidate (coefficientsFromCurve (threeRootCurve ℝ) Axis.YAxis) 0 = 9 / 10 ∧
      trigCandidate (coefficientsFromCurve (threeRootCurve ℝ) Axis.YAxis) 1 = 1 / 10 ∧
      trigCandidate (coefficientsFromCurve (threeRootCurve ℝ) Axis.YAxis) 2 = 1 / 5 := by
  obtain ⟨hk, hp, hq, _⟩ := threeRootCurve_reduced
  obtain ⟨c0, c1, c2⟩ := threeRootCurve_candidates
  have h := disc_neg_three_real_roots (threeRootCurve ℝ) (by rw [hk]; norm_num)
    (by rw [hp]; norm_num) (by rw [hq]; norm_num) (by rw [hp, hq]; norm_num)
  have e0 := h.2.1 0
  have e1 := h.2.1 1
  have e2 := h.2.1 2
  rw [c0] at e0
  rw [c1] at e1
  rw [c2] at e2
  refine ⟨hp, hq, ?_, ?_, ?_⟩
  · have := congrArg Complex.re (Option.some.inj e0)
    simp only [Complex.ofReal_re] at this
    exact this.symm
  · have := congrArg Complex.re (Option.some.inj e1)
    simp only [Complex.ofReal_re] at this
    exact this.symm
  · have := congrArg Complex.re (Option.some.inj e2)
    simp only [Complex.ofReal_re] at this
    exact this.symm

/-! ## The square root of a negative number on standard inputs -/

/-- The curve "ease-in-out" aligned at the target `1/2`: the coefficients are
`(13/25, -39/50, 63/50, -1/2)`, so `p = 29/52`, `q = 0` and `simpleRoot = 1/2`. -/
theorem easeInOut_reduced :
    coefficientsFromCurve (alignedCurve (easeInOutCurve ℝ) (1 / 2)) Axis.YAxis =
        { a := 13 / 25, b := -39 / 50, c := 63 / 50, d := -1 / 2 } ∧
      reducedP (coefficientsFromCurve (alignedCurve (easeInOutCurve ℝ) (1 / 2)) Axis.YAxis)
        = 29 / 52 ∧
      reducedQ (coefficientsFromCurve (alignedCurve (easeInOutCurve ℝ) (1 / 2)) Axis.YAxis) = 0 ∧
      simpleRoot (coefficientsFromCurve (alignedCurve (easeInOutCurve ℝ) (1 / 2)) Axis.YAxis)
        = 1 / 2 := by
  have hk : coefficientsFromCurve (alignedCurve (easeInOutCurve ℝ) (1 / 2)) Axis.YAxis =
      { a := 13 / 25, b := -39 / 50, c := 63 / 50, d := -1 / 2 } := by
    rw [alignedCurve_coefficients]
    simp [coefficientsFromCurve, easeInOutCurve]
    refine ⟨?_, ?_, ?_⟩ <;> norm_num
  refine ⟨hk, ?_, ?_, ?_⟩
  · rw [hk]; norm_num [reducedP]
  · rw [hk]; norm_num [reducedQ]
  · rw [hk]; norm_num [simpleRoot]

/-- Claim C2, evaluated at a failing input: the CSS curve "ease-in-out"
`(0,0), (0.42,0), (0.58,1), (1,1)` has non-decreasing x-coordinates, its forward
evaluation at `t = 1/2` is `p = (1/2, 1/2)`, the cubic solved for the target
`p.relativeTime` has `p = 29/52` and `q = 0`, and the inverse evaluation at
`p.relativeTime` returns `(0, 0)`: its `relativeValue` is not within `1e-6` of
`p.relativeValue`. -/
theorem round_trip_at_ease_in_out :
    ((easeInOutCurve ℝ).c0.x ≤ (easeInOutCurve ℝ).c1.x ∧
        (easeInOutCurve ℝ).c1.x ≤ (easeInOutCurve ℝ).c2.x ∧
        (easeInOutCurve ℝ).c2.x ≤ (easeInOutCurve ℝ).c3.x ∧ (0 : ℝ) < 1 / 2 ∧ (1 / 2 : ℝ) < 1) ∧
      CurvePointOnBezierCurveAtT (easeInOutCurve ℝ) (1 / 2) =
        { relativeTime := 1 / 2, relativeValue := 1 / 2 } ∧
      CurvePointIntersectingCurveAtT (easeInOutCurve ℝ)
          (CurvePointOnBezierCurveAtT (easeInOutCurve ℝ) (1 / 2)).relativeTime =
        { relativeTime := 0, relativeValue := 0 } ∧
      ¬ |(CurvePointIntersectingCurveAtT (easeInOutCurve ℝ)
            (CurvePointOnBezierCurveAtT (easeInOutCurve ℝ) (1 / 2)).relativeTime).relativeValue -
          (CurvePointOnBezierCurveAtT (easeInOutCurve ℝ) (1 / 2)).relativeValue| ≤ 1 / 1000000 := by
  have hf : CurvePointOnBezierCurveAtT (easeInOutCurve ℝ) (1 / 2) =
      { relativeTime := 1 / 2, relativeValue := 1 / 2 } := by
    rw [CurvePointOnBezierCurveAtT_interior (easeInOutCurve ℝ) (1 / 2) (by norm_num) (by norm_num)]
    simp [CubicCoefficients.eval, coefficientsFromCurve, easeInOutCurve]
    constructor <;> norm_num
  obtain ⟨_, hp, hq, _⟩ := easeInOut_reduced
  have hinv : CurvePointIntersectingCurveAtT (easeInOutCurve ℝ) (1 / 2) =
      { relativeTime := 0, relativeValue := 0 } := by
    apply CurvePointIntersectingCurveAtT_of_root_zero _ _ (by norm_num) (by norm_num)
    apply rootForCurve_eq_zero_of_sqrt_negative _ hq
    rw [hp]; norm_num
  refine ⟨⟨?_, ?_, ?_, by norm_num, by norm_num⟩, hf, ?_, ?_⟩
  · simp [easeInOutCurve]; norm_num
  · simp [easeInOutCurve]; norm_num
  · simp [easeInOutCurve]; norm_num
  · rw [hf]; exact hinv
  · rw [hf]
    simp only [hinv]
    rw [abs_of_neg (by norm_num)]
    norm_num

/-- Claim C13, evaluated at a failing input: for the curve
`(0,0), (1/4,0), (1/4,0), (1,1/2)` and the target `t = 5/32` the cubic handed to
the solver has the coefficients `(1, -3/4, 3/4, -5/32)`, so `p = 3/16 > 0`,
`q = 0` and `simpleRoot = 1/4`, which lies in `[0, 1]` and is a root of the
cubic; none of the three candidates is a number and `rootForCurve` returns 0,
not `simpleRoot`. -/
theorem degenerate_branch_at_inflection :
    coefficientsFromCurve (alignedCurve (dyadicEaseCurve ℝ) (5 / 32)) Axis.YAxis =
        { a := 1, b := -3 / 4, c := 3 / 4, d := -5 / 32 } ∧
      reducedP (coefficientsFromCurve (alignedCurve (dyadicEaseCurve ℝ) (5 / 32)) Axis.YAxis)
        = 3 / 16 ∧
      reducedQ (coefficientsFromCurve (alignedCurve (dyadicEaseCurve ℝ) (5 / 32)) Axis.YAxis)
        = 0 ∧
      simpleRoot (coefficientsFromCurve (alignedCurve (dyadicEaseCurve ℝ) (5 / 32)) Axis.YAxis)
        = 1 / 4 ∧
      (coefficientsFromCurve (alignedCurve (dyadicEaseCurve ℝ) (5 / 32)) Axis.YAxis).eval (1 / 4)
        = 0 ∧
      (∀ i : ℕ, possibleRoot (alignedCurve (dyadicEaseCurve ℝ) (5 / 32)) i = none) ∧
      rootForCurve (alignedCurve (dyadicEaseCurve ℝ) (5 / 32)) = 0 ∧
      rootForCurve (alignedCurve (dyadicEaseCurve ℝ) (5 / 32)) ≠
        simpleRoot (coefficientsFromCurve (alignedCurve (dyadicEaseCurve ℝ) (5 / 32)) Axis.YAxis) := by
  have hk : coefficientsFromCurve (alignedCurve (dyadicEaseCurve ℝ) (5 / 32)) Axis.YAxis =
      { a := 1, b := -3 / 4, c := 3 / 4, d := -5 / 32 } := by
    rw [alignedCurve_coefficients]
    simp [coefficientsFromCurve, dyadicEaseCurve]
    norm_num
  obtain ⟨hq, hp⟩ := ease_x_reduced (dyadicEaseCurve ℝ) rfl rfl rfl rfl
  have hp' : 0 < reducedP
      (coefficientsFromCurve (alignedCurve (dyadicEaseCurve ℝ) (5 / 32)) Axis.YAxis) := by
    rw [hp]; norm_num
  have hs : simpleRoot
      (coefficientsFromCurve (alignedCurve (dyadicEaseCurve ℝ) (5 / 32)) Axis.YAxis) = 1 / 4 := by
    rw [hk]; norm_num [simpleRoot]
  have hr := rootForCurve_eq_zero_of_sqrt_negative _ hq hp'
  refine ⟨hk, hp, hq, hs, ?_, ?_, hr, ?_⟩
  · rw [hk]; norm_num [CubicCoefficients.eval]
  · intro i
    exact possibleRoot_of_sqrt_negative _ i hq hp'
  · rw [hr, hs]; norm_num

/-! ## Rounding to binary64 -/

/-- The nearest integer when `q` is less than a half away from `m`. -/
theorem roundNearestEven_eq (q : ℚ) (m : ℤ) (h1 : (m : ℚ) - 1 / 2 < q) (h2 : q < m + 1 / 2) :
    roundNearestEven q = m := by
  unfold roundNearestEven
  rcases le_or_lt (m : ℚ) q with h | h
  · have hf : Int.floor q = m := by
      rw [Int.floor_eq_iff]
      exact ⟨h, by linarith⟩
    rw [hf, if_pos (by linarith)]
  · have hf : Int.floor q = m - 1 := by
      rw [Int.floor_eq_iff]
      push_cast
      exact ⟨by linarith, by linarith⟩
    rw [hf]
    push_cast
    rw [if_neg (by linarith), if_pos (by linarith)]
    ring

/-- The rounding of `x` when `2^e <= |x| < 2^(e+1)` and `x` is less than half a
unit `2^(e-52)` away from `m * 2^(e-52)`. -/
theorem roundDouble_eq (x : ℚ) (e m : ℤ) (h1 : (2 : ℚ) ^ e ≤ |x|) (h2 : |x| < (2 : ℚ) ^ (e + 1))
    (hlo : ((m : ℚ) - 1 / 2) * 2 ^ (e - 52) < x) (hhi : x < ((m : ℚ) + 1 / 2) * 2 ^ (e - 52)) :
    roundDouble x = (m : ℚ) * 2 ^ (e - 52) := by
  have hpos : (0 : ℚ) < |x| := lt_of_lt_of_le (by positivity) h1
  have hx : x ≠ 0 := abs_pos.mp hpos
  have hlog : Int.log 2 |x| = e := by
    have ha : e ≤ Int.log 2 |x| :=
      (Int.zpow_le_iff_le_log (by norm_num) hpos).mp (by exact_mod_cast h1)
    have hb : Int.log 2 |x| < e + 1 :=
      (Int.lt_zpow_iff_log_lt (by norm_num) hpos).mp (by exact_mod_cast h2)
    omega
  have hu : (0 : ℚ) < 2 ^ (e - 52) := by positivity
  unfold roundDouble
  rw [if_neg hx, hlog, roundNearestEven_eq (x / 2 ^ (e - 52)) m]
  · rw [lt_div_iff₀ hu]; exact hlo
  · rw [div_lt_iff₀ hu]; exact hhi

/-- Zero is a binary64 number. -/
theorem roundDouble_zero : roundDouble 0 = 0 := by
  simp [roundDouble]

/-- The binary64 coefficients of the steep curve, on either axis:
`(-125/64, 93/32, 3/64, 0)`, all computed without rounding error. -/
theorem steepCurve_coefficientsRounded (axis : Axis) :
    coefficientsFromCurveRounded (steepCurve ℚ) axis =
      { a := -125 / 64, b := 93 / 32, c := 3 / 64, d := 0 } := by
  have r3 : roundDouble 3 = 3 := by
    rw [roundDouble_eq 3 1 (3 * 2 ^ 51)] <;> norm_num
  have rm2 : roundDouble (-2) = -2 := by
    rw [roundDouble_eq (-2) 1 (-(2 ^ 52))] <;> norm_num
  have r364 : roundDouble (3 / 64) = 3 / 64 := by
    rw [roundDouble_eq (3 / 64) (-5) (3 * 2 ^ 51)] <;> norm_num [abs_of_pos]
  have r332 : roundDouble (3 / 32) = 3 / 32 := by
    rw [roundDouble_eq (3 / 32) (-4) (3 * 2 ^ 51)] <;> norm_num [abs_of_pos]
  have ra : roundDouble (-125 / 64) = -125 / 64 := by
    rw [roundDouble_eq (-125 / 64) 0 (-(125 * 2 ^ 46))] <;> norm_num [abs_of_neg]
  have rb : roundDouble (93 / 32) = 93 / 32 := by
    rw [roundDouble_eq (93 / 32) 1 (93 * 2 ^ 46)] <;> norm_num [abs_of_pos]
  have e1 : (3 : ℚ) * 1 = 3 := by norm_num
  have e2 : (1 : ℚ) - 3 = -2 := by norm_num
  have e3 : (3 : ℚ) * (1 / 64) = 3 / 64 := by norm_num
  have e4 : (-2 : ℚ) + 3 / 64 = -125 / 64 := by norm_num
  have e5 : (-125 / 64 : ℚ) - 0 = -125 / 64 := by norm_num
  have e6 : (6 : ℚ) * (1 / 64) = 3 / 32 := by norm_num
  have e7 : (3 : ℚ) - 3 / 32 = 93 / 32 := by norm_num
  have e8 : (3 : ℚ) * 0 = 0 := by norm_num
  have e9 : (93 / 32 : ℚ) + 0 = 93 / 32 := by norm_num
  have e10 : (3 / 64 : ℚ) - 0 = 3 / 64 := by norm_num
  cases axis <;>
    simp only [coefficientsFromCurveRounded, steepCurve, if_true, reduceCtorEq, if_false,
      e1, r3, e2, rm2, e3, r364, e4, ra, e5, e6, r332, e7, rb, e8, roundDouble_zero, e9, e10]

/-- The forward evaluation of the steep curve at `t = 1 - 5/2^51` on binary64
numbers: both fields are `1 + 2^-52`, the double next above 1.  The powers
`t^3`, `t^2` round to `1 - 15/2^51`, `1 - 10/2^51`, the products with the
coefficients to `-(125/64 - 59/2^52)`, `93/32 - 29/2^51`, `3/64 - 15/2^57`, and
the last sum `1 + 17/2^57` rounds up. -/
theorem steepCurve_forwardRounded :
    CurvePointOnBezierCurveAtTRounded (steepCurve ℚ) (1 - 5 / 2 ^ 51) =
      { relativeTime := 1 + 1 / 2 ^ 52, relativeValue := 1 + 1 / 2 ^ 52 } := by
  have hc : ¬ ((1 - 5 / 2 ^ 51 : ℚ) ≤ 0 ∨ (1 - 5 / 2 ^ 51 : ℚ) ≥ 1) := by norm_num
  have p3 : roundDouble ((1 - 5 / 2 ^ 51 : ℚ) ^ 3) = 1 - 15 / 2 ^ 51 := by
    rw [roundDouble_eq _ (-1) (2 ^ 53 - 60)] <;> norm_num [abs_of_pos]
  have p2 : roundDouble ((1 - 5 / 2 ^ 51 : ℚ) ^ 2) = 1 - 10 / 2 ^ 51 := by
    rw [roundDouble_eq _ (-1) (2 ^ 53 - 40)] <;> norm_num [abs_of_pos]
  have p1 : roundDouble ((1 - 5 / 2 ^ 51 : ℚ) ^ 1) = 1 - 5 / 2 ^ 51 := by
    rw [roundDouble_eq _ (-1) (2 ^ 53 - 20)] <;> norm_num [abs_of_pos]
  have p0 : roundDouble ((1 - 5 / 2 ^ 51 : ℚ) ^ 0) = 1 := by
    rw [roundDouble_eq _ 0 (2 ^ 52)] <;> norm_num
  have m3 : roundDouble (-125 / 64 * (1 - 15 / 2 ^ 51)) = -(125 / 64 - 59 / 2 ^ 52) := by
    rw [roundDouble_eq _ 0 (-(125 * 2 ^ 46 - 59))] <;> norm_num [abs_of_neg]
  have a3 : roundDouble (0 + -(125 / 64 - 59 / 2 ^ 52)) = -(125 / 64 - 59 / 2 ^ 52) := by
    rw [roundDouble_eq _ 0 (-(125 * 2 ^ 46 - 59))] <;> norm_num [abs_of_neg]
  have m2 : roundDouble (93 / 32 * (1 - 10 / 2 ^ 51)) = 93 / 32 - 29 / 2 ^ 51 := by
    rw [roundDouble_eq _ 1 (93 * 2 ^ 46 - 29)] <;> norm_num [abs_of_pos]
  have a2 : roundDouble (-(125 / 64 - 59 / 2 ^ 52) + (93 / 32 - 29 / 2 ^ 51)) =
      61 / 64 + 1 / 2 ^ 52 := by
    rw [roundDouble_eq _ (-1) (61 * 2 ^ 47 + 2)] <;> norm_num [abs_of_pos]
  have m1 : roundDouble (3 / 64 * (1 - 5 / 2 ^ 51)) = 3 / 64 - 15 / 2 ^ 57 := by
    rw [roundDouble_eq _ (-5) (3 * 2 ^ 51 - 15)] <;> norm_num [abs_of_pos]
  have a1 : roundDouble (61 / 64 + 1 / 2 ^ 52 + (3 / 64 - 15 / 2 ^ 57)) = 1 + 1 / 2 ^ 52 := by
    rw [roundDouble_eq _ 0 (2 ^ 52 + 1)] <;> norm_num [abs_of_pos]
  have m0 : roundDouble (0 * 1) = 0 := by
    rw [zero_mul, roundDouble_zero]
  have a0 : roundDouble (1 + 1 / 2 ^ 52 + 0) = 1 + 1 / 2 ^ 52 := by
    rw [roundDouble_eq _ 0 (2 ^ 52 + 1)] <;> norm_num [abs_of_pos]
  simp only [CurvePointOnBezierCurveAtTRounded, if_neg hc, steepCurve_coefficientsRounded,
    List.foldl, List.getD, List.get?, Nat.sub_self, Option.getD,
    p3, p2, p1, p0, m3, a3, m2, a2, m1, a1, m0, a0]

/-- Counterexample to claim C18 as stated, on binary64 numbers: the four control
points `(0,0), (1/64,1/64), (1,1), (1,1)` have all coordinates in `[0, 1]`, and
at `t = 1 - 5/2^51` the forward evaluation with the rounding of every operation
returns `1 + 2^-52` in both fields, outside `[0, 1]`. -/
theorem no_overshoot_counterexample :
    ((0 ≤ (steepCurve ℚ).c0.y ∧ (steepCurve ℚ).c0.y ≤ 1) ∧
        (0 ≤ (steepCurve ℚ).c1.y ∧ (steepCurve ℚ).c1.y ≤ 1) ∧
        (0 ≤ (steepCurve ℚ).c2.y ∧ (steepCurve ℚ).c2.y ≤ 1) ∧
        (0 ≤ (steepCurve ℚ).c3.y ∧ (steepCurve ℚ).c3.y ≤ 1)) ∧
      ((0 ≤ (steepCurve ℚ).c0.x ∧ (steepCurve ℚ).c0.x ≤ 1) ∧
        (0 ≤ (steepCurve ℚ).c1.x ∧ (steepCurve ℚ).c1.x ≤ 1) ∧
        (0 ≤ (steepCurve ℚ).c2.x ∧ (steepCurve ℚ).c2.x ≤ 1) ∧
        (0 ≤ (steepCurve ℚ).c3.x ∧ (steepCurve ℚ).c3.x ≤ 1)) ∧
      ¬ (0 ≤ (CurvePointOnBezierCurveAtTRounded (steepCurve ℚ) (1 - 5 / 2 ^ 51)).relativeValue ∧
        (CurvePointOnBezierCurveAtTRounded (steepCurve ℚ) (1 - 5 / 2 ^ 51)).relativeValue ≤ 1) ∧
      ¬ (0 ≤ (CurvePointOnBezierCurveAtTRounded (steepCurve ℚ) (1 - 5 / 2 ^ 51)).relativeTime ∧
        (CurvePointOnBezierCurveAtTRounded (steepCurve ℚ) (1 - 5 / 2 ^ 51)).relativeTime ≤ 1) := by
  rw [steepCurve_forwardRounded]
  refine ⟨⟨?_, ?_, ?_, ?_⟩, ⟨?_, ?_, ?_, ?_⟩, ?_, ?_⟩ <;> norm_num [steepCurve]

/-- The clamped branch of the forward evaluation on binary64 numbers at `t = 1`. -/
theorem forwardRounded_at_one (curve : CCubicBezierCurve ℚ) :
    CurvePointOnBezierCurveAtTRounded curve 1 = { relativeTime := 1, relativeValue := 1 } := by
  simp [CurvePointOnBezierCurveAtTRounded]

/-- Counterexample to claim C20 as stated, on binary64 numbers: the curve
`(0,0), (1/64,1/64), (1,1), (1,1)` has `c0.x = 0 <= c1.x <= c2.x <= c3.x = 1`,
and with the rounding of every operation the `relativeTime` of the forward
evaluation is `1 + 2^-52` at `t = 1 - 5/2^51` and 1 at the larger parameter
`t = 1`. -/
theorem time_is_monotone_counterexample :
    ((steepCurve ℚ).c0.x = 0 ∧ (steepCurve ℚ).c0.x ≤ (steepCurve ℚ).c1.x ∧
        (steepCurve ℚ).c1.x ≤ (steepCurve ℚ).c2.x ∧ (steepCurve ℚ).c2.x ≤ (steepCurve ℚ).c3.x ∧
        (steepCurve ℚ).c3.x = 1) ∧
      (1 - 5 / 2 ^ 51 : ℚ) ≤ 1 ∧
      (CurvePointOnBezierCurveAtTRounded (steepCurve ℚ) (1 - 5 / 2 ^ 51)).relativeTime
        = 1 + 1 / 2 ^ 52 ∧
      (CurvePointOnBezierCurveAtTRounded (steepCurve ℚ) 1).relativeTime = 1 ∧
      ¬ ((CurvePointOnBezierCurveAtTRounded (steepCurve ℚ) (1 - 5 / 2 ^ 51)).relativeTime ≤
        (CurvePointOnBezierCurveAtTRounded (steepCurve ℚ) 1).relativeTime) := by
  rw [steepCurve_forwardRounded, forwardRounded_at_one]
  refine ⟨⟨?_, ?_, ?_, ?_, ?_⟩, ?_, ?_, ?_, ?_⟩ <;> norm_num [steepCurve]

end Delight
